import Mathlib

/-!
# Kylin: runtime shim and program rebuild

A shallow embedding of `src/main.cjs` of kylin-scratch.

* Part I   : JavaScript objects as ordered association lists.
* Part II  : the runtime shim (patched `stepThread`, `kylinCompilerExecute`,
             the `compile` block, the `thread.procedures` resolver, the
             unsandboxed check at load time).
* Part III : the project rebuild (marker blocks, layout, comments, extensions).
* Part IV  : the assembly of generated source (`insertRuntime`) and the list
             helpers of the base runtime (`listIndex`, `listIndexSlow`).

Conventions.  `undefined`/`null` are `none`.  A JavaScript `TypeError` raised by
reading a property of `undefined` is `Except.error`.  An `Obj` holds the own
properties of an object.  The keys of `procedureCache` are sprite names and
procedure names, which the author of a project chooses freely, so there the
test `k in o` is modelled with what it finds through the prototype chain as an
explicit input (`Chain`).  Elsewhere keys are block ids and fixed field names,
and tests and reads are modelled on own properties.
-/

namespace Kylin

/-! ## Part I : objects -/

/-- A JavaScript object used as a string-keyed dictionary; list order is
`Object.keys` order. -/
abbrev Obj (α : Type) := List (String × α)

/-- Property read `o[k]`. -/
def objGet {α : Type} : Obj α → String → Option α
  | [], _ => none
  | (k, v) :: rest, key => if k = key then some v else objGet rest key

/-- Property write `o[k] = v`: an existing key keeps its position, a new key is
appended. -/
def objSet {α : Type} : Obj α → String → α → Obj α
  | [], key, v => [(key, v)]
  | (k, w) :: rest, key, v =>
    if k = key then (k, v) :: rest else (k, w) :: objSet rest key v

/-- The test `k in o`. -/
def objHas {α : Type} (o : Obj α) (key : String) : Bool :=
  (objGet o key).isSome

/-- The list `Object.values(o)`. -/
def objValues {α : Type} (o : Obj α) : List α :=
  o.map Prod.snd

/-- The list `Object.keys(o)`. -/
def objKeys {α : Type} (o : Obj α) : List String :=
  o.map Prod.fst

/-- Removal of a property; also what serialisation does to a property whose
value is `undefined`. -/
def objErase {α : Type} : Obj α → String → Obj α
  | [], _ => []
  | (k, w) :: rest, key => if k = key then objErase rest key else (k, w) :: objErase rest key

/-- JavaScript truthiness of a value that is a string, `null` or `undefined`. -/
def truthy : Option String → Bool
  | none => false
  | some s => !(s == "")

/-! ## Part II : the runtime shim -/

/-- Modelled from the spec: the host's thread statuses (`Thread.STATUS_*` of the
host virtual machine, which is not part of this repository). -/
inductive Status where
  | running
  | promiseWait
  | yield
  | yieldTick
  | done
  deriving DecidableEq, Repr

/-- The record `{ done, value }` returned by `next()`; `value = none` is
`undefined`. -/
structure IterResult (V : Type) where
  done : Bool
  value : Option V
  deriving DecidableEq, Repr

/-- The value `fn` produced by `kylinCompileHat`: either a generator function
(calling it creates a suspended generator object, here its initial state) or an
ordinary function. -/
inductive Callable (N F : Type) where
  | generatorFunction (init : N)
  | function (f : F)

/-- A generator object stored in `thread.kylin`: `native g` is `fn()` for a
generator function `fn`; `wrapper fn finished` is
`(function* () { return fn() })()`, with `finished` telling whether its body has
already run. -/
inductive Gen (N F : Type) where
  | native (g : N)
  | wrapper (fn : F) (finished : Bool)

/-- The fields of a host thread that the shim reads or writes, plus the rest of
the host state `host`. -/
structure Thread (N F H : Type) where
  status : Status
  kylin : Option (Gen N F)
  hasProcedures : Bool
  host : H

/-- Observable calls, recorded in program order. -/
inductive Event where
  | hostStep
  | next
  | callFn
  | retire
  deriving DecidableEq, Repr

/-- A thread together with the record of calls made on it. -/
structure Sched (N F H : Type) where
  thread : Thread N F H
  log : List Event

/-- What the shim calls but does not define: the host's original `stepThread`,
the host's `retireThread`, the body of a generator created by compiled code, an
ordinary compiled function, and the materialisation of source text
(`new Function('globalState', insertRuntime(code))(globalState)` followed by the
application to the thread). -/
structure Env (N F H V : Type) where
  origStepThread : Thread N F H → Thread N F H
  retireThread : Thread N F H → Thread N F H
  nativeNext : N → Thread N F H → IterResult V × N × Thread N F H
  call : F → Thread N F H → Option V × Thread N F H
  kylinCompileHat : String → Thread N F H → Except String (Callable N F)

/-- One call of `next()` on a generator object: the result, the generator's new
state, the thread as the body left it, and whether `fn` was called. The
generator object stays the one attached to the thread. -/
def Gen.next {N F H V : Type} (env : Env N F H V) :
    Gen N F → Thread N F H → IterResult V × Gen N F × Thread N F H × List Event
  | .native g, th =>
    let r := env.nativeNext g th
    (r.1, .native r.2.1, r.2.2, [])
  | .wrapper fn false, th =>
    let r := env.call fn th
    (⟨true, r.1⟩, .wrapper fn true, r.2, [Event.callFn])
  | .wrapper fn true, th => (⟨true, none⟩, .wrapper fn true, th, [])

/-- The statement `const result = thread.kylin.next()` for the attached
generator `g`: the result, the thread afterwards (still holding the generator
object, now advanced) and the calls of `fn` made meanwhile. -/
def resume {N F H V : Type} (env : Env N F H V) (g : Gen N F) (th : Thread N F H) :
    IterResult V × Thread N F H × List Event :=
  let r := Gen.next env g th
  (r.1, { r.2.2.1 with kylin := some r.2.1 }, r.2.2.2)

/-- The function `kylinCompilerExecute(thread)`. The assignment
`globalState.thread = thread` only records which thread the runtime helpers
see and touches no field modelled here. -/
def kylinCompilerExecute {N F H V : Type} (env : Env N F H V) (s : Sched N F H) :
    Except String (Sched N F H) :=
  match s.thread.kylin with
  | none => .error "TypeError: thread.kylin is undefined"
  | some g =>
    let r := resume env g s.thread
    let log := s.log ++ [Event.next] ++ r.2.2
    if r.1.done && decide (r.2.1.status = Status.running) then
      .ok { thread := env.retireThread r.2.1, log := log ++ [Event.retire] }
    else
      .ok { thread := r.2.1, log := log }

/-- The replacement for `Sequencer.prototype.stepThread` installed by the
`Kylin` constructor. -/
def stepThread {N F H V : Type} (env : Env N F H V) (s : Sched N F H) :
    Except String (Sched N F H) :=
  if s.thread.kylin.isSome then
    kylinCompilerExecute env s
  else
    let s1 : Sched N F H :=
      { thread := env.origStepThread s.thread, log := s.log ++ [Event.hostStep] }
    if s1.thread.kylin.isSome && decide (s1.thread.status = Status.yieldTick) then
      kylinCompilerExecute env
        { s1 with thread := { s1.thread with status := Status.running } }
    else
      .ok s1

/-- The block `compile({ CODE }, util)` as far as the thread is concerned:
materialise, normalise to a generator object, install the `procedures` resolver,
and `util.yieldTick()` (modelled from the spec: it leaves the host status at
yield-until-next-tick). The one-time capture of `globalState.Timer` and
`globalState.blockUtility` touches no field modelled here. -/
def compile {N F H V : Type} (env : Env N F H V) (code : String) (th : Thread N F H) :
    Except String (Thread N F H) :=
  match env.kylinCompileHat code th with
  | .error e => .error e
  | .ok (.generatorFunction g0) =>
    .ok { th with kylin := some (.native g0), hasProcedures := true, status := Status.yieldTick }
  | .ok (.function f) =>
    .ok { th with kylin := some (.wrapper f false), hasProcedures := true,
                  status := Status.yieldTick }

/-! ### Procedure resolution (`thread.procedures`) -/

/-- An entry of `inputs` of a runtime block. -/
structure RInput where
  block : Option String
  deriving DecidableEq, Repr

/-- The `mutation` of a runtime block. -/
structure Mutation where
  proccode : Option String
  deriving DecidableEq, Repr

/-- A block of `thread.blockContainer._blocks`; `fields` maps a field name to
its `.value`. -/
structure RBlock where
  opcode : String
  next : Option String
  parent : Option String
  inputs : Obj RInput
  fields : Obj String
  mutation : Option Mutation
  deriving DecidableEq, Repr

/-- The property key that an id, `null` included, denotes in `o[id]`. -/
def jsKey : Option String → String
  | none => "null"
  | some s => s

/-- The call `procedureSignature.substring(1)`. -/
def substring1 (s : String) : String :=
  ⟨s.data.drop 1⟩

/-- The constant `procedureCache`:
`{ [spriteName]: { [procedureSignature]: generatorFunction } }`, as the own
properties of the object and of the per-sprite objects stored in it. -/
abbrev Cache (Fac : Type) := Obj (Obj Fac)

/-- What the operator `in` finds beyond own properties at the moment of one
call of the trap. `procedureCache` and the per-sprite objects are created by
`{}`, so `in` also finds what they inherit (with the standard
`Object.prototype`: `constructor`, `toString`, `valueOf`, `hasOwnProperty`,
`__proto__`, ...).

* `name`: the sprite name is found in `procedureCache` through its prototype
  chain, it being no own key.
* `signature`: the bare signature is found in `procedureCache[name]` without
  being an own entry of the per-sprite object. When `procedureCache[name]` is
  itself an inherited object (the sprite name is no own key), this is the whole
  test `realSignature in procedureCache[name]`. -/
structure Chain where
  name : Bool
  signature : Bool
  deriving DecidableEq, Repr

/-- The names of the members of the standard `Object.prototype`. -/
def objectPrototypeMembers : List String :=
  ["constructor", "__defineGetter__", "__defineSetter__", "hasOwnProperty",
   "__lookupGetter__", "__lookupSetter__", "isPrototypeOf", "propertyIsEnumerable",
   "toString", "valueOf", "__proto__", "toLocaleString"]

/-- The chain of a host whose `Object.prototype` has its standard members, for
a sprite whose cache object (if any) is a plain object. -/
def standardChain (name realSignature : String) : Chain :=
  { name := decide (name ∈ objectPrototypeMembers)
    signature := decide (realSignature ∈ objectPrototypeMembers) }

/-- The own entry stored under (`name`, `realSignature`), if there is one. -/
def cacheLookup {Fac : Type} (cache : Cache Fac) (name realSignature : String) : Option Fac :=
  match objGet cache name with
  | none => none
  | some inner => objGet inner realSignature

/-- The outcome of the test
`name in procedureCache && realSignature in procedureCache[name]` and of the
read `procedureCache[name][realSignature]` that follows a passed test. -/
inductive CacheTest (Fac : Type) where
  | entry (f : Fac)
  | inherited
  | miss
  deriving DecidableEq, Repr

/-- The test `name in procedureCache && realSignature in procedureCache[name]`:
`entry f` when it passes on an own entry, `inherited` when it passes on a
property that is not an own entry, `miss` when it fails. -/
def cacheTest {Fac : Type} (chain : Chain) (cache : Cache Fac) (name realSignature : String) :
    CacheTest Fac :=
  match objGet cache name with
  | some inner =>
    match objGet inner realSignature with
    | some f => .entry f
    | none => if chain.signature then .inherited else .miss
  | none => if chain.name && chain.signature then .inherited else .miss

/-- The two statements
`if (!(name in procedureCache)) procedureCache[name] = {}`. -/
def cacheEnsure {Fac : Type} (chain : Chain) (cache : Cache Fac) (name : String) : Cache Fac :=
  if objHas cache name || chain.name then cache else objSet cache name []

/-- The assignment `procedureCache[name][realSignature] = f`. When `name` is
no own key (the sprite name was found through the prototype chain and no object
was created for it), the assignment adds a property to the inherited object and
the own properties of the cache stay as they are. -/
def cacheStore {Fac : Type} (cache : Cache Fac) (name realSignature : String) (f : Fac) :
    Cache Fac :=
  match objGet cache name with
  | none => cache
  | some inner => objSet cache name (objSet inner realSignature f)

/-- What a resolution returns: the value of a cached or newly materialised
factory applied to the thread, the no-op stub, or `inheritedCall`: the outcome
of the call `procedureCache[name][realSignature](thread)` when the property
read is not an own entry, that is whatever calling the inherited member with the
thread gives in the host, a value or an exception (with the standard members,
`constructor` gives the thread object itself, `toString` a string, and
`__proto__` is not callable). -/
inductive Resolved (Fac : Type) where
  | applied (f : Fac)
  | stub
  | inheritedCall
  deriving DecidableEq, Repr

/-- The method `next` of the stub: `() => ({ done: true, value: undefined })`. -/
def stubNext (V : Type) : IterResult V :=
  ⟨true, none⟩

/-- The array `prototypes`: the `procedures_definition` blocks in container
order, each mapped to `_blocks[v.inputs.custom_block.block]` (which may be
`undefined`). Reading `.block` of a missing `custom_block` input raises. -/
def prototypesOf (blocks : Obj RBlock) : List RBlock → Except String (List (Option RBlock))
  | [] => .ok []
  | v :: rest =>
    if v.opcode = "procedures_definition" then
      match objGet v.inputs "custom_block" with
      | none => .error "TypeError: custom_block is undefined"
      | some i =>
        match prototypesOf blocks rest with
        | .error e => .error e
        | .ok ps => .ok (objGet blocks (jsKey i.block) :: ps)
    else prototypesOf blocks rest

/-- The body of the `if (realSignature === rawSignature)` branch up to the
`break`: the text to materialise, or `none` when the loop is left by `break`. -/
def markerText (blocks : Obj RBlock) (p : RBlock) : Except String (Option String) :=
  match objGet blocks (jsKey p.parent) with
  | none => .error "TypeError: definition is undefined"
  | some definition =>
    match (if truthy definition.next then objGet blocks (jsKey definition.next) else none) with
    | none => .ok none
    | some compileCode =>
      if compileCode.opcode = "kylin_compile" then
        match objGet compileCode.inputs "CODE" with
        | none => .error "TypeError: inputs.CODE is undefined"
        | some i =>
          match objGet blocks (jsKey i.block) with
          | none => .error "TypeError: codeBlock is undefined"
          | some codeBlock =>
            if codeBlock.opcode = "text" then
              match objGet codeBlock.fields "TEXT" with
              | none => .error "TypeError: fields.TEXT is undefined"
              | some t => .ok (some t)
            else .ok none
      else .ok none

/-- The loop `for (const prototype of prototypes)`. -/
def scanPrototypes (blocks : Obj RBlock) (realSignature : String) :
    List (Option RBlock) → Except String (Option String)
  | [] => .ok none
  | none :: _ => .error "TypeError: prototype is undefined"
  | some p :: rest =>
    match p.mutation with
    | none => .error "TypeError: mutation is undefined"
    | some m =>
      if m.proccode = some realSignature then markerText blocks p
      else scanPrototypes blocks realSignature rest

/-- The trap `get(_, procedureSignature)` of the proxy `thread.procedures`, for
a thread whose sprite is named `name` and whose block container holds `blocks`;
`chain` is what `in` finds through the prototype chain at this call. Returns
the result (or the exception) and the cache afterwards. The standard inherited
members do not write to the object they are called on, so the cache is left as
it is by `inheritedCall`. -/
def proceduresGet {Fac : Type} (kylinCompileGenerator : String → Except String Fac)
    (chain : Chain) (cache : Cache Fac) (name : String) (blocks : Obj RBlock)
    (procedureSignature : String) : Except String (Resolved Fac) × Cache Fac :=
  let realSignature := substring1 procedureSignature
  match cacheTest chain cache name realSignature with
  | .entry f => (.ok (.applied f), cache)
  | .inherited => (.ok .inheritedCall, cache)
  | .miss =>
    match prototypesOf blocks (objValues blocks) with
    | .error e => (.error e, cache)
    | .ok prototypes =>
      match scanPrototypes blocks realSignature prototypes with
      | .error e => (.error e, cache)
      | .ok none => (.ok .stub, cache)
      | .ok (some code) =>
        let cache1 := cacheEnsure chain cache name
        match kylinCompileGenerator code with
        | .error e => (.error e, cache1)
        | .ok f => (.ok (.applied f), cacheStore cache1 name realSignature f)

/-- A resolution request: the sprite name of the calling thread's target, the
block container as it is at that moment, the called signature, and what `in`
finds through the prototype chain at that moment. -/
structure Request where
  name : String
  blocks : Obj RBlock
  signature : String
  chain : Chain
  deriving DecidableEq, Repr

/-- The cache after a sequence of resolutions, performed in order. -/
def cacheAfter {Fac : Type} (kylinCompileGenerator : String → Except String Fac) :
    Cache Fac → List Request → Cache Fac
  | cache, [] => cache
  | cache, r :: rest =>
    cacheAfter kylinCompileGenerator
      (proceduresGet kylinCompileGenerator r.chain cache r.name r.blocks r.signature).2 rest

/-! ### Loading -/

/-- The part of the host that loading the shim reads or changes:
`Scratch.extensions.unsandboxed` (`none` when the property is absent), the ids
registered through `Scratch.extensions.register`, whether
`Sequencer.prototype.stepThread` has been replaced, and whether
`Scratch.translate.setup` has been called. -/
structure ScratchHost where
  unsandboxed : Option Bool
  registered : List String
  stepThreadPatched : Bool
  translationsSet : Bool
  deriving DecidableEq, Repr

/-- The message of the error thrown by the unsandboxed check. -/
def unsandboxedError : String :=
  "Kylin Runtime needs to be loaded unsandboxed."

/-- The body of the bootstrap function: the thrown error, if any, and the host
afterwards. -/
def loadShim (h : ScratchHost) : Option String × ScratchHost :=
  if h.unsandboxed = some false then
    (some unsandboxedError, h)
  else
    (none, { h with translationsSet := true, stepThreadPatched := true,
                    registered := h.registered ++ ["kylin"] })

/-! ## Part III : the project rebuild -/

/-- The second element of a serialised input `[kind, value, ...]`: `null`, a
block id, or an inline primitive `[type, text]`. -/
inductive InputValue where
  | null
  | id (s : String)
  | prim (type : Nat) (text : Option String)
  deriving DecidableEq, Repr

/-- A serialised input `[kind, value]` or `[kind, value, obscured]`. -/
structure Input where
  kind : Nat
  value : InputValue
  obscured : Option InputValue
  deriving DecidableEq, Repr

/-- Truthiness of `input[1]`. -/
def InputValue.truthy : InputValue → Bool
  | .null => false
  | .id s => !(s == "")
  | .prim _ _ => true

/-- The property key that `input[1]` denotes in `blocks[input[1]]`. -/
def InputValue.key : InputValue → String
  | .null => "null"
  | .id s => s
  | .prim t v => toString t ++ "," ++ v.getD ""

/-- A block of `project.json`. Absent `x`, `y`, `mutation` are `none`. -/
structure Block where
  opcode : String
  next : Option String
  parent : Option String
  inputs : Obj Input
  fields : Obj String
  shadow : Bool
  topLevel : Bool
  x : Option Int
  y : Option Int
  mutation : Option String
  deriving DecidableEq, Repr

/-- A value of a target's `blocks` mapping: a block object, or the array form
of a top-level primitive. -/
inductive BlockEntry where
  | block (b : Block)
  | array (json : String)
  deriving DecidableEq, Repr

/-- A comment; `rest` stands for its other properties. -/
structure Comment where
  text : String
  rest : String
  deriving DecidableEq, Repr

/-- A target of `project.json`; `rest` stands for its other properties. -/
structure Target where
  isStage : Bool
  name : String
  blocks : Obj BlockEntry
  comments : Obj Comment
  rest : String
  deriving DecidableEq, Repr

/-- The descriptor `project.json`; `extensions = none` when it is not an array,
`extensionURLs = none` when it is not an object. -/
structure Project where
  targets : List Target
  extensions : Option (List String)
  extensionURLs : Option (Obj String)
  rest : String
  deriving DecidableEq, Repr

/-- An entry of `target.blocks._cache.compiledScripts`; `startingFunction` is
`value.startingFunction.toString()`. -/
structure CompiledScript where
  success : Bool
  startingFunction : String
  deriving DecidableEq, Repr

/-- An entry of `target.blocks._cache.compiledProcedures`;
`cachedCompileResult` is its `toString()`. -/
structure ProcedureInfo where
  topBlockId : String
  cachedCompileResult : String
  deriving DecidableEq, Repr

/-- The compiler's results for one runtime target. -/
structure TargetCache where
  compiledScripts : Obj CompiledScript
  compiledProcedures : List ProcedureInfo
  deriving DecidableEq, Repr

/-- External collaborators of the rebuild: `obfuscateCode` (`none` when the
minifier yields no code), the successive results of `uid()`, and the value
written to `extensionURLs['kylin']`. -/
structure Tools where
  obfuscateCode : String → Option String
  uid : Nat → String
  bootstrap : String

/-- The constant `xOffset`. -/
def xOffset : Nat := 250

/-- The constant `yOffset`. -/
def yOffset : Nat := 150

/-- The counters `xIndex`, `yIndex` and the flag `hasBlock` of one target,
with the target's new `blocks` mapping. -/
structure RebuildState where
  blocks : Obj BlockEntry
  xIndex : Nat
  yIndex : Nat
  hasBlock : Bool
  deriving DecidableEq, Repr

/-- The marker block written under `hat.next` or `definition.next`. -/
def markerBlock (tools : Tools) (parentId code : String) : Block :=
  { opcode := "kylin_compile"
    next := none
    parent := some parentId
    inputs := [("CODE", { kind := 1, value := .prim 10 (tools.obfuscateCode code),
                          obscured := none })]
    fields := []
    shadow := false
    topLevel := false
    x := none
    y := none
    mutation := none }

/-- The positioning statement shared by hats and definitions
(`if (b.x !== undefined && b.x !== undefined) { ... }`). -/
def place (b : Block) (xIndex yIndex : Nat) : Block × Nat × Nat :=
  if b.x.isSome && b.x.isSome then
    let xi := if yIndex > 5 then xIndex + 1 else xIndex
    let yi := if yIndex > 5 then 0 else yIndex
    ({ b with x := some ((xi * xOffset : Nat) : Int), y := some ((yi * yOffset : Nat) : Int) },
      xi, yi + 1)
  else (b, xIndex, yIndex)

/-- One iteration of the loop over `compiledScripts`. -/
def rebuildHat (tools : Tools) (src : Obj BlockEntry) (st : RebuildState)
    (hatId : String) (r : CompiledScript) : Except String RebuildState :=
  if r.success then
    match objGet src hatId with
    | none => .error "TypeError: hat is undefined"
    | some (.array a) => .ok { st with blocks := objSet st.blocks hatId (.array a) }
    | some (.block b) =>
      let p := place b st.xIndex st.yIndex
      let hat := p.1
      let blocks1 := objSet st.blocks hatId (.block hat)
      if truthy hat.next then
        .ok { blocks := objSet blocks1 (jsKey hat.next)
                (.block (markerBlock tools hatId r.startingFunction))
              xIndex := p.2.1, yIndex := p.2.2, hasBlock := true }
      else
        .ok { st with blocks := blocks1, xIndex := p.2.1, yIndex := p.2.2 }
  else .ok st

/-- The loop over `Object.entries(compiledScripts)`. -/
def rebuildHats (tools : Tools) (src : Obj BlockEntry) :
    RebuildState → List (String × CompiledScript) → Except String RebuildState
  | st, [] => .ok st
  | st, (hatId, r) :: rest =>
    match rebuildHat tools src st hatId r with
    | .error e => .error e
    | .ok st1 => rebuildHats tools src st1 rest

/-- The loop `for (const [, parameterId] of Object.values(prototype.inputs))`;
a parameter whose source block is `undefined` leaves no entry in the
serialised mapping. -/
def cloneParameters (src : Obj BlockEntry) : Obj BlockEntry → List Input → Obj BlockEntry
  | blocks, [] => blocks
  | blocks, i :: rest =>
    if i.value.truthy then
      match objGet src i.value.key with
      | none => cloneParameters src (objErase blocks i.value.key) rest
      | some e => cloneParameters src (objSet blocks i.value.key e) rest
    else cloneParameters src blocks rest

/-- One iteration of the loop over `compiledProcedures`. -/
def rebuildProcedure (tools : Tools) (src : Obj BlockEntry) (st : RebuildState)
    (info : ProcedureInfo) : Except String RebuildState :=
  match objGet src info.topBlockId with
  | none => .error "TypeError: definition is undefined"
  | some (.array _) => .error "TypeError: definition.inputs is undefined"
  | some (.block b) =>
    let p := place b st.xIndex st.yIndex
    let definition := p.1
    let blocks1 := objSet st.blocks info.topBlockId (.block definition)
    match objGet definition.inputs "custom_block" with
    | none => .error "TypeError: custom_block is undefined"
    | some cb =>
      match objGet src cb.value.key with
      | none => .error "TypeError: prototype is undefined"
      | some (.array _) => .error "TypeError: prototype.inputs is undefined"
      | some (.block proto) =>
        let blocks2 := objSet blocks1 cb.value.key (.block proto)
        let blocks3 := cloneParameters src blocks2 (objValues proto.inputs)
        if truthy definition.next then
          .ok { blocks := objSet blocks3 (jsKey definition.next)
                  (.block (markerBlock tools info.topBlockId info.cachedCompileResult))
                xIndex := p.2.1, yIndex := p.2.2, hasBlock := true }
        else
          .ok { st with blocks := blocks3, xIndex := p.2.1, yIndex := p.2.2 }

/-- The loop over `Object.values(compiledProcedures)`. -/
def rebuildProcedures (tools : Tools) (src : Obj BlockEntry) :
    RebuildState → List ProcedureInfo → Except String RebuildState
  | st, [] => .ok st
  | st, info :: rest =>
    match rebuildProcedure tools src st info with
    | .error e => .error e
    | .ok st1 => rebuildProcedures tools src st1 rest

/-- The call `text.endsWith(suffix)`. -/
def endsWith (text suffix : String) : Bool :=
  suffix.data.reverse.isPrefixOf text.data.reverse

/-- The call `text.startsWith(start)`. -/
def startsWith (text start : String) : Bool :=
  start.data.isPrefixOf text.data

/-- The comment-deletion loop of one target. -/
def keepComments (isStage : Bool) (comments : Obj Comment) : Obj Comment :=
  comments.filter (fun c => !(!isStage || !endsWith c.2.text "// _twconfig_"))

/-- The body of the loop over `vm.runtime.targets` for one target. -/
def rebuildTarget (tools : Tools) (t : Target) (c : TargetCache) : Except String Target :=
  let st0 : RebuildState := { blocks := [], xIndex := 0, yIndex := 0, hasBlock := false }
  match rebuildHats tools t.blocks st0 c.compiledScripts with
  | .error e => .error e
  | .ok st1 =>
    match rebuildProcedures tools t.blocks st1 c.compiledProcedures with
    | .error e => .error e
    | .ok st2 =>
      .ok { t with blocks := st2.blocks, comments := keepComments t.isStage t.comments }

/-- The loop over `Object.entries(vm.runtime.targets)`: the runtime target of
index `i` is rebuilt into `project.targets[i]`; targets of the descriptor beyond
the runtime's are left as they are. -/
def rebuildTargets (tools : Tools) : List Target → List TargetCache → Except String (List Target)
  | ts, [] => .ok ts
  | [], _ :: _ => .error "TypeError: project.targets[index] is undefined"
  | t :: ts, c :: cs =>
    match rebuildTarget tools t c with
    | .error e => .error e
    | .ok t1 =>
      match rebuildTargets tools ts cs with
      | .error e => .error e
      | .ok ts1 => .ok (t1 :: ts1)

/-- The inner loop of the extension scan over one target's blocks. -/
def findOpcodeInBlocks (extension : String) : List BlockEntry → Option String
  | [] => none
  | .array _ :: rest => findOpcodeInBlocks extension rest
  | .block b :: rest =>
    if startsWith b.opcode (extension ++ "_") then some b.opcode
    else findOpcodeInBlocks extension rest

/-- The scan `for (const target of source.targets) ...` for one extension id. -/
def findOpcode (extension : String) : List Target → Option String
  | [] => none
  | t :: rest =>
    match findOpcodeInBlocks extension (objValues t.blocks) with
    | some op => some op
    | none => findOpcode extension rest

/-- The placeholder block that keeps an extension a dependency. -/
def placeholderBlock (opcode : String) : Block :=
  { opcode := opcode
    next := none
    parent := none
    inputs := []
    fields := []
    shadow := true
    topLevel := true
    x := none
    y := none
    mutation := none }

/-- The loop `for (const extension of project.extensions)`: `blocks0` is
`project.targets[0].blocks` (`none` when there is no first target) and `n` the
number of calls of `uid()` made so far. -/
def keepExtensions (tools : Tools) (sourceTargets : List Target) :
    Option (Obj BlockEntry) → Nat → List String → Except String (Option (Obj BlockEntry))
  | blocks0, _, [] => .ok blocks0
  | blocks0, n, extension :: rest =>
    match findOpcode extension sourceTargets with
    | none => keepExtensions tools sourceTargets blocks0 n rest
    | some opcode =>
      match blocks0 with
      | none => .error "TypeError: project.targets[0] is undefined"
      | some b =>
        keepExtensions tools sourceTargets
          (some (objSet b (tools.uid n) (.block (placeholderBlock opcode)))) (n + 1) rest

/-- The first target's `blocks` of a target list. -/
def firstBlocks : List Target → Option (Obj BlockEntry)
  | [] => none
  | t :: _ => some t.blocks

/-- Replacement of the first target's `blocks`. -/
def setFirstBlocks : List Target → Option (Obj BlockEntry) → List Target
  | t :: rest, some b => { t with blocks := b } :: rest
  | ts, _ => ts

/-- The whole rebuild: `project.json` as written to the destination, from the
source descriptor `source` and the compiler's per-target results `caches`. -/
def rebuild (tools : Tools) (source : Project) (caches : List TargetCache) :
    Except String Project :=
  match rebuildTargets tools source.targets caches with
  | .error e => .error e
  | .ok targets1 =>
    let urls : Obj String := objSet (source.extensionURLs.getD []) "kylin" tools.bootstrap
    match source.extensions with
    | none =>
      .ok { source with targets := targets1, extensionURLs := some urls }
    | some exts =>
      match keepExtensions tools source.targets (firstBlocks targets1) 0 exts with
      | .error e => .error e
      | .ok blocks0 =>
        .ok { source with targets := setFirstBlocks targets1 blocks0,
                          extensions := some (exts ++ ["kylin"]),
                          extensionURLs := some urls }

/-! ## Predicates used to state properties of the rebuild -/

/-- The id `P` is that of a successfully compiled hat or of a rebuilt procedure
definition of the runtime target whose results are `c`. -/
def IsCompiledTop (c : TargetCache) (P : String) : Prop :=
  (∃ r, (P, r) ∈ c.compiledScripts ∧ r.success = true) ∨
  (∃ info, info ∈ c.compiledProcedures ∧ info.topBlockId = P)

/-- The mapping `m` holds under `P` a copy of the source block `P`, and the
`next` of both is `k`. -/
def CopyAt (src m : Obj BlockEntry) (P k : String) : Prop :=
  ∃ hb sb, objGet m P = some (.block hb) ∧ objGet src P = some (.block sb) ∧
    hb.next = some k ∧ sb.next = some k

/-- Every `kylin_compile` block of `m` has no successor and a parent `P`
satisfying `top` under which `m` holds a copy whose `next` is that block. -/
def MarkerInv (top : String → Prop) (src m : Obj BlockEntry) : Prop :=
  ∀ k b, objGet m k = some (.block b) → b.opcode = "kylin_compile" →
    b.next = none ∧ ∃ P, b.parent = some P ∧ top P ∧ CopyAt src m P k

/-- The id `k` is that of the prototype of a rebuilt procedure definition:
`definition.inputs.custom_block[1]`. -/
def IsPrototypeOf (src : Obj BlockEntry) (c : TargetCache) (k : String) : Prop :=
  ∃ info b cb, info ∈ c.compiledProcedures ∧
    objGet src info.topBlockId = some (.block b) ∧
    objGet b.inputs "custom_block" = some cb ∧ cb.value.key = k

/-- The id `k` is that of a parameter block of such a prototype: a truthy
`input[1]` of one of the prototype's inputs. -/
def IsParameterOf (src : Obj BlockEntry) (c : TargetCache) (k : String) : Prop :=
  ∃ p proto i, IsPrototypeOf src c p ∧ objGet src p = some (.block proto) ∧
    i ∈ objValues proto.inputs ∧ i.value.truthy = true ∧ i.value.key = k

/-- The id `k` is one under which the rebuild copies an original block: a
compiled hat, a rebuilt definition, its prototype or one of its parameters. -/
def IsCopied (src : Obj BlockEntry) (c : TargetCache) (k : String) : Prop :=
  IsCompiledTop c k ∨ IsPrototypeOf src c k ∨ IsParameterOf src c k

/-- The id `k` is the `next` of a compiled hat or rebuilt definition that has a
body: the id under which a marker is written. -/
def IsSuccessor (src : Obj BlockEntry) (c : TargetCache) (k : String) : Prop :=
  ∃ D sb, IsCompiledTop c D ∧ objGet src D = some (.block sb) ∧
    truthy sb.next = true ∧ jsKey sb.next = k

/-- The entry `e` is what a copy of the source block `k` can be: the block
itself, or the block after the positioning statement. -/
def IsCopyOf (src : Obj BlockEntry) (k : String) (e : BlockEntry) : Prop :=
  objGet src k = some e ∨
  ∃ sb xi yi, objGet src k = some (.block sb) ∧ e = .block (place sb xi yi).1

/-- One write of the per-target loop to the new `blocks` mapping. -/
inductive Write (tools : Tools) (src : Obj BlockEntry) (c : TargetCache) :
    Obj BlockEntry → Obj BlockEntry → Prop where
  | clone (m : Obj BlockEntry) (k : String) (e : BlockEntry) :
      IsCopied src c k → objGet src k = some e → Write tools src c m (objSet m k e)
  | placed (m : Obj BlockEntry) (k : String) (sb : Block) (xi yi : Nat) :
      IsCompiledTop c k → objGet src k = some (.block sb) →
      Write tools src c m (objSet m k (.block (place sb xi yi).1))
  | marker (m : Obj BlockEntry) (D : String) (sb : Block) (code : String) :
      IsCompiledTop c D → objGet src D = some (.block sb) → truthy sb.next = true →
      Write tools src c m (objSet m (jsKey sb.next) (.block (markerBlock tools D code)))
  | erase (m : Obj BlockEntry) (k : String) :
      IsParameterOf src c k → objGet src k = none → Write tools src c m (objErase m k)

/-- The mapping `m'` is reached from `m` by writes of the per-target loop. -/
def Reach (tools : Tools) (src : Obj BlockEntry) (c : TargetCache)
    (m m' : Obj BlockEntry) : Prop :=
  Relation.ReflTransGen (Write tools src c) m m'

/-- The entry `e` was written under `k` at some moment, and `final` was reached
from there. -/
def Written (tools : Tools) (src : Obj BlockEntry) (c : TargetCache)
    (k : String) (e : BlockEntry) (final : Obj BlockEntry) : Prop :=
  ∃ m, Reach tools src c (objSet m k e) final

/-- What one iteration is known to have written for the hat or definition `D`
once the mapping `m` is reached: a copy of `D`, and a marker under `D`'s `next`
when it has one. -/
def TopFacts (tools : Tools) (src : Obj BlockEntry) (c : TargetCache)
    (D : String) (m : Obj BlockEntry) : Prop :=
  (∃ e, IsCopyOf src D e ∧ Written tools src c D e m) ∧
  ∀ sb, objGet src D = some (.block sb) → truthy sb.next = true →
    ∃ code, Written tools src c (jsKey sb.next) (.block (markerBlock tools D code)) m

/-- What one iteration over a compiled procedure is known to have written for
the prototype and the parameters of the definition `D`. -/
def SignatureFacts (tools : Tools) (src : Obj BlockEntry) (c : TargetCache)
    (D : String) (m : Obj BlockEntry) : Prop :=
  ∃ b cb proto, objGet src D = some (.block b) ∧
    objGet b.inputs "custom_block" = some cb ∧
    objGet src cb.value.key = some (.block proto) ∧
    Written tools src c cb.value.key (.block proto) m ∧
    ∀ i, i ∈ objValues proto.inputs → i.value.truthy = true →
      ∀ e, objGet src i.value.key = some e → Written tools src c i.value.key e m

/-- What the per-target loop is known to have written when it ends with the
mapping `final`: `final` is reached from the empty mapping; every compiled hat
and rebuilt definition was written as a copy; a marker was written under the
`next` of each of them that has a body; every prototype and every parameter
block that exists in the source was written as it is. -/
def TargetFacts (tools : Tools) (src : Obj BlockEntry) (c : TargetCache)
    (final : Obj BlockEntry) : Prop :=
  Reach tools src c [] final ∧
  (∀ D, IsCompiledTop c D → ∃ e, IsCopyOf src D e ∧ Written tools src c D e final) ∧
  (∀ D sb, IsCompiledTop c D → objGet src D = some (.block sb) → truthy sb.next = true →
    ∃ code, Written tools src c (jsKey sb.next) (.block (markerBlock tools D code)) final) ∧
  (∀ k, IsPrototypeOf src c k →
    ∃ proto, objGet src k = some (.block proto) ∧
      Written tools src c k (.block proto) final) ∧
  (∀ k e, IsParameterOf src c k → objGet src k = some e → Written tools src c k e final)

/-- The blocks `hb` and `sb` agree in every field other than `x` and `y`. -/
def SameButPosition (sb hb : Block) : Prop :=
  hb.opcode = sb.opcode ∧ hb.next = sb.next ∧ hb.parent = sb.parent ∧
  hb.inputs = sb.inputs ∧ hb.fields = sb.fields ∧ hb.shadow = sb.shadow ∧
  hb.topLevel = sb.topLevel ∧ hb.mutation = sb.mutation

/-- The block entries of all targets in scan order: targets in order, then
blocks in order. -/
def scanOrder : List Target → List BlockEntry
  | [] => []
  | t :: rest => objValues t.blocks ++ scanOrder rest

/-- The opcodes of the placeholders the extension loop adds, in order. -/
def placeholderOpcodes (source : Project) : List String :=
  match source.extensions with
  | none => []
  | some exts => exts.filterMap (fun e => findOpcode e source.targets)

/-- The placeholder writes for a list of opcodes, `n` calls of `uid()` having
been made before. -/
def addPlaceholders (tools : Tools) : Obj BlockEntry → Nat → List String → Obj BlockEntry
  | m, _, [] => m
  | m, n, op :: ops =>
    addPlaceholders tools (objSet m (tools.uid n) (.block (placeholderBlock op))) (n + 1) ops

/-- The source block `id` is a block object with an `x` coordinate. -/
def hasX (src : Obj BlockEntry) (id : String) : Bool :=
  match objGet src id with
  | some (.block b) => b.x.isSome
  | _ => false

/-- The number of hats of a list of compiled scripts that get a position. -/
def placedHats (src : Obj BlockEntry) (l : List (String × CompiledScript)) : Nat :=
  (l.filter (fun x => x.2.success && hasX src x.1)).length

/-- The number of definitions of a list of compiled procedures that get a
position. -/
def placedProcedures (src : Obj BlockEntry) (l : List ProcedureInfo) : Nat :=
  (l.filter (fun info => hasX src info.topBlockId)).length

/-- The state in which the per-target loop starts. -/
def initialState : RebuildState :=
  { blocks := [], xIndex := 0, yIndex := 0, hasBlock := false }

/-! ## Part IV : generated source and the list helpers -/

/-- Search for `search` at every position of the text, leftmost first. -/
def includesChars (search : List Char) : List Char → Bool
  | [] => search.isPrefixOf []
  | c :: rest => search.isPrefixOf (c :: rest) || includesChars search rest

/-- The call `text.includes(search)`. -/
def includes (text search : String) : Bool :=
  includesChars search.data text.data

/-- The text a template literal substitutes for a property read `o[k]` of an
object whose values are strings. -/
def templateText : Option String → String
  | none => "undefined"
  | some s => s

/-- The function `insertRuntime`. `baseRuntime` and `runtimeFunctions` are the
arguments the shim is called with: the helper table comes from the host
compiler, which is not part of this repository. -/
def insertRuntime (baseRuntime : String) (runtimeFunctions : Obj String) (source : String) :
    String :=
  let result := (objKeys runtimeFunctions).foldl
    (fun result functionName =>
      if includes source functionName then
        result ++ (templateText (objGet runtimeFunctions functionName) ++ ";")
      else result)
    baseRuntime
  result ++ ("return " ++ source)

/-- Concatenation of a list of texts, in list order. -/
def concatStrings : List String → String
  | [] => ""
  | s :: rest => s ++ concatStrings rest

/-- A JavaScript number, as far as `|| 0` and `| 0` inspect it: an integer
value (both zeros are `int 0`), a finite value that is not an integer (only its
integer part, rounded toward zero, is kept), NaN, or an infinity. -/
inductive JsNumber where
  | int (i : Int)
  | fraction (integerPart : Int)
  | nan
  | infinity (negative : Bool)
  deriving DecidableEq, Repr

/-- The values a list index can be: a number, a string or a boolean. -/
inductive JsValue where
  | number (x : JsNumber)
  | string (s : String)
  | boolean (b : Bool)
  deriving DecidableEq, Repr

/-- The conversion of an integer to a signed 32-bit integer: reduce modulo
`2^32`, then take the representative in `[-2^31, 2^31)`. -/
def wrapInt32 (i : Int) : Int :=
  let m := i % 4294967296
  if m ≥ 2147483648 then m - 4294967296 else m

/-- The expression `x | 0` for a number `x`. -/
def toInt32 : JsNumber → Int
  | .int i => wrapInt32 i
  | .fraction integerPart => wrapInt32 integerPart
  | .nan => 0
  | .infinity _ => 0

/-- Truthiness of a number: false for zero and NaN. -/
def numberTruthy : JsNumber → Bool
  | .int i => decide (i ≠ 0)
  | .fraction _ => true
  | .nan => false
  | .infinity _ => true

/-- The expression `+v`; `stringToNumber` is the language's conversion of a
string to a number. -/
def unaryPlus (stringToNumber : String → JsNumber) : JsValue → JsNumber
  | .number x => x
  | .string s => stringToNumber s
  | .boolean b => if b then .int 1 else .int 0

/-- The expression `x || 0` for a number `x`. -/
def orZero (x : JsNumber) : JsNumber :=
  if numberTruthy x then x else .int 0

/-- The runtime helper `listIndexSlow`. `length` is the length of a list, an
integer; `pick length` is the value of `(Math.random() * length) | 0`. -/
def listIndexSlow (stringToNumber : String → JsNumber) (pick : Int → Int)
    (index : JsValue) (length : Int) : Int :=
  if index = .string "last" then length - 1
  else if index = .string "random" ∨ index = .string "any" then
    if length > 0 then pick length else -1
  else
    let index := toInt32 (orZero (unaryPlus stringToNumber index))
    if index < 1 ∨ index > length then -1 else index - 1

/-- The runtime helper `listIndex`. -/
def listIndex (stringToNumber : String → JsNumber) (pick : Int → Int)
    (index : JsValue) (length : Int) : Int :=
  match index with
  | .number x =>
    let index := toInt32 x
    if index < 1 ∨ index > length then -1 else index - 1
  | .string s => listIndexSlow stringToNumber pick (.string s) length
  | .boolean b => listIndexSlow stringToNumber pick (.boolean b) length

/-! ## Concrete instances -/

/-- A small environment: native generators are counters of remaining yields,
ordinary functions return their own number, `retireThread` sets the status to
done, and the host step executes a `compile` block whose code materialises to
the ordinary function `7`. -/
def demoEnv : Env Nat Nat Unit Nat :=
  { origStepThread := fun th =>
      { th with kylin := some (.wrapper 7 false), hasProcedures := true,
                status := Status.yieldTick }
    retireThread := fun th => { th with status := Status.done }
    nativeNext := fun g th =>
      match g with
      | 0 => (⟨true, some 0⟩, 0, th)
      | k + 1 => (⟨false, none⟩, k, { th with status := Status.yieldTick })
    call := fun f th => (some f, th)
    kylinCompileHat := fun code _ =>
      if code = "gen" then .ok (.generatorFunction 1) else .ok (.function 7) }

/-- A fresh interpreted thread. -/
def freshThread : Thread Nat Nat Unit :=
  { status := Status.running, kylin := none, hasProcedures := false, host := () }

/-- A thread whose attached generator yields once, leaving the status at
yield-until-next-tick. -/
def attachedThread : Thread Nat Nat Unit :=
  { status := Status.running, kylin := some (.native 1), hasProcedures := true, host := () }

/-- A materialiser that accepts every text and yields its length. -/
def demoGenerator : String → Except String Nat :=
  fun code => .ok code.length

/-- The chain for a sprite name and a signature that are no names of inherited
members, such as `Sprite1` and `foo`. -/
def plainChain : Chain :=
  standardChain "Sprite1" "foo"

/-- A cache holding one factory for `Sprite1` under the bare signature `foo`. -/
def demoCache : Cache Nat :=
  [("Sprite1", [("foo", 5)])]

/-- A block container with one compiled procedure `foo`: definition `d`,
prototype `p`, marker `m` and its text block `t`. -/
def demoBlocks : Obj RBlock :=
  [("d", { opcode := "procedures_definition", next := some "m", parent := none,
           inputs := [("custom_block", ⟨some "p"⟩)], fields := [], mutation := none }),
   ("p", { opcode := "procedures_prototype", next := none, parent := some "d",
           inputs := [], fields := [], mutation := some ⟨some "foo"⟩ }),
   ("m", { opcode := "kylin_compile", next := none, parent := some "d",
           inputs := [("CODE", ⟨some "t"⟩)], fields := [], mutation := none }),
   ("t", { opcode := "text", next := none, parent := some "m",
           inputs := [], fields := [("TEXT", "abc")], mutation := none })]

/-- A block container with one procedure `foo` that was never compiled: its
definition has no successor. -/
def plainBlocks : Obj RBlock :=
  [("d", { opcode := "procedures_definition", next := none, parent := none,
           inputs := [("custom_block", ⟨some "p"⟩)], fields := [], mutation := none }),
   ("p", { opcode := "procedures_prototype", next := none, parent := some "d",
           inputs := [], fields := [], mutation := some ⟨some "foo"⟩ })]

/-- A block container with one compiled procedure named `constructor`:
definition `d`, prototype `p`, marker `m` and its text block `t`. -/
def constructorBlocks : Obj RBlock :=
  [("d", { opcode := "procedures_definition", next := some "m", parent := none,
           inputs := [("custom_block", ⟨some "p"⟩)], fields := [], mutation := none }),
   ("p", { opcode := "procedures_prototype", next := none, parent := some "d",
           inputs := [], fields := [], mutation := some ⟨some "constructor"⟩ }),
   ("m", { opcode := "kylin_compile", next := none, parent := some "d",
           inputs := [("CODE", ⟨some "t"⟩)], fields := [], mutation := none }),
   ("t", { opcode := "text", next := none, parent := some "m",
           inputs := [], fields := [("TEXT", "abc")], mutation := none })]

/-- Tools for the examples: the minifier is the identity, `uid()` returns
`u`, `uu`, `uuu`, ... -/
def demoTools : Tools :=
  { obfuscateCode := fun code => some code
    uid := fun n => ⟨List.replicate (n + 1) 'u'⟩
    bootstrap := "data:text/javascript;base64," }

/-- The hat of the example project. -/
def demoHat : Block :=
  { opcode := "event_whenflagclicked", next := some "b1", parent := none, inputs := [],
    fields := [], shadow := false, topLevel := true, x := some 40, y := some 70,
    mutation := none }

/-- One sprite, one hat with a two-block body; the second body block belongs
to the `music` extension. -/
def demoProject : Project :=
  { targets :=
      [{ isStage := false, name := "Sprite1",
         blocks :=
           [("h", .block demoHat),
            ("b1", .block
              { opcode := "motion_movesteps", next := some "b2", parent := some "h",
                inputs := [("STEPS", ⟨1, .prim 4 (some "10"), none⟩)], fields := [],
                shadow := false, topLevel := false, x := none, y := none, mutation := none }),
            ("b2", .block
              { opcode := "music_restForBeats", next := none, parent := some "b1",
                inputs := [("BEATS", ⟨1, .prim 4 (some "1"), none⟩)], fields := [],
                shadow := false, topLevel := false, x := none, y := none, mutation := none })],
         comments := [], rest := "" }]
    extensions := some ["music"]
    extensionURLs := none
    rest := "" }

/-- The compiler's results for `demoProject`: the hat compiled. -/
def demoCaches : List TargetCache :=
  [{ compiledScripts := [("h", ⟨true, "function(){}"⟩)], compiledProcedures := [] }]

/-- The rebuilt `demoProject`. -/
def demoRebuilt : Project :=
  { targets :=
      [{ isStage := false, name := "Sprite1",
         blocks :=
           [("h", .block { demoHat with x := some 0, y := some 0 }),
            ("b1", .block (markerBlock demoTools "h" "function(){}")),
            ("u", .block (placeholderBlock "music_restForBeats"))],
         comments := [], rest := "" }]
    extensions := some ["music", "kylin"]
    extensionURLs := some [("kylin", "data:text/javascript;base64,")]
    rest := "" }

/-- The compiler's results for `demoProject` when the hat failed to compile. -/
def failedCaches : List TargetCache :=
  [{ compiledScripts := [("h", ⟨false, ""⟩)], compiledProcedures := [] }]

/-- The project `demoProject` listing the extension `pen`, of which it uses no
block. -/
def penProject : Project :=
  { demoProject with extensions := some ["pen"] }

/-- The project `demoProject` without an `extensions` array. -/
def bareProject : Project :=
  { demoProject with extensions := none }

/-- A stage and a sprite, with comments and no blocks. -/
def commentedProject : Project :=
  { targets :=
      [{ isStage := true, name := "Stage", blocks := [],
         comments := [("c1", ⟨"Configuration // _twconfig_", ""⟩), ("c2", ⟨"a note", ""⟩)],
         rest := "" },
       { isStage := false, name := "Sprite1", blocks := [],
         comments := [("c3", ⟨"another // _twconfig_", ""⟩)], rest := "" }]
    extensions := some []
    extensionURLs := none
    rest := "" }

/-- The compiler's results for `commentedProject`: nothing to compile. -/
def emptyCaches : List TargetCache :=
  [{ compiledScripts := [], compiledProcedures := [] },
   { compiledScripts := [], compiledProcedures := [] }]

/-- The first prototype named `foo` of `twoFooBlocks`. -/
def firstFoo : RBlock :=
  { opcode := "procedures_prototype", next := none, parent := some "d1",
    inputs := [], fields := [], mutation := some ⟨some "foo"⟩ }

/-- The second prototype named `foo` of `twoFooBlocks`. -/
def secondFoo : RBlock :=
  { opcode := "procedures_prototype", next := none, parent := some "d2",
    inputs := [], fields := [], mutation := some ⟨some "foo"⟩ }

/-- The definition of the first `foo`: it has no successor. -/
def firstFooDefinition : RBlock :=
  { opcode := "procedures_definition", next := none, parent := none,
    inputs := [("custom_block", ⟨some "p1"⟩)], fields := [], mutation := none }

/-- A block container with two procedures of proccode `foo`: the first was
never compiled, the second leads to a marker with a text payload. -/
def twoFooBlocks : Obj RBlock :=
  [("d1", firstFooDefinition),
   ("p1", firstFoo),
   ("d2", { opcode := "procedures_definition", next := some "m", parent := none,
            inputs := [("custom_block", ⟨some "p2"⟩)], fields := [], mutation := none }),
   ("p2", secondFoo),
   ("m", { opcode := "kylin_compile", next := none, parent := some "d2",
           inputs := [("CODE", ⟨some "t"⟩)], fields := [], mutation := none }),
   ("t", { opcode := "text", next := none, parent := some "m",
           inputs := [], fields := [("TEXT", "abc")], mutation := none })]

/-- A top-level hat without a body, at an arbitrary original position. -/
def bareHat : Block :=
  { opcode := "event_whenflagclicked", next := none, parent := none, inputs := [],
    fields := [], shadow := false, topLevel := true, x := some 512, y := some 77,
    mutation := none }

/-- A procedure definition without a body whose prototype is `p`. -/
def bareDefinition : Block :=
  { opcode := "procedures_definition", next := none, parent := none,
    inputs := [("custom_block", ⟨1, .id "p", none⟩)],
    fields := [], shadow := false, topLevel := true, x := some 3, y := some 4,
    mutation := none }

/-- Seven hats, one procedure definition and its prototype. -/
def sevenHats : Obj BlockEntry :=
  [("h0", .block bareHat), ("h1", .block bareHat), ("h2", .block bareHat),
   ("h3", .block bareHat), ("h4", .block bareHat), ("h5", .block bareHat),
   ("h6", .block bareHat), ("d", .block bareDefinition),
   ("p", .block { opcode := "procedures_prototype", next := none, parent := some "d",
                  inputs := [], fields := [], shadow := true, topLevel := false,
                  x := none, y := none, mutation := some "foo" })]

/-- The first six compiled scripts of `sevenHats`. -/
def sixScripts : List (String × CompiledScript) :=
  [("h0", ⟨true, ""⟩), ("h1", ⟨true, ""⟩), ("h2", ⟨true, ""⟩), ("h3", ⟨true, ""⟩),
   ("h4", ⟨true, ""⟩), ("h5", ⟨true, ""⟩)]

/-- The seventh compiled script of `sevenHats`. -/
def seventhScript : String × CompiledScript :=
  ("h6", ⟨true, ""⟩)

/-- All compiled scripts of `sevenHats`. -/
def sevenScripts : List (String × CompiledScript) :=
  sixScripts ++ [seventhScript]

/-- The compiled procedure of `sevenHats`. -/
def bareProcedure : ProcedureInfo :=
  ⟨"d", "function*(){}"⟩

/-- The hat of `procBlocks`. -/
def procHat : Block :=
  { opcode := "event_whenflagclicked", next := some "b1", parent := none, inputs := [],
    fields := [], shadow := false, topLevel := true, x := some 12, y := some 34,
    mutation := none }

/-- The procedure definition of `procBlocks`. -/
def procDefinition : Block :=
  { opcode := "procedures_definition", next := some "m1", parent := none,
    inputs := [("custom_block", ⟨1, .id "p", none⟩)], fields := [], shadow := false,
    topLevel := true, x := some 400, y := some 56, mutation := none }

/-- The procedure prototype of `procBlocks`. -/
def procPrototype : Block :=
  { opcode := "procedures_prototype", next := none, parent := some "d",
    inputs := [("arg", ⟨1, .id "a", none⟩)], fields := [], shadow := true,
    topLevel := false, x := none, y := none, mutation := some "foo %s" }

/-- The parameter block of `procBlocks`. -/
def procParameter : Block :=
  { opcode := "argument_reporter_string_number", next := none, parent := some "p",
    inputs := [], fields := [("VALUE", "arg")], shadow := true, topLevel := false,
    x := none, y := none, mutation := none }

/-- A hat `h` with the body `b1`, `b2` and a procedure definition `d` with the
prototype `p`, the parameter `a` and the body `m1`. -/
def procBlocks : Obj BlockEntry :=
  [("h", .block procHat),
   ("b1", .block
     { opcode := "motion_movesteps", next := some "b2", parent := some "h", inputs := [],
       fields := [], shadow := false, topLevel := false, x := none, y := none,
       mutation := none }),
   ("b2", .block
     { opcode := "motion_turnright", next := none, parent := some "b1", inputs := [],
       fields := [], shadow := false, topLevel := false, x := none, y := none,
       mutation := none }),
   ("d", .block procDefinition),
   ("p", .block procPrototype),
   ("a", .block procParameter),
   ("m1", .block
     { opcode := "music_restForBeats", next := none, parent := some "d", inputs := [],
       fields := [], shadow := false, topLevel := false, x := none, y := none,
       mutation := none })]

/-- The sprite of `procProject`. -/
def procTarget : Target :=
  { isStage := false, name := "Sprite1", blocks := procBlocks, comments := [], rest := "" }

/-- One sprite with a compiled hat and a compiled procedure, using the `music`
extension in the procedure body only. -/
def procProject : Project :=
  { targets := [procTarget], extensions := some ["music"], extensionURLs := none,
    rest := "" }

/-- The compiler's results for the sprite of `procProject`. -/
def procCache : TargetCache :=
  { compiledScripts := [("h", ⟨true, "f"⟩)], compiledProcedures := [⟨"d", "g"⟩] }

/-- The rebuilt sprite of `procProject`. -/
def procRebuiltTarget : Target :=
  { isStage := false, name := "Sprite1",
    blocks :=
      [("h", .block { procHat with x := some 0, y := some 0 }),
       ("b1", .block (markerBlock demoTools "h" "f")),
       ("d", .block { procDefinition with x := some 0, y := some 150 }),
       ("p", .block procPrototype),
       ("a", .block procParameter),
       ("m1", .block (markerBlock demoTools "d" "g")),
       ("u", .block (placeholderBlock "music_restForBeats"))],
    comments := [], rest := "" }

/-- The rebuilt `procProject`. -/
def procRebuilt : Project :=
  { targets := [procRebuiltTarget]
    extensions := some ["music", "kylin"]
    extensionURLs := some [("kylin", "data:text/javascript;base64,")]
    rest := "" }

/-- A base runtime of one declaration. -/
def smallRuntime : String :=
  "let stuckCounter = 0;"

/-- Three helpers, in the order of the table. -/
def smallHelpers : Obj String :=
  [("nanToZero", "const nanToZero = v => v || 0"),
   ("toBoolean", "const toBoolean = v => !!v"),
   ("mod", "const mod = (n, m) => n % m")]

/-- A generated source that names the first and the third helper. -/
def smallSource : String :=
  "() => mod(nanToZero(a), 3)"

/-- A string conversion for which no string is a number. -/
def neverNumber : String → JsNumber :=
  fun _ => .nan

/-- A random choice that always takes the first position. -/
def firstPick : Int → Int :=
  fun _ => 0

/-- A host that grants no capability and whose flag is absent. -/
def flaglessHost : ScratchHost :=
  { unsandboxed := none, registered := [], stepThreadPatched := false,
    translationsSet := false }

/-- A host that explicitly refuses the unsandboxed capability. -/
def sandboxedHost : ScratchHost :=
  { unsandboxed := some false, registered := [], stepThreadPatched := false,
    translationsSet := false }

/-- A host environment whose step attaches nothing. -/
def plainEnv : Env Nat Nat Unit Nat :=
  { demoEnv with origStepThread := fun th => { th with status := Status.done } }

/-! # Theorems -/

section Scheduler

variable {N F H V : Type}

theorem genNext_count_next (env : Env N F H V) (g : Gen N F) (th : Thread N F H) :
    (Gen.next env g th).2.2.2.count Event.next = 0 ∧
    (Gen.next env g th).2.2.2.count Event.retire = 0 ∧
    (Gen.next env g th).2.2.2.count Event.hostStep = 0 := by
  cases g with
  | native g => simp [Gen.next]
  | wrapper fn b => cases b <;> simp [Gen.next]

theorem resume_count (env : Env N F H V) (g : Gen N F) (th : Thread N F H) :
    (resume env g th).2.2.count Event.next = 0 ∧
    (resume env g th).2.2.count Event.retire = 0 ∧
    (resume env g th).2.2.count Event.hostStep = 0 :=
  genNext_count_next env g th

theorem kylinCompilerExecute_eq (env : Env N F H V) (s : Sched N F H) (g : Gen N F)
    (h : s.thread.kylin = some g) :
    kylinCompilerExecute env s =
      if (resume env g s.thread).1.done = true ∧
          (resume env g s.thread).2.1.status = Status.running then
        .ok { thread := env.retireThread (resume env g s.thread).2.1
              log := s.log ++ [Event.next] ++ (resume env g s.thread).2.2 ++ [Event.retire] }
      else
        .ok { thread := (resume env g s.thread).2.1
              log := s.log ++ [Event.next] ++ (resume env g s.thread).2.2 } := by
  unfold kylinCompilerExecute
  rw [h]
  by_cases hd : (resume env g s.thread).1.done = true
  · by_cases hr : (resume env g s.thread).2.1.status = Status.running
    · simp [hd, hr]
    · simp [hd, hr]
  · simp [hd]

theorem stepThread_attached (env : Env N F H V) (s : Sched N F H) (g : Gen N F)
    (h : s.thread.kylin = some g) :
    stepThread env s = kylinCompilerExecute env s := by
  unfold stepThread
  simp [h]

theorem compile_ok_inv (env : Env N F H V) (code : String) (th0 th1 : Thread N F H)
    (h : compile env code th0 = .ok th1) :
    (∃ g, th1.kylin = some g) ∧ th1.status = Status.yieldTick := by
  unfold compile at h
  split at h
  · exact absurd h (by simp)
  · injection h with h
    subst h
    exact ⟨⟨_, rfl⟩, rfl⟩
  · injection h with h
    subst h
    exact ⟨⟨_, rfl⟩, rfl⟩

/-- C1 (counterexample): in `demoEnv` the first host step of `freshThread`
executes `compile` for a plain function; the same patched `stepThread` call
already resumes the attached sequence (one `next`, one call of `fn`) and retires
the thread, so the call that attaches does consume a step. -/
theorem attach_call_consumes_step :
    freshThread.kylin = none ∧
    compile demoEnv "f" freshThread = .ok (demoEnv.origStepThread freshThread) ∧
    ∃ s', stepThread demoEnv ⟨freshThread, []⟩ = .ok s' ∧
      s'.log = [Event.hostStep, Event.next, Event.callFn, Event.retire] ∧
      s'.log.count Event.next ≠ 0 ∧
      s'.thread.status = Status.done := by
  refine ⟨rfl, rfl, _, rfl, rfl, ?_, rfl⟩
  decide

/-- C1 (amended): when the host step of a thread without a sequence executes
`compile` (attaching the sequence and leaving the status at
yield-until-next-tick), the same patched `stepThread` call sets the status back
to running and resumes the attached sequence exactly once after the single host
step; if that resumption reports done with the status still running (a script
with zero internal yields) the thread is retired in that very call. -/
theorem attach_call_resumes_in_same_call (env : Env N F H V) (th th0 th1 : Thread N F H)
    (code : String) (log : List Event)
    (hnone : th.kylin = none) (hcompile : compile env code th0 = .ok th1)
    (hhost : env.origStepThread th = th1) :
    ∃ g s', th1.kylin = some g ∧ th1.status = Status.yieldTick ∧
      stepThread env ⟨th, log⟩ = .ok s' ∧
      s'.log.count Event.hostStep = log.count Event.hostStep + 1 ∧
      s'.log.count Event.next = log.count Event.next + 1 ∧
      ((resume env g { th1 with status := Status.running }).1.done = true ∧
        (resume env g { th1 with status := Status.running }).2.1.status = Status.running →
          s'.thread = env.retireThread (resume env g { th1 with status := Status.running }).2.1 ∧
          s'.log = log ++ [Event.hostStep, Event.next] ++
            (resume env g { th1 with status := Status.running }).2.2 ++ [Event.retire]) ∧
      (¬ ((resume env g { th1 with status := Status.running }).1.done = true ∧
        (resume env g { th1 with status := Status.running }).2.1.status = Status.running) →
          s'.thread = (resume env g { th1 with status := Status.running }).2.1 ∧
          s'.log = log ++ [Event.hostStep, Event.next] ++
            (resume env g { th1 with status := Status.running }).2.2) := by
  obtain ⟨⟨g, hg⟩, hst⟩ := compile_ok_inv env code th0 th1 hcompile
  have hstep : stepThread env ⟨th, log⟩ =
      kylinCompilerExecute env ⟨{ th1 with status := Status.running }, log ++ [Event.hostStep]⟩ := by
    unfold stepThread
    simp [hnone, hhost, hg, hst]
  have hexec := kylinCompilerExecute_eq env
    ⟨{ th1 with status := Status.running }, log ++ [Event.hostStep]⟩ g hg
  obtain ⟨c1, c2, c3⟩ := resume_count env g { th1 with status := Status.running }
  by_cases hc : (resume env g { th1 with status := Status.running }).1.done = true ∧
      (resume env g { th1 with status := Status.running }).2.1.status = Status.running
  · rw [if_pos hc] at hexec
    refine ⟨g, _, hg, hst, hstep.trans hexec, ?_, ?_, ?_, ?_⟩
    · simp [List.count_append, c3]
    · simp [List.count_append, c1]
    · intro _
      exact ⟨rfl, by simp⟩
    · intro hn
      exact absurd hc hn
  · rw [if_neg hc] at hexec
    refine ⟨g, _, hg, hst, hstep.trans hexec, ?_, ?_, ?_, ?_⟩
    · simp [List.count_append, c3]
    · simp [List.count_append, c1]
    · intro hp
      exact absurd hp hc
    · intro _
      exact ⟨rfl, by simp⟩

/-- C1 (amended), instance: the plain-function script of `demoEnv` is attached,
resumed and retired within one call. -/
theorem attach_call_resumes_in_same_call_witness :
    freshThread.kylin = none ∧
    compile demoEnv "f" freshThread = .ok (demoEnv.origStepThread freshThread) ∧
    ∃ g s', (demoEnv.origStepThread freshThread).kylin = some g ∧
      (demoEnv.origStepThread freshThread).status = Status.yieldTick ∧
      stepThread demoEnv ⟨freshThread, []⟩ = .ok s' ∧
      s'.log.count Event.hostStep = 1 ∧ s'.log.count Event.next = 1 := by
  refine ⟨rfl, rfl, ?_⟩
  obtain ⟨g, s', h1, h2, h3, h4, h5, _⟩ :=
    attach_call_resumes_in_same_call demoEnv freshThread freshThread
      (demoEnv.origStepThread freshThread) "f" [] rfl rfl rfl
  exact ⟨g, s', h1, h2, h3, by simpa using h4, by simpa using h5⟩

/-- C2: for a thread with an attached sequence `kylinCompilerExecute` performs
exactly one `next()`; it calls `retireThread` exactly when that resumption
reported done and the status read afterwards is running, and otherwise leaves
the thread as the resumption left it, without retiring. -/
theorem kylinCompilerExecute_retires_iff (env : Env N F H V) (s : Sched N F H) (g : Gen N F)
    (h : s.thread.kylin = some g) :
    ∃ s', kylinCompilerExecute env s = .ok s' ∧
      s'.log.count Event.next = s.log.count Event.next + 1 ∧
      (s'.log.count Event.retire = s.log.count Event.retire + 1 ↔
        ((resume env g s.thread).1.done = true ∧
          (resume env g s.thread).2.1.status = Status.running)) ∧
      ((resume env g s.thread).1.done = true ∧
          (resume env g s.thread).2.1.status = Status.running →
        s'.thread = env.retireThread (resume env g s.thread).2.1) ∧
      (¬ ((resume env g s.thread).1.done = true ∧
          (resume env g s.thread).2.1.status = Status.running) →
        s'.thread = (resume env g s.thread).2.1 ∧
        s'.log.count Event.retire = s.log.count Event.retire) := by
  have hexec := kylinCompilerExecute_eq env s g h
  obtain ⟨c1, c2, c3⟩ := resume_count env g s.thread
  by_cases hc : (resume env g s.thread).1.done = true ∧
      (resume env g s.thread).2.1.status = Status.running
  · rw [if_pos hc] at hexec
    refine ⟨_, hexec, ?_, ?_, ?_, ?_⟩
    · simp [List.count_append, c1]
    · simp [List.count_append, c2, hc]
    · intro _
      rfl
    · intro hn
      exact absurd hc hn
  · rw [if_neg hc] at hexec
    refine ⟨_, hexec, ?_, ?_, ?_, ?_⟩
    · simp [List.count_append, c1]
    · simp only [List.count_append, c2]
      constructor
      · intro habs
        simp at habs
      · intro hp
        exact absurd hp hc
    · intro hp
      exact absurd hp hc
    · intro _
      exact ⟨rfl, by simp [List.count_append, c2]⟩

/-- C2, instance: the generator of `attachedThread` yields (not done), so the
thread is resumed once and not retired. -/
theorem kylinCompilerExecute_retires_iff_witness :
    attachedThread.kylin = some (.native 1) ∧
    ∃ s', kylinCompilerExecute demoEnv ⟨attachedThread, []⟩ = .ok s' ∧
      s'.log.count Event.next = 1 ∧ s'.log.count Event.retire = 0 := by
  refine ⟨rfl, ?_⟩
  obtain ⟨s', h1, h2, _, _, h5⟩ :=
    kylinCompilerExecute_retires_iff demoEnv ⟨attachedThread, []⟩ (.native 1) rfl
  have hn : ¬ ((resume demoEnv (.native 1) attachedThread).1.done = true ∧
      (resume demoEnv (.native 1) attachedThread).2.1.status = Status.running) := by
    decide
  exact ⟨s', h1, by simpa using h2, by simpa using (h5 hn).2⟩

/-- C3: the patched `stepThread` dispatches on the presence of `thread.kylin`.
With a sequence attached it is `kylinCompilerExecute`: one `next()` and no call
of the host's original `stepThread`. With none attached, and none attached by
the host step, the result is exactly the host step's thread, with the host step
as the only call made. -/
theorem stepThread_dispatch (env : Env N F H V) (s : Sched N F H) :
    (∀ g, s.thread.kylin = some g →
      ∃ s', stepThread env s = .ok s' ∧
        s'.log.count Event.next = s.log.count Event.next + 1 ∧
        s'.log.count Event.hostStep = s.log.count Event.hostStep) ∧
    (s.thread.kylin = none → (env.origStepThread s.thread).kylin = none →
      stepThread env s = .ok ⟨env.origStepThread s.thread, s.log ++ [Event.hostStep]⟩) := by
  constructor
  · intro g h
    have hexec := kylinCompilerExecute_eq env s g h
    rw [← stepThread_attached env s g h] at hexec
    obtain ⟨c1, c2, c3⟩ := resume_count env g s.thread
    by_cases hc : (resume env g s.thread).1.done = true ∧
        (resume env g s.thread).2.1.status = Status.running
    · rw [if_pos hc] at hexec
      exact ⟨_, hexec, by simp [List.count_append, c1], by simp [List.count_append, c3]⟩
    · rw [if_neg hc] at hexec
      exact ⟨_, hexec, by simp [List.count_append, c1], by simp [List.count_append, c3]⟩
  · intro h1 h2
    unfold stepThread
    simp [h1, h2]

/-- C3, instance: an attached thread is resumed once without a host step, and a
thread of `plainEnv` is stepped by the host alone. -/
theorem stepThread_dispatch_witness :
    (attachedThread.kylin = some (.native 1) ∧
      ∃ s', stepThread demoEnv ⟨attachedThread, []⟩ = .ok s' ∧
        s'.log.count Event.next = 1 ∧ s'.log.count Event.hostStep = 0) ∧
    (freshThread.kylin = none ∧ (plainEnv.origStepThread freshThread).kylin = none ∧
      stepThread plainEnv ⟨freshThread, []⟩ =
        .ok ⟨plainEnv.origStepThread freshThread, [Event.hostStep]⟩) := by
  refine ⟨⟨rfl, ?_⟩, rfl, rfl, ?_⟩
  · obtain ⟨s', h1, h2, h3⟩ :=
      (stepThread_dispatch demoEnv ⟨attachedThread, []⟩).1 (.native 1) rfl
    exact ⟨s', h1, by simpa using h2, by simpa using h3⟩
  · exact (stepThread_dispatch plainEnv ⟨freshThread, []⟩).2 rfl rfl

/-- C4 (counterexample): the generator attached to `attachedThread` leaves the
status at yield-until-next-tick; the patched `stepThread` resumes it once only
and the thread ends the call still in yield-until-next-tick status. -/
theorem attached_yieldTick_not_reset :
    attachedThread.kylin = some (.native 1) ∧
    (resume demoEnv (.native 1) attachedThread).2.1.status = Status.yieldTick ∧
    ∃ s', stepThread demoEnv ⟨attachedThread, []⟩ = .ok s' ∧
      s'.log = [Event.next] ∧
      s'.thread.status = Status.yieldTick :=
  ⟨rfl, rfl, _, rfl, rfl, rfl⟩

/-- C4 (amended): for a thread that already has an attached sequence, if the
resumption leaves the status at yield-until-next-tick, the patched `stepThread`
neither resets the status nor resumes again: the call consists of that single
`next()`, no retirement, and the thread ends it in yield-until-next-tick
status. -/
theorem attached_yieldTick_kept (env : Env N F H V) (s : Sched N F H) (g : Gen N F)
    (h : s.thread.kylin = some g)
    (hy : (resume env g s.thread).2.1.status = Status.yieldTick) :
    stepThread env s =
        .ok ⟨(resume env g s.thread).2.1, s.log ++ [Event.next] ++ (resume env g s.thread).2.2⟩ ∧
      (s.log ++ [Event.next] ++ (resume env g s.thread).2.2).count Event.next =
        s.log.count Event.next + 1 ∧
      (s.log ++ [Event.next] ++ (resume env g s.thread).2.2).count Event.retire =
        s.log.count Event.retire := by
  obtain ⟨c1, c2, c3⟩ := resume_count env g s.thread
  refine ⟨?_, by simp [List.count_append, c1], by simp [List.count_append, c2]⟩
  rw [stepThread_attached env s g h, kylinCompilerExecute_eq env s g h, if_neg]
  intro hc
  rw [hy] at hc
  exact absurd hc.2 (by decide)

/-- C4 (amended), instance on `attachedThread`. -/
theorem attached_yieldTick_kept_witness :
    attachedThread.kylin = some (.native 1) ∧
    (resume demoEnv (.native 1) attachedThread).2.1.status = Status.yieldTick ∧
    stepThread demoEnv ⟨attachedThread, []⟩ =
      .ok ⟨(resume demoEnv (.native 1) attachedThread).2.1,
        [] ++ [Event.next] ++ (resume demoEnv (.native 1) attachedThread).2.2⟩ :=
  ⟨rfl, rfl, (attached_yieldTick_kept demoEnv ⟨attachedThread, []⟩ (.native 1) rfl rfl).1⟩

/-- C5: `compile` normalises the materialised callable. A generator function
`fn` is attached as `fn()` itself. Any other function is attached as a wrapper:
attaching changes only `kylin`, `procedures` and the status (so `fn` is not
run); the wrapper's first `next()` calls `fn` once and reports `done = true`
with `fn`'s return value; every later `next()` reports `done = true` with
`undefined`, leaves the thread untouched and does not call `fn`. -/
theorem compile_normalises (env : Env N F H V) (code : String) (th : Thread N F H) :
    (∀ g0, env.kylinCompileHat code th = .ok (.generatorFunction g0) →
      compile env code th =
        .ok { th with kylin := some (.native g0), hasProcedures := true,
                      status := Status.yieldTick }) ∧
    (∀ fn, env.kylinCompileHat code th = .ok (.function fn) →
      compile env code th =
        .ok { th with kylin := some (.wrapper fn false), hasProcedures := true,
                      status := Status.yieldTick } ∧
      (∀ t : Thread N F H,
        resume env (.wrapper fn false) t =
          (⟨true, (env.call fn t).1⟩,
            { (env.call fn t).2 with kylin := some (.wrapper fn true) }, [Event.callFn])) ∧
      (∀ t : Thread N F H,
        resume env (.wrapper fn true) t =
          (⟨true, none⟩, { t with kylin := some (.wrapper fn true) }, []))) := by
  constructor
  · intro g0 h
    unfold compile
    rw [h]
  · intro fn h
    refine ⟨?_, fun t => rfl, fun t => rfl⟩
    unfold compile
    rw [h]

/-- C5, instance: in `demoEnv` the code "gen" attaches the generator itself and
the code "f" attaches a wrapper around the function `7`, whose first `next()`
returns `7`. -/
theorem compile_normalises_witness :
    (demoEnv.kylinCompileHat "gen" freshThread = .ok (.generatorFunction 1) ∧
      compile demoEnv "gen" freshThread =
        .ok { freshThread with kylin := some (.native 1), hasProcedures := true,
                               status := Status.yieldTick }) ∧
    (demoEnv.kylinCompileHat "f" freshThread = .ok (.function 7) ∧
      compile demoEnv "f" freshThread =
        .ok { freshThread with kylin := some (.wrapper 7 false), hasProcedures := true,
                               status := Status.yieldTick } ∧
      (resume demoEnv (.wrapper 7 false) freshThread).1 = ⟨true, some 7⟩) :=
  ⟨⟨rfl, (compile_normalises demoEnv "gen" freshThread).1 1 rfl⟩,
    rfl, ((compile_normalises demoEnv "f" freshThread).2 7 rfl).1, rfl⟩

end Scheduler

section Resolution

variable {α Fac : Type}

theorem objGet_objSet_self (o : Obj α) (k : String) (v : α) :
    objGet (objSet o k v) k = some v := by
  induction o with
  | nil => simp [objSet, objGet]
  | cons e rest ih =>
    obtain ⟨k0, w⟩ := e
    by_cases hk : k0 = k
    · simp [objSet, objGet, hk]
    · simp [objSet, objGet, hk, ih]

theorem objGet_objSet_ne (o : Obj α) (k k' : String) (v : α) (hne : k ≠ k') :
    objGet (objSet o k v) k' = objGet o k' := by
  induction o with
  | nil => simp [objSet, objGet, hne]
  | cons e rest ih =>
    obtain ⟨k0, w⟩ := e
    by_cases hk : k0 = k
    · subst hk
      simp [objSet, objGet, hne]
    · by_cases hk' : k0 = k'
      · subst hk'
        simp [objSet, objGet, hk]
      · simp [objSet, objGet, hk, hk', ih]

theorem cacheEnsure_get (chain : Chain) (cache : Cache Fac) (name : String)
    (hname : objHas cache name = true ∨ chain.name = false) :
    ∃ inner, objGet (cacheEnsure chain cache name) name = some inner ∧
      ∀ s, objGet inner s = cacheLookup cache name s := by
  unfold cacheEnsure
  cases hg : objGet cache name with
  | none =>
    have hh : objHas cache name = false := by simp [objHas, hg]
    have hn : chain.name = false := by
      rcases hname with h | h
      · rw [hh] at h
        cases h
      · exact h
    rw [hh, hn]
    refine ⟨[], by simp [objGet_objSet_self], fun s => ?_⟩
    simp [cacheLookup, hg, objGet]
  | some inner =>
    have hh : objHas cache name = true := by simp [objHas, hg]
    rw [hh]
    refine ⟨inner, by simp [hg], fun s => ?_⟩
    simp [cacheLookup, hg]

theorem cacheLookup_ensure (chain : Chain) (cache : Cache Fac) (name n s : String) :
    cacheLookup (cacheEnsure chain cache name) n s = cacheLookup cache n s := by
  unfold cacheEnsure
  split
  · rfl
  · rename_i hcond
    by_cases hn : name = n
    · subst hn
      have hg : objGet cache name = none := by
        cases hg : objGet cache name with
        | none => rfl
        | some inner => simp [objHas, hg] at hcond
      simp [cacheLookup, objGet_objSet_self, hg, objGet]
    · simp [cacheLookup, objGet_objSet_ne _ _ _ _ hn]

theorem cacheTest_entry (chain : Chain) (cache : Cache Fac) (name s : String) (f : Fac)
    (h : cacheLookup cache name s = some f) : cacheTest chain cache name s = .entry f := by
  unfold cacheLookup at h
  unfold cacheTest
  cases hg : objGet cache name with
  | none =>
    rw [hg] at h
    cases h
  | some inner =>
    rw [hg] at h
    simp only at h
    simp only [h]

theorem cacheTest_miss (chain : Chain) (cache : Cache Fac) (name s : String)
    (h : cacheTest chain cache name s = .miss) :
    cacheLookup cache name s = none ∧
      (chain.signature = false ∨ (objHas cache name = false ∧ chain.name = false)) := by
  unfold cacheTest at h
  unfold cacheLookup objHas
  cases hg : objGet cache name with
  | none =>
    rw [hg] at h
    simp only at h
    refine ⟨rfl, ?_⟩
    cases hn : chain.name with
    | false => exact Or.inr ⟨rfl, rfl⟩
    | true =>
      cases hs : chain.signature with
      | false => exact Or.inl rfl
      | true =>
        rw [hn, hs] at h
        simp at h
  | some inner =>
    rw [hg] at h
    simp only at h
    cases hi : objGet inner s with
    | some f =>
      rw [hi] at h
      cases h
    | none =>
      rw [hi] at h
      simp only at h
      refine ⟨hi, Or.inl ?_⟩
      cases hs : chain.signature with
      | false => rfl
      | true =>
        rw [hs] at h
        simp at h

theorem cacheLookup_store_self (cache : Cache Fac) (name s : String) (f : Fac)
    (inner : Obj Fac) (h : objGet cache name = some inner) :
    cacheLookup (cacheStore cache name s f) name s = some f := by
  simp [cacheStore, h, cacheLookup, objGet_objSet_self]

theorem cacheLookup_store_other (cache : Cache Fac) (name s n s' : String) (f : Fac)
    (hne : ¬ (n = name ∧ s' = s)) :
    cacheLookup (cacheStore cache name s f) n s' = cacheLookup cache n s' := by
  unfold cacheStore
  cases h : objGet cache name with
  | none => rfl
  | some inner =>
    by_cases hn : name = n
    · subst hn
      have hs : s ≠ s' := fun e => hne ⟨rfl, e.symm⟩
      simp [cacheLookup, objGet_objSet_self, h, objGet_objSet_ne _ _ _ _ hs]
    · simp [cacheLookup, objGet_objSet_ne _ _ _ _ hn]

theorem proceduresGet_hit (gen : String → Except String Fac) (chain : Chain)
    (cache : Cache Fac) (name : String) (blocks : Obj RBlock) (sig : String) (f : Fac)
    (h : cacheLookup cache name (substring1 sig) = some f) :
    proceduresGet gen chain cache name blocks sig = (.ok (.applied f), cache) := by
  unfold proceduresGet
  simp only [cacheTest_entry chain cache name _ f h]

theorem proceduresGet_inherited (gen : String → Except String Fac) (chain : Chain)
    (cache : Cache Fac) (name : String) (blocks : Obj RBlock) (sig : String)
    (h : cacheTest chain cache name (substring1 sig) = .inherited) :
    proceduresGet gen chain cache name blocks sig = (.ok .inheritedCall, cache) := by
  unfold proceduresGet
  simp only [h]

theorem proceduresGet_keeps (gen : String → Except String Fac) (chain : Chain)
    (cache : Cache Fac) (name : String) (blocks : Obj RBlock) (sig n s : String) (f : Fac)
    (h : cacheLookup cache n s = some f) :
    cacheLookup (proceduresGet gen chain cache name blocks sig).2 n s = some f := by
  cases hl : cacheTest chain cache name (substring1 sig) with
  | entry g =>
    unfold proceduresGet
    simp only [hl]
    exact h
  | inherited =>
    rw [proceduresGet_inherited gen chain cache name blocks sig hl]
    exact h
  | miss =>
    have hne : ¬ (n = name ∧ s = substring1 sig) := by
      rintro ⟨rfl, rfl⟩
      rw [(cacheTest_miss chain cache n _ hl).1] at h
      exact absurd h (by simp)
    unfold proceduresGet
    simp only [hl]
    cases prototypesOf blocks (objValues blocks) with
    | error e => exact h
    | ok ps =>
      simp only
      cases scanPrototypes blocks (substring1 sig) ps with
      | error e => exact h
      | ok r =>
        cases r with
        | none => exact h
        | some code =>
          simp only
          cases gen code with
          | error e =>
            simp only
            rw [cacheLookup_ensure]
            exact h
          | ok g =>
            simp only
            rw [cacheLookup_store_other _ _ _ _ _ _ hne, cacheLookup_ensure]
            exact h

theorem scanPrototypes_skip (blocks : Obj RBlock) (s : String)
    (pre rest : List (Option RBlock))
    (hpre : ∀ q ∈ pre, ∃ r m, q = some r ∧ r.mutation = some m ∧ m.proccode ≠ some s) :
    scanPrototypes blocks s (pre ++ rest) = scanPrototypes blocks s rest := by
  induction pre with
  | nil => rfl
  | cons q pre ih =>
    obtain ⟨r, m, hq, hm, hne⟩ := hpre q (List.mem_cons_self _ _)
    subst hq
    have ih' := ih (fun q' hq' => hpre q' (List.mem_cons_of_mem _ hq'))
    simp [scanPrototypes, hm, hne, ih']

theorem scanPrototypes_match (blocks : Obj RBlock) (s : String) (p : RBlock)
    (post : List (Option RBlock)) (hp : p.mutation = some ⟨some s⟩) :
    scanPrototypes blocks s (some p :: post) = markerText blocks p := by
  simp [scanPrototypes, hp]

theorem markerText_found (blocks : Obj RBlock) (p definition compileCode codeBlock : RBlock)
    (nx code : String) (i : RInput)
    (hdef : objGet blocks (jsKey p.parent) = some definition)
    (hnext : definition.next = some nx) (hnx : nx ≠ "")
    (hcc : objGet blocks nx = some compileCode)
    (hop : compileCode.opcode = "kylin_compile")
    (hin : objGet compileCode.inputs "CODE" = some i)
    (hcb : objGet blocks (jsKey i.block) = some codeBlock)
    (htext : codeBlock.opcode = "text")
    (hval : objGet codeBlock.fields "TEXT" = some code) :
    markerText blocks p = .ok (some code) := by
  have ht : truthy (some nx) = true := by simp [truthy, hnx]
  have hk : jsKey (some nx) = nx := rfl
  unfold markerText
  rw [hdef]
  simp only [hnext]
  rw [if_pos ht, hk, hcc]
  simp only
  rw [if_pos hop, hin]
  simp only
  rw [hcb]
  simp only
  rw [if_pos htext, hval]

theorem markerText_absent (blocks : Obj RBlock) (p definition : RBlock)
    (hdef : objGet blocks (jsKey p.parent) = some definition)
    (hno : truthy definition.next = false ∨
      objGet blocks (jsKey definition.next) = none ∨
      ∃ compileCode, objGet blocks (jsKey definition.next) = some compileCode ∧
        (compileCode.opcode ≠ "kylin_compile" ∨
          ∃ i codeBlock, objGet compileCode.inputs "CODE" = some i ∧
            objGet blocks (jsKey i.block) = some codeBlock ∧ codeBlock.opcode ≠ "text")) :
    markerText blocks p = .ok none := by
  unfold markerText
  rw [hdef]
  simp only
  by_cases ht : truthy definition.next = true
  · rw [if_pos ht]
    rcases hno with h | h | ⟨cc, hcc, h⟩
    · rw [h] at ht
      exact absurd ht (by simp)
    · rw [h]
    · rw [hcc]
      simp only
      rcases h with h | ⟨i, cb, hi, hcb, hne⟩
      · rw [if_neg h]
      · by_cases hop : cc.opcode = "kylin_compile"
        · rw [if_pos hop, hi]
          simp only
          rw [hcb]
          simp only
          rw [if_neg hne]
        · rw [if_neg hop]
  · rw [if_neg ht]

/-- C6: once `procedureCache` holds a factory `f` under (sprite name `n`, bare
signature `s`), then after any sequence of further resolutions (on any threads,
containers and signatures, and whatever the objects inherit) the entry is still
`f`, and a resolution on a thread of sprite `n` of any signature whose bare form
is `s` returns `f` applied to the thread and leaves the cache as it is, whatever
the block container holds. -/
theorem cache_entry_persists (gen : String → Except String Fac) (cache : Cache Fac)
    (n s : String) (f : Fac) (h : cacheLookup cache n s = some f) (later : List Request) :
    cacheLookup (cacheAfter gen cache later) n s = some f ∧
    ∀ (blocks : Obj RBlock) (sig : String), substring1 sig = s →
      ∀ chain : Chain, proceduresGet gen chain (cacheAfter gen cache later) n blocks sig =
        (.ok (.applied f), cacheAfter gen cache later) := by
  have key : cacheLookup (cacheAfter gen cache later) n s = some f := by
    induction later generalizing cache with
    | nil => exact h
    | cons r rest ih =>
      exact ih _ (proceduresGet_keeps gen r.chain cache r.name r.blocks r.signature n s f h)
  refine ⟨key, fun blocks sig hs chain => ?_⟩
  subst hs
  exact proceduresGet_hit gen chain _ n blocks sig f key

/-- C6, instance: the entry of `demoCache` survives a resolution that stores
another procedure and is then returned for the signature `Wfoo` on an empty
container. -/
theorem cache_entry_persists_witness :
    cacheLookup demoCache "Sprite1" "foo" = some 5 ∧
    cacheLookup
      (cacheAfter demoGenerator demoCache [⟨"Sprite2", demoBlocks, "Zfoo", plainChain⟩])
      "Sprite1" "foo" = some 5 ∧
    proceduresGet demoGenerator plainChain
        (cacheAfter demoGenerator demoCache [⟨"Sprite2", demoBlocks, "Zfoo", plainChain⟩])
        "Sprite1" [] "Wfoo" =
      (.ok (.applied 5),
        cacheAfter demoGenerator demoCache [⟨"Sprite2", demoBlocks, "Zfoo", plainChain⟩]) :=
  ⟨rfl,
    (cache_entry_persists demoGenerator demoCache "Sprite1" "foo" 5 rfl
      [⟨"Sprite2", demoBlocks, "Zfoo", plainChain⟩]).1,
    (cache_entry_persists demoGenerator demoCache "Sprite1" "foo" 5 rfl
      [⟨"Sprite2", demoBlocks, "Zfoo", plainChain⟩]).2 [] "Wfoo" rfl plainChain⟩

/-- C7: on a cache miss for `sig` with bare form `s = sig.substring(1)`, that is
when the test `name in procedureCache && s in procedureCache[name]` fails, if
the first prototype (in container order of the `procedures_definition` blocks)
whose proccode is `s` has parent `definition`, whose `next` is a `kylin_compile`
block whose `CODE` input block is a `text` block with field value `code`, then
the resolution materialises exactly `code`; when that yields a factory `f`, `f`
applied to the thread is returned and the store
`procedureCache[name][s] = f` is made; when the sprite has a cache object of
its own or its name is not found through the prototype chain, the cache then
holds `f` under (sprite name, `s`), and any signature made of one character
followed by `s` resolves to that same entry. When materialising raises, the
exception is the result. -/
theorem miss_resolves_marker (gen : String → Except String Fac) (chain : Chain)
    (cache : Cache Fac) (name : String) (blocks : Obj RBlock) (sig : String)
    (pre post : List (Option RBlock)) (p definition compileCode codeBlock : RBlock)
    (nx code : String) (i : RInput)
    (hmiss : cacheTest chain cache name (substring1 sig) = .miss)
    (hprotos : prototypesOf blocks (objValues blocks) = .ok (pre ++ some p :: post))
    (hpre : ∀ q ∈ pre, ∃ r m, q = some r ∧ r.mutation = some m ∧
      m.proccode ≠ some (substring1 sig))
    (hp : p.mutation = some ⟨some (substring1 sig)⟩)
    (hdef : objGet blocks (jsKey p.parent) = some definition)
    (hnext : definition.next = some nx) (hnx : nx ≠ "")
    (hcc : objGet blocks nx = some compileCode)
    (hop : compileCode.opcode = "kylin_compile")
    (hin : objGet compileCode.inputs "CODE" = some i)
    (hcb : objGet blocks (jsKey i.block) = some codeBlock)
    (htext : codeBlock.opcode = "text")
    (hval : objGet codeBlock.fields "TEXT" = some code) :
    (∀ f, gen code = .ok f →
      proceduresGet gen chain cache name blocks sig =
        (.ok (.applied f),
          cacheStore (cacheEnsure chain cache name) name (substring1 sig) f) ∧
      ((objHas cache name = true ∨ chain.name = false) →
        cacheLookup (cacheStore (cacheEnsure chain cache name) name (substring1 sig) f)
          name (substring1 sig) = some f ∧
        ∀ (c : Char) (later : Chain) (blocks' : Obj RBlock),
          proceduresGet gen later
              (cacheStore (cacheEnsure chain cache name) name (substring1 sig) f)
              name blocks' ⟨c :: (substring1 sig).data⟩ =
            (.ok (.applied f),
              cacheStore (cacheEnsure chain cache name) name (substring1 sig) f))) ∧
    (∀ e, gen code = .error e →
      (proceduresGet gen chain cache name blocks sig).1 = .error e) := by
  have hscan : scanPrototypes blocks (substring1 sig) (pre ++ some p :: post) =
      .ok (some code) := by
    rw [scanPrototypes_skip blocks _ pre _ hpre, scanPrototypes_match blocks _ p post hp]
    exact markerText_found blocks p definition compileCode codeBlock nx code i
      hdef hnext hnx hcc hop hin hcb htext hval
  constructor
  · intro f hf
    refine ⟨?_, fun hname => ?_⟩
    · unfold proceduresGet
      simp only [hmiss, hprotos, hscan, hf]
    · obtain ⟨inner, hin1, _⟩ := cacheEnsure_get chain cache name hname
      have hstored := cacheLookup_store_self (cacheEnsure chain cache name) name
        (substring1 sig) f inner hin1
      exact ⟨hstored, fun c later blocks' =>
        proceduresGet_hit gen later _ name blocks' _ f hstored⟩
  · intro e he
    unfold proceduresGet
    simp only [hmiss, hprotos, hscan, he]

/-- C7, instance: on `demoBlocks` the signature `Zfoo` materialises the text
`abc` and stores the factory under (`Sprite1`, `foo`); `Wfoo` then hits it. -/
theorem miss_resolves_marker_witness :
    cacheTest plainChain ([] : Cache Nat) "Sprite1" (substring1 "Zfoo") = .miss ∧
    demoGenerator "abc" = .ok 3 ∧
    proceduresGet demoGenerator plainChain [] "Sprite1" demoBlocks "Zfoo" =
      (.ok (.applied 3), [("Sprite1", [("foo", 3)])]) ∧
    proceduresGet demoGenerator plainChain [("Sprite1", [("foo", 3)])] "Sprite1" [] "Wfoo" =
      (.ok (.applied 3), [("Sprite1", [("foo", 3)])]) := by
  have h := (miss_resolves_marker demoGenerator plainChain [] "Sprite1" demoBlocks "Zfoo" [] []
    { opcode := "procedures_prototype", next := none, parent := some "d",
      inputs := [], fields := [], mutation := some ⟨some "foo"⟩ }
    { opcode := "procedures_definition", next := some "m", parent := none,
      inputs := [("custom_block", ⟨some "p"⟩)], fields := [], mutation := none }
    { opcode := "kylin_compile", next := none, parent := some "d",
      inputs := [("CODE", ⟨some "t"⟩)], fields := [], mutation := none }
    { opcode := "text", next := none, parent := some "m",
      inputs := [], fields := [("TEXT", "abc")], mutation := none }
    "m" "abc" ⟨some "t"⟩ rfl rfl (by simp) rfl rfl rfl (by decide) rfl rfl rfl rfl rfl rfl).1
    3 rfl
  exact ⟨rfl, rfl, h.1, (h.2 (Or.inr rfl)).2 'W' plainChain []⟩

/-- C8 (counterexample): `plainBlocks` holds a procedure `foo` whose definition
has no successor, so the matching prototype does not lead to a marker; yet with
`demoCache` the resolution of `Zfoo` returns the cached factory applied to the
thread, not the stub. -/
theorem cached_signature_not_stub :
    prototypesOf plainBlocks (objValues plainBlocks) =
      .ok [some { opcode := "procedures_prototype", next := none, parent := some "d",
                  inputs := [], fields := [], mutation := some ⟨some "foo"⟩ }] ∧
    scanPrototypes plainBlocks (substring1 "Zfoo")
      [some { opcode := "procedures_prototype", next := none, parent := some "d",
              inputs := [], fields := [], mutation := some ⟨some "foo"⟩ }] = .ok none ∧
    proceduresGet demoGenerator plainChain demoCache "Sprite1" plainBlocks "Zfoo" =
      (.ok (.applied 5), demoCache) ∧
    (proceduresGet demoGenerator plainChain demoCache "Sprite1" plainBlocks "Zfoo").1 ≠
      .ok .stub := by
  refine ⟨rfl, rfl, rfl, ?_⟩
  intro h
  have h' : (Except.ok (Resolved.applied 5) : Except String (Resolved Nat)) =
      Except.ok Resolved.stub := h
  cases h'

/-- C8 (amended): on a cache miss (the test
`name in procedureCache && s in procedureCache[name]` fails: no entry is stored
under the sprite name and the bare signature, and the bare signature is not
found through the prototype chain either), when the prototypes array is `ps`
and either no prototype's proccode equals the bare signature, or the first one that does
has a parent `definition` whose `next` is absent, or names no block, or names a
block that is not `kylin_compile`, or names a `kylin_compile` block whose `CODE`
input block is not a `text` block, the resolution does not raise: it returns
the stub, whose `next()` reports `done = true` with `undefined`, and the cache
is unchanged. -/
theorem unresolved_gives_stub (V : Type) (gen : String → Except String Fac)
    (chain : Chain) (cache : Cache Fac) (name : String) (blocks : Obj RBlock) (sig : String)
    (ps : List (Option RBlock))
    (hmiss : cacheTest chain cache name (substring1 sig) = .miss)
    (hprotos : prototypesOf blocks (objValues blocks) = .ok ps)
    (hcase :
      (∀ q ∈ ps, ∃ r m, q = some r ∧ r.mutation = some m ∧
        m.proccode ≠ some (substring1 sig)) ∨
      ∃ pre p post definition, ps = pre ++ some p :: post ∧
        (∀ q ∈ pre, ∃ r m, q = some r ∧ r.mutation = some m ∧
          m.proccode ≠ some (substring1 sig)) ∧
        p.mutation = some ⟨some (substring1 sig)⟩ ∧
        objGet blocks (jsKey p.parent) = some definition ∧
        (truthy definition.next = false ∨
          objGet blocks (jsKey definition.next) = none ∨
          ∃ compileCode, objGet blocks (jsKey definition.next) = some compileCode ∧
            (compileCode.opcode ≠ "kylin_compile" ∨
              ∃ i codeBlock, objGet compileCode.inputs "CODE" = some i ∧
                objGet blocks (jsKey i.block) = some codeBlock ∧
                codeBlock.opcode ≠ "text"))) :
    proceduresGet gen chain cache name blocks sig = (.ok .stub, cache) ∧
    (stubNext V).done = true ∧ (stubNext V).value = none := by
  have hscan : scanPrototypes blocks (substring1 sig) ps = .ok none := by
    rcases hcase with hall | ⟨pre, p, post, definition, hps, hpre, hp, hdef, hno⟩
    · have := scanPrototypes_skip blocks (substring1 sig) ps [] hall
      rw [List.append_nil] at this
      rw [this]
      rfl
    · rw [hps, scanPrototypes_skip blocks _ pre _ hpre, scanPrototypes_match blocks _ p post hp]
      exact markerText_absent blocks p definition hdef hno
  refine ⟨?_, rfl, rfl⟩
  unfold proceduresGet
  simp only [hmiss, hprotos, hscan]

/-- C8 (amended), instance: with an empty cache, `Zbar` (no such procedure) on
`demoBlocks` gives the stub. -/
theorem unresolved_gives_stub_witness :
    cacheTest (standardChain "Sprite1" "bar") demoCache "Sprite1" (substring1 "Zbar") = .miss ∧
    proceduresGet demoGenerator (standardChain "Sprite1" "bar") demoCache "Sprite1" demoBlocks
      "Zbar" = (.ok .stub, demoCache) ∧
    (stubNext Nat).done = true ∧ (stubNext Nat).value = none :=
  ⟨rfl, unresolved_gives_stub Nat demoGenerator (standardChain "Sprite1" "bar") demoCache
    "Sprite1" demoBlocks "Zbar"
    [some { opcode := "procedures_prototype", next := none, parent := some "d",
            inputs := [], fields := [], mutation := some ⟨some "foo"⟩ }]
    rfl rfl
    (Or.inl (by
      intro q hq
      simp only [List.mem_singleton] at hq
      subst hq
      exact ⟨_, _, rfl, rfl, by decide⟩))⟩

/-- The test with `in` also passes on inherited members: for a sprite that has
a cache object, the signature `Zconstructor` is not looked for among the
prototypes although no entry is stored under `constructor`; the inherited
member is called with the thread. With no cache object for the sprite yet, the
same signature is materialised from the container and stored. -/
theorem constructor_signature_called :
    standardChain "Sprite1" (substring1 "Zconstructor") = ⟨false, true⟩ ∧
    cacheLookup demoCache "Sprite1" (substring1 "Zconstructor") = none ∧
    proceduresGet demoGenerator (standardChain "Sprite1" (substring1 "Zconstructor"))
        demoCache "Sprite1" constructorBlocks "Zconstructor" =
      (.ok .inheritedCall, demoCache) ∧
    proceduresGet demoGenerator (standardChain "Sprite1" (substring1 "Zconstructor"))
        [] "Sprite1" constructorBlocks "Zconstructor" =
      (.ok (.applied 3), [("Sprite1", [("constructor", 3)])]) := by
  exact ⟨rfl, rfl, rfl, rfl⟩

end Resolution

section Rebuild

variable {α : Type}

theorem objGet_objErase_self (o : Obj α) (k : String) : objGet (objErase o k) k = none := by
  induction o with
  | nil => rfl
  | cons e rest ih =>
    obtain ⟨k0, w⟩ := e
    by_cases hk : k0 = k
    · simp [objErase, hk, ih]
    · simp [objErase, objGet, hk, ih]

theorem objGet_objErase_ne (o : Obj α) (k k' : String) (hne : k ≠ k') :
    objGet (objErase o k) k' = objGet o k' := by
  induction o with
  | nil => rfl
  | cons e rest ih =>
    obtain ⟨k0, w⟩ := e
    by_cases hk : k0 = k
    · subst hk
      simp [objErase, objGet, hne, ih]
    · by_cases hk' : k0 = k'
      · subst hk'
        simp [objErase, objGet, hk]
      · simp [objErase, objGet, hk, hk', ih]

theorem objGet_mem (o : Obj α) (k : String) (v : α) (h : objGet o k = some v) : (k, v) ∈ o := by
  induction o with
  | nil => simp [objGet] at h
  | cons e rest ih =>
    obtain ⟨k0, w⟩ := e
    by_cases hk : k0 = k
    · subst hk
      simp [objGet] at h
      subst h
      exact List.mem_cons_self _ _
    · simp [objGet, hk] at h
      exact List.mem_cons_of_mem _ (ih h)

theorem place_fst (b : Block) (x y : Nat) :
    (place b x y).1.opcode = b.opcode ∧ (place b x y).1.next = b.next ∧
    (place b x y).1.inputs = b.inputs := by
  unfold place
  split <;> simp

theorem copyAt_set_ne (src m : Obj BlockEntry) (P k' k : String) (e : BlockEntry)
    (hne : k ≠ P) (h : CopyAt src m P k') : CopyAt src (objSet m k e) P k' := by
  obtain ⟨hb, sb, h1, h2, h3, h4⟩ := h
  exact ⟨hb, sb, by rw [objGet_objSet_ne _ _ _ _ hne]; exact h1, h2, h3, h4⟩

theorem copyAt_set_clone (src m : Obj BlockEntry) (P k' k : String) (sb b' : Block)
    (hsrc : objGet src k = some (.block sb)) (hnext : b'.next = sb.next)
    (h : CopyAt src m P k') : CopyAt src (objSet m k (.block b')) P k' := by
  by_cases hk : k = P
  · subst hk
    obtain ⟨hb, sb0, h1, h2, h3, h4⟩ := h
    rw [hsrc] at h2
    injection h2 with h2
    injection h2 with h2
    subst h2
    exact ⟨b', sb, objGet_objSet_self _ _ _, hsrc, by rw [hnext]; exact h4, h4⟩
  · exact copyAt_set_ne src m P k' k _ hk h

theorem copyAt_set_array (src m : Obj BlockEntry) (P k' k : String) (a : String)
    (e : BlockEntry) (hsrc : objGet src k = some (.array a))
    (h : CopyAt src m P k') : CopyAt src (objSet m k e) P k' := by
  by_cases hk : k = P
  · subst hk
    obtain ⟨hb, sb0, h1, h2, h3, h4⟩ := h
    rw [hsrc] at h2
    injection h2 with h2
    cases h2
  · exact copyAt_set_ne src m P k' k _ hk h

theorem copyAt_erase (src m : Obj BlockEntry) (P k' k : String)
    (hsrc : objGet src k = none) (h : CopyAt src m P k') :
    CopyAt src (objErase m k) P k' := by
  obtain ⟨hb, sb, h1, h2, h3, h4⟩ := h
  have hne : k ≠ P := by
    rintro rfl
    rw [hsrc] at h2
    cases h2
  exact ⟨hb, sb, by rw [objGet_objErase_ne _ _ _ hne]; exact h1, h2, h3, h4⟩

theorem markerInv_set (top : String → Prop) (src m : Obj BlockEntry) (k : String)
    (e : BlockEntry)
    (hnot : ∀ b, e = .block b → b.opcode ≠ "kylin_compile")
    (hcopy : ∀ P k', CopyAt src m P k' → top P → CopyAt src (objSet m k e) P k')
    (hinv : MarkerInv top src m) : MarkerInv top src (objSet m k e) := by
  intro k1 b hget hop
  by_cases hk : k = k1
  · subst hk
    rw [objGet_objSet_self] at hget
    injection hget with hget
    exact absurd hop (hnot b hget)
  · rw [objGet_objSet_ne _ _ _ _ hk] at hget
    obtain ⟨hn, P, hp, htop, hc⟩ := hinv k1 b hget hop
    exact ⟨hn, P, hp, htop, hcopy P k1 hc htop⟩

theorem markerInv_erase (top : String → Prop) (src m : Obj BlockEntry) (k : String)
    (hsrc : objGet src k = none)
    (hinv : MarkerInv top src m) : MarkerInv top src (objErase m k) := by
  intro k1 b hget hop
  by_cases hk : k = k1
  · subst hk
    rw [objGet_objErase_self] at hget
    cases hget
  · rw [objGet_objErase_ne _ _ _ hk] at hget
    obtain ⟨hn, P, hp, htop, hc⟩ := hinv k1 b hget hop
    exact ⟨hn, P, hp, htop, copyAt_erase src m P k1 k hsrc hc⟩

theorem markerInv_marker (tools : Tools) (top : String → Prop) (src m : Obj BlockEntry)
    (T n code : String) (htop : top T) (hcopy : CopyAt src m T n) (hnT : n ≠ T)
    (hnot : ∀ P, top P → n ≠ P)
    (hinv : MarkerInv top src m) :
    MarkerInv top src (objSet m n (.block (markerBlock tools T code))) := by
  intro k1 b hget hop
  by_cases hk : n = k1
  · subst hk
    rw [objGet_objSet_self] at hget
    injection hget with hget
    injection hget with hget
    subst hget
    exact ⟨rfl, T, rfl, htop, copyAt_set_ne src m T n n _ hnT hcopy⟩
  · rw [objGet_objSet_ne _ _ _ _ hk] at hget
    obtain ⟨hn, P, hp, htopP, hc⟩ := hinv k1 b hget hop
    exact ⟨hn, P, hp, htopP, copyAt_set_ne src m P k1 n _ (hnot P htopP) hc⟩

theorem truthy_some (o : Option String) (h : truthy o = true) :
    ∃ n, o = some n ∧ jsKey o = n := by
  cases o with
  | none => simp [truthy] at h
  | some n => exact ⟨n, rfl, rfl⟩

theorem rebuildHat_inv (tools : Tools) (top : String → Prop) (src : Obj BlockEntry)
    (st st1 : RebuildState) (hatId : String) (r : CompiledScript)
    (h1 : ∀ k b, objGet src k = some (.block b) → b.opcode ≠ "kylin_compile")
    (h2 : ∀ P Q sb, top P → top Q → objGet src P = some (.block sb) → sb.next ≠ some Q)
    (htop : r.success = true → top hatId)
    (hinv : MarkerInv top src st.blocks)
    (hok : rebuildHat tools src st hatId r = .ok st1) :
    MarkerInv top src st1.blocks := by
  unfold rebuildHat at hok
  by_cases hs : r.success = true
  · rw [if_pos hs] at hok
    cases hsrc : objGet src hatId with
    | none =>
      rw [hsrc] at hok
      cases hok
    | some e =>
      cases e with
      | array a =>
        rw [hsrc] at hok
        simp only at hok
        injection hok with hok
        subst hok
        exact markerInv_set top src st.blocks hatId _ (fun b hb => by cases hb)
          (fun P k' hc _ => copyAt_set_array src st.blocks P k' hatId a _ hsrc hc) hinv
      | block b =>
        rw [hsrc] at hok
        simp only at hok
        obtain ⟨po, pn, _⟩ := place_fst b st.xIndex st.yIndex
        have hA : MarkerInv top src
            (objSet st.blocks hatId (.block (place b st.xIndex st.yIndex).1)) := by
          refine markerInv_set top src st.blocks hatId _ ?_ ?_ hinv
          · intro b' hb'
            injection hb' with hb'
            subst hb'
            rw [po]
            exact h1 hatId b hsrc
          · intro P k' hc _
            exact copyAt_set_clone src st.blocks P k' hatId b _ hsrc pn hc
        by_cases ht : truthy (place b st.xIndex st.yIndex).1.next = true
        · rw [if_pos ht] at hok
          injection hok with hok
          subst hok
          obtain ⟨n, hn, hkey⟩ := truthy_some _ ht
          have hbn : b.next = some n := by rw [← pn]; exact hn
          simp only [hkey]
          refine markerInv_marker tools top src _ hatId n _ (htop hs) ?_ ?_ ?_ hA
          · exact ⟨_, b, objGet_objSet_self _ _ _, hsrc, hn, hbn⟩
          · intro hnT
            exact h2 hatId hatId b (htop hs) (htop hs) hsrc (by rw [hbn, hnT])
          · intro P hP hnP
            exact h2 hatId P b (htop hs) hP hsrc (by rw [hbn, hnP])
        · rw [if_neg ht] at hok
          injection hok with hok
          subst hok
          exact hA
  · rw [if_neg hs] at hok
    injection hok with hok
    subst hok
    exact hinv

theorem rebuildHats_inv (tools : Tools) (top : String → Prop) (src : Obj BlockEntry)
    (h1 : ∀ k b, objGet src k = some (.block b) → b.opcode ≠ "kylin_compile")
    (h2 : ∀ P Q sb, top P → top Q → objGet src P = some (.block sb) → sb.next ≠ some Q)
    (l : List (String × CompiledScript))
    (htop : ∀ x, x ∈ l → x.2.success = true → top x.1) :
    ∀ (st st1 : RebuildState), MarkerInv top src st.blocks →
      rebuildHats tools src st l = .ok st1 → MarkerInv top src st1.blocks := by
  induction l with
  | nil =>
    intro st st1 hinv hok
    simp only [rebuildHats] at hok
    injection hok with hok
    subst hok
    exact hinv
  | cons x rest ih =>
    intro st st1 hinv hok
    obtain ⟨hatId, r⟩ := x
    simp only [rebuildHats] at hok
    cases hstep : rebuildHat tools src st hatId r with
    | error e =>
      rw [hstep] at hok
      cases hok
    | ok st' =>
      rw [hstep] at hok
      simp only at hok
      exact ih (fun y hy => htop y (List.mem_cons_of_mem _ hy)) st' st1
        (rebuildHat_inv tools top src st st' hatId r h1 h2
          (htop (hatId, r) (List.mem_cons_self _ _)) hinv hstep) hok

theorem cloneParameters_inv (top : String → Prop) (src : Obj BlockEntry)
    (h1 : ∀ k b, objGet src k = some (.block b) → b.opcode ≠ "kylin_compile")
    (l : List Input) :
    ∀ (m : Obj BlockEntry), MarkerInv top src m → MarkerInv top src (cloneParameters src m l) := by
  induction l with
  | nil =>
    intro m hinv
    exact hinv
  | cons i rest ih =>
    intro m hinv
    simp only [cloneParameters]
    by_cases ht : i.value.truthy = true
    · rw [if_pos ht]
      cases hsrc : objGet src i.value.key with
      | none =>
        simp only
        exact ih _ (markerInv_erase top src m _ hsrc hinv)
      | some e =>
        simp only
        refine ih _ (markerInv_set top src m _ e ?_ ?_ hinv)
        · intro b hb
          subst hb
          exact h1 _ b hsrc
        · intro P k' hc _
          cases e with
          | block b => exact copyAt_set_clone src m P k' _ b b hsrc rfl hc
          | array a => exact copyAt_set_array src m P k' _ a _ hsrc hc
    · rw [if_neg ht]
      exact ih m hinv

theorem cloneParameters_copyAt (src : Obj BlockEntry) (P k' : String) (l : List Input) :
    ∀ (m : Obj BlockEntry), CopyAt src m P k' → CopyAt src (cloneParameters src m l) P k' := by
  induction l with
  | nil =>
    intro m hc
    exact hc
  | cons i rest ih =>
    intro m hc
    simp only [cloneParameters]
    by_cases ht : i.value.truthy = true
    · rw [if_pos ht]
      cases hsrc : objGet src i.value.key with
      | none =>
        simp only
        exact ih _ (copyAt_erase src m P k' _ hsrc hc)
      | some e =>
        simp only
        cases e with
        | block b => exact ih _ (copyAt_set_clone src m P k' _ b b hsrc rfl hc)
        | array a => exact ih _ (copyAt_set_array src m P k' _ a _ hsrc hc)
    · rw [if_neg ht]
      exact ih m hc

theorem rebuildProcedure_inv (tools : Tools) (top : String → Prop) (src : Obj BlockEntry)
    (st st1 : RebuildState) (info : ProcedureInfo)
    (h1 : ∀ k b, objGet src k = some (.block b) → b.opcode ≠ "kylin_compile")
    (h2 : ∀ P Q sb, top P → top Q → objGet src P = some (.block sb) → sb.next ≠ some Q)
    (htop : top info.topBlockId)
    (hinv : MarkerInv top src st.blocks)
    (hok : rebuildProcedure tools src st info = .ok st1) :
    MarkerInv top src st1.blocks := by
  unfold rebuildProcedure at hok
  cases hsrc : objGet src info.topBlockId with
  | none =>
    rw [hsrc] at hok
    cases hok
  | some e =>
    cases e with
    | array a =>
      rw [hsrc] at hok
      cases hok
    | block b =>
      rw [hsrc] at hok
      simp only at hok
      obtain ⟨po, pn, pi⟩ := place_fst b st.xIndex st.yIndex
      have hA : MarkerInv top src
          (objSet st.blocks info.topBlockId (.block (place b st.xIndex st.yIndex).1)) := by
        refine markerInv_set top src st.blocks _ _ ?_ ?_ hinv
        · intro b' hb'
          injection hb' with hb'
          subst hb'
          rw [po]
          exact h1 _ b hsrc
        · intro P k' hc _
          exact copyAt_set_clone src st.blocks P k' _ b _ hsrc pn hc
      cases hcb : objGet (place b st.xIndex st.yIndex).1.inputs "custom_block" with
      | none =>
        rw [hcb] at hok
        cases hok
      | some cb =>
        rw [hcb] at hok
        simp only at hok
        cases hproto : objGet src cb.value.key with
        | none =>
          rw [hproto] at hok
          cases hok
        | some pe =>
          cases pe with
          | array a =>
            rw [hproto] at hok
            cases hok
          | block proto =>
            rw [hproto] at hok
            simp only at hok
            have hB : MarkerInv top src
                (objSet (objSet st.blocks info.topBlockId
                  (.block (place b st.xIndex st.yIndex).1)) cb.value.key (.block proto)) := by
              refine markerInv_set top src _ _ _ ?_ ?_ hA
              · intro b' hb'
                injection hb' with hb'
                subst hb'
                exact h1 _ _ hproto
              · intro P k' hc _
                exact copyAt_set_clone src _ P k' _ proto proto hproto rfl hc
            have hC := cloneParameters_inv top src h1 (objValues proto.inputs) _ hB
            by_cases ht : truthy (place b st.xIndex st.yIndex).1.next = true
            · rw [if_pos ht] at hok
              injection hok with hok
              subst hok
              obtain ⟨n, hn, hkey⟩ := truthy_some _ ht
              have hbn : b.next = some n := by rw [← pn]; exact hn
              simp only [hkey]
              refine markerInv_marker tools top src _ info.topBlockId n _ htop ?_ ?_ ?_ hC
              · refine cloneParameters_copyAt src _ _ _ _ ?_
                refine copyAt_set_clone src _ _ _ _ proto proto hproto rfl ?_
                exact ⟨_, b, objGet_objSet_self _ _ _, hsrc, hn, hbn⟩
              · intro hnT
                exact h2 _ _ b htop htop hsrc (by rw [hbn, hnT])
              · intro P hP hnP
                exact h2 _ P b htop hP hsrc (by rw [hbn, hnP])
            · rw [if_neg ht] at hok
              injection hok with hok
              subst hok
              exact hC

theorem rebuildProcedures_inv (tools : Tools) (top : String → Prop) (src : Obj BlockEntry)
    (h1 : ∀ k b, objGet src k = some (.block b) → b.opcode ≠ "kylin_compile")
    (h2 : ∀ P Q sb, top P → top Q → objGet src P = some (.block sb) → sb.next ≠ some Q)
    (l : List ProcedureInfo)
    (htop : ∀ x, x ∈ l → top x.topBlockId) :
    ∀ (st st1 : RebuildState), MarkerInv top src st.blocks →
      rebuildProcedures tools src st l = .ok st1 → MarkerInv top src st1.blocks := by
  induction l with
  | nil =>
    intro st st1 hinv hok
    simp only [rebuildProcedures] at hok
    injection hok with hok
    subst hok
    exact hinv
  | cons x rest ih =>
    intro st st1 hinv hok
    simp only [rebuildProcedures] at hok
    cases hstep : rebuildProcedure tools src st x with
    | error e =>
      rw [hstep] at hok
      cases hok
    | ok st' =>
      rw [hstep] at hok
      simp only at hok
      exact ih (fun y hy => htop y (List.mem_cons_of_mem _ hy)) st' st1
        (rebuildProcedure_inv tools top src st st' x h1 h2
          (htop x (List.mem_cons_self _ _)) hinv hstep) hok

theorem rebuildTarget_inv (tools : Tools) (t t1 : Target) (c : TargetCache)
    (h1 : ∀ k b, objGet t.blocks k = some (.block b) → b.opcode ≠ "kylin_compile")
    (h2 : ∀ P Q sb, IsCompiledTop c P → IsCompiledTop c Q →
      objGet t.blocks P = some (.block sb) → sb.next ≠ some Q)
    (hok : rebuildTarget tools t c = .ok t1) :
    MarkerInv (IsCompiledTop c) t.blocks t1.blocks := by
  unfold rebuildTarget at hok
  simp only at hok
  cases hh : rebuildHats tools t.blocks
      { blocks := [], xIndex := 0, yIndex := 0, hasBlock := false } c.compiledScripts with
  | error e =>
    rw [hh] at hok
    cases hok
  | ok st1 =>
    rw [hh] at hok
    simp only at hok
    cases hp : rebuildProcedures tools t.blocks st1 c.compiledProcedures with
    | error e =>
      rw [hp] at hok
      cases hok
    | ok st2 =>
      rw [hp] at hok
      simp only at hok
      injection hok with hok
      subst hok
      have h0 : MarkerInv (IsCompiledTop c) t.blocks
          ({ blocks := [], xIndex := 0, yIndex := 0, hasBlock := false } : RebuildState).blocks := by
        intro k b hget _
        simp [objGet] at hget
      have hH := rebuildHats_inv tools (IsCompiledTop c) t.blocks h1 h2 c.compiledScripts
        (fun x hx hs => Or.inl ⟨x.2, hx, hs⟩) _ st1 h0 hh
      exact rebuildProcedures_inv tools (IsCompiledTop c) t.blocks h1 h2 c.compiledProcedures
        (fun x hx => Or.inr ⟨x, hx, rfl⟩) st1 st2 hH hp

theorem markerInv_mono (top top' : String → Prop) (src m : Obj BlockEntry)
    (hsub : ∀ P, top P → top' P) (hinv : MarkerInv top src m) : MarkerInv top' src m := by
  intro k b hget hop
  obtain ⟨hn, P, hp, htop, hc⟩ := hinv k b hget hop
  exact ⟨hn, P, hp, hsub P htop, hc⟩

theorem markerInv_source (top : String → Prop) (src : Obj BlockEntry)
    (h1 : ∀ k b, objGet src k = some (.block b) → b.opcode ≠ "kylin_compile") :
    MarkerInv top src src := by
  intro k b hget hop
  exact absurd hop (h1 k b hget)

theorem findOpcodeInBlocks_mem (extension op : String) (l : List BlockEntry)
    (h : findOpcodeInBlocks extension l = some op) :
    ∃ b, BlockEntry.block b ∈ l ∧ b.opcode = op := by
  induction l with
  | nil => simp [findOpcodeInBlocks] at h
  | cons e rest ih =>
    cases e with
    | array a =>
      simp only [findOpcodeInBlocks] at h
      obtain ⟨b, hb, ho⟩ := ih h
      exact ⟨b, List.mem_cons_of_mem _ hb, ho⟩
    | block b =>
      simp only [findOpcodeInBlocks] at h
      by_cases hs : startsWith b.opcode (extension ++ "_") = true
      · rw [if_pos hs] at h
        injection h with h
        exact ⟨b, List.mem_cons_self _ _, h⟩
      · rw [if_neg hs] at h
        obtain ⟨b', hb, ho⟩ := ih h
        exact ⟨b', List.mem_cons_of_mem _ hb, ho⟩

theorem findOpcode_mem (extension op : String) (ts : List Target)
    (h : findOpcode extension ts = some op) :
    ∃ t, t ∈ ts ∧ ∃ k b, (k, BlockEntry.block b) ∈ t.blocks ∧ b.opcode = op := by
  induction ts with
  | nil => simp [findOpcode] at h
  | cons t rest ih =>
    simp only [findOpcode] at h
    cases hf : findOpcodeInBlocks extension (objValues t.blocks) with
    | some op' =>
      rw [hf] at h
      simp only at h
      injection h with h
      subst h
      obtain ⟨b, hb, ho⟩ := findOpcodeInBlocks_mem extension op' _ hf
      unfold objValues at hb
      rw [List.mem_map] at hb
      obtain ⟨⟨k, e⟩, hmem, he⟩ := hb
      simp only at he
      subst he
      exact ⟨t, List.mem_cons_self _ _, k, b, hmem, ho⟩
    | none =>
      rw [hf] at h
      simp only at h
      obtain ⟨t', ht', r⟩ := ih h
      exact ⟨t', List.mem_cons_of_mem _ ht', r⟩

theorem keepExtensions_none (tools : Tools) (sourceTargets : List Target) (exts : List String) :
    ∀ (n : Nat) (r : Option (Obj BlockEntry)),
      keepExtensions tools sourceTargets none n exts = .ok r → r = none := by
  induction exts with
  | nil =>
    intro n r h
    simp only [keepExtensions] at h
    injection h with h
    exact h.symm
  | cons e rest ih =>
    intro n r h
    simp only [keepExtensions] at h
    cases hf : findOpcode e sourceTargets with
    | none =>
      rw [hf] at h
      exact ih n r h
    | some op =>
      rw [hf] at h
      cases h

theorem keepExtensions_some (tools : Tools) (sourceTargets : List Target)
    (Q : Obj BlockEntry → Prop)
    (hstep : ∀ m n op, Q m →
      (∃ t, t ∈ sourceTargets ∧ ∃ k b, (k, BlockEntry.block b) ∈ t.blocks ∧ b.opcode = op) →
      Q (objSet m (tools.uid n) (.block (placeholderBlock op))))
    (exts : List String) :
    ∀ (n : Nat) (m : Obj BlockEntry) (r : Option (Obj BlockEntry)), Q m →
      keepExtensions tools sourceTargets (some m) n exts = .ok r → ∃ m', r = some m' ∧ Q m' := by
  induction exts with
  | nil =>
    intro n m r hq h
    simp only [keepExtensions] at h
    injection h with h
    exact ⟨m, h.symm, hq⟩
  | cons e rest ih =>
    intro n m r hq h
    simp only [keepExtensions] at h
    cases hf : findOpcode e sourceTargets with
    | none =>
      rw [hf] at h
      exact ih n m r hq h
    | some op =>
      rw [hf] at h
      simp only at h
      exact ih (n + 1) _ r (hstep m n op hq (findOpcode_mem e op sourceTargets hf)) h

theorem rebuildTargets_get (tools : Tools) :
    ∀ (ts : List Target) (cs : List TargetCache) (ts1 : List Target),
      rebuildTargets tools ts cs = .ok ts1 →
      ∀ (i : Nat) (t1 : Target), ts1[i]? = some t1 →
        (∃ t c, ts[i]? = some t ∧ cs[i]? = some c ∧ rebuildTarget tools t c = .ok t1) ∨
        (cs[i]? = none ∧ ts[i]? = some t1) := by
  intro ts
  induction ts with
  | nil =>
    intro cs ts1 h i t1 hi
    cases cs with
    | nil =>
      simp only [rebuildTargets] at h
      injection h with h
      subst h
      simp at hi
    | cons c cs =>
      simp only [rebuildTargets] at h
      cases h
  | cons t ts ih =>
    intro cs ts1 h i t1 hi
    cases cs with
    | nil =>
      simp only [rebuildTargets] at h
      injection h with h
      subst h
      exact Or.inr ⟨by simp, hi⟩
    | cons c cs =>
      simp only [rebuildTargets] at h
      cases ht : rebuildTarget tools t c with
      | error e =>
        rw [ht] at h
        cases h
      | ok t' =>
        rw [ht] at h
        simp only at h
        cases hr : rebuildTargets tools ts cs with
        | error e =>
          rw [hr] at h
          cases h
        | ok ts' =>
          rw [hr] at h
          simp only at h
          injection h with h
          subst h
          cases i with
          | zero =>
            simp only [List.getElem?_cons_zero] at hi
            injection hi with hi
            subst hi
            exact Or.inl ⟨t, c, by simp, by simp, ht⟩
          | succ j =>
            simp only [List.getElem?_cons_succ] at hi
            simpa using ih cs ts' hr j t1 hi

theorem rebuildTargets_inv (tools : Tools) (ts : List Target) (cs : List TargetCache)
    (ts1 : List Target)
    (h1 : ∀ t, t ∈ ts → ∀ k b, (k, BlockEntry.block b) ∈ t.blocks → b.opcode ≠ "kylin_compile")
    (h2 : ∀ (i : Nat) (t : Target) (c : TargetCache), ts[i]? = some t → cs[i]? = some c →
      ∀ (P Q : String) (sb : Block), IsCompiledTop c P → IsCompiledTop c Q →
      objGet t.blocks P = some (.block sb) → sb.next ≠ some Q)
    (hok : rebuildTargets tools ts cs = .ok ts1) (i : Nat) (t1 : Target)
    (hi : ts1[i]? = some t1) :
    ∃ t, ts[i]? = some t ∧
      MarkerInv (fun P => ∃ c, cs[i]? = some c ∧ IsCompiledTop c P) t.blocks t1.blocks := by
  rcases rebuildTargets_get tools ts cs ts1 hok i t1 hi with ⟨t, c, hti, hci, hr⟩ | ⟨hci, hti⟩
  · have hmem : t ∈ ts := List.getElem?_mem hti
    refine ⟨t, hti, markerInv_mono _ _ _ _ (fun P hP => ⟨c, hci, hP⟩) ?_⟩
    exact rebuildTarget_inv tools t t1 c
      (fun k b hg => h1 t hmem k b (objGet_mem _ _ _ hg)) (h2 i t c hti hci) hr
  · have hmem : t1 ∈ ts := List.getElem?_mem hti
    exact ⟨t1, hti, markerInv_source _ _ (fun k b hg => h1 t1 hmem k b (objGet_mem _ _ _ hg))⟩

theorem rebuild_ok_cases (tools : Tools) (source : Project) (caches : List TargetCache)
    (rebuilt : Project) (hok : rebuild tools source caches = .ok rebuilt) :
    ∃ ts1, rebuildTargets tools source.targets caches = .ok ts1 ∧
      ((source.extensions = none ∧ rebuilt.targets = ts1) ∨
        ∃ exts b0, source.extensions = some exts ∧
          keepExtensions tools source.targets (firstBlocks ts1) 0 exts = .ok b0 ∧
          rebuilt.targets = setFirstBlocks ts1 b0) := by
  unfold rebuild at hok
  cases hr : rebuildTargets tools source.targets caches with
  | error e =>
    rw [hr] at hok
    cases hok
  | ok ts1 =>
    rw [hr] at hok
    simp only at hok
    refine ⟨ts1, rfl, ?_⟩
    cases he : source.extensions with
    | none =>
      rw [he] at hok
      simp only at hok
      injection hok with hok
      subst hok
      exact Or.inl ⟨rfl, rfl⟩
    | some exts =>
      rw [he] at hok
      simp only at hok
      cases hk : keepExtensions tools source.targets (firstBlocks ts1) 0 exts with
      | error e =>
        rw [hk] at hok
        cases hok
      | ok b0 =>
        rw [hk] at hok
        simp only at hok
        injection hok with hok
        subst hok
        exact Or.inr ⟨exts, b0, rfl, hk, rfl⟩

theorem markerInv_concl (cs : List TargetCache) (i : Nat) (src m : Obj BlockEntry)
    (hinv : MarkerInv (fun P => ∃ c, cs[i]? = some c ∧ IsCompiledTop c P) src m)
    (k : String) (b : Block) (hget : objGet m k = some (.block b))
    (hop : b.opcode = "kylin_compile") :
    b.next = none ∧ ∃ c P hb, cs[i]? = some c ∧ IsCompiledTop c P ∧ b.parent = some P ∧
      objGet m P = some (.block hb) ∧ hb.next = some k := by
  obtain ⟨hn, P, hp, ⟨c, hc, htop⟩, hb, sb, h1, _, h3, _⟩ := hinv k b hget hop
  exact ⟨hn, c, P, hb, hc, htop, hp, h1, h3⟩

theorem placeholder_keeps_inv (tools : Tools) (top : String → Prop) (sourceTargets : List Target)
    (src : Obj BlockEntry)
    (h1 : ∀ t, t ∈ sourceTargets → ∀ k b, (k, BlockEntry.block b) ∈ t.blocks →
      b.opcode ≠ "kylin_compile")
    (hfresh : ∀ (n : Nat) (P : String), top P → tools.uid n ≠ P)
    (m : Obj BlockEntry) (n : Nat) (op : String) (hinv : MarkerInv top src m)
    (hop : ∃ t, t ∈ sourceTargets ∧ ∃ k b, (k, BlockEntry.block b) ∈ t.blocks ∧ b.opcode = op) :
    MarkerInv top src (objSet m (tools.uid n) (.block (placeholderBlock op))) := by
  refine markerInv_set top src m _ _ ?_ ?_ hinv
  · intro b hb
    injection hb with hb
    subst hb
    obtain ⟨t, ht, k, b', hmem, ho⟩ := hop
    show op ≠ "kylin_compile"
    rw [← ho]
    exact h1 t ht k b' hmem
  · intro P k' hc htop
    exact copyAt_set_ne src m P k' _ _ (hfresh n P htop) hc

theorem rebuildTarget_single_hat (tools : Tools) (t : Target) (h n code : String) (hat : Block)
    (hsrc : objGet t.blocks h = some (.block hat)) (hnext : hat.next = some n) (hn : n ≠ "") :
    rebuildTarget tools t ⟨[(h, ⟨true, code⟩)], []⟩ =
      .ok { t with
            blocks := objSet (objSet [] h (.block (place hat 0 0).1)) n
              (.block (markerBlock tools h code))
            comments := keepComments t.isStage t.comments } := by
  obtain ⟨_, pn, _⟩ := place_fst hat 0 0
  have ht : truthy (place hat 0 0).1.next = true := by
    rw [pn, hnext]
    simp [truthy, hn]
  have hk : jsKey (place hat 0 0).1.next = n := by
    rw [pn, hnext]
    rfl
  simp only [rebuildTarget, rebuildHats, rebuildHat, hsrc, if_true, ht, hk, rebuildProcedures]

/-- C10 (counterexample): `demoRebuilt` has unique block ids and already
lists the extension `kylin` with a `kylin_compile` block; rebuilding it adds to
the first target, under the fresh id `uu`, a placeholder whose opcode is
`kylin_compile` and whose parent is `null`. -/
theorem rebuilt_again_has_orphan_marker :
    (demoRebuilt.targets.map (fun t => t.blocks.map Prod.fst)) = [["h", "b1", "u"]] ∧
    ∃ rebuilt t1 b, rebuild demoTools demoRebuilt demoCaches = .ok rebuilt ∧
      rebuilt.targets = [t1] ∧
      objGet t1.blocks "uu" = some (.block b) ∧
      b.opcode = "kylin_compile" ∧ b.parent = none :=
  ⟨rfl, _, _, _, rfl, rfl, rfl, rfl, rfl⟩

/-- C10 (amended): let a program contain no block with opcode `kylin_compile`,
let no successfully compiled hat or rebuilt procedure definition be the `next`
of one, and let the placeholder ids differ from the ids of the first target's
compiled hats and definitions. Then in the rebuilt program every block with
opcode `kylin_compile` has `next = null` and a parent that is the id of a
successfully compiled hat or rebuilt procedure definition of the same target,
under which the rebuilt target holds a block whose `next` is that marker's id.
In particular, for one sprite with one successfully compiled hat that has a body
(whose first block `n` no placeholder id equals), the rebuilt target has exactly
one `kylin_compile` block: it is stored under `n`, its parent is the hat's id and
its `next` is `null`. -/
theorem markers_have_copied_parent (tools : Tools) (source : Project)
    (caches : List TargetCache) (rebuilt : Project)
    (hok : rebuild tools source caches = .ok rebuilt)
    (hnomarker : ∀ t, t ∈ source.targets → ∀ k b, (k, BlockEntry.block b) ∈ t.blocks →
      b.opcode ≠ "kylin_compile")
    (htops : ∀ (i : Nat) (t : Target) (c : TargetCache),
      source.targets[i]? = some t → caches[i]? = some c →
      ∀ (P Q : String) (sb : Block), IsCompiledTop c P → IsCompiledTop c Q →
      objGet t.blocks P = some (.block sb) → sb.next ≠ some Q)
    (hfresh : ∀ (c : TargetCache), caches[0]? = some c →
      ∀ (n : Nat) (P : String), IsCompiledTop c P → tools.uid n ≠ P) :
    (∀ (i : Nat) (t1 : Target), rebuilt.targets[i]? = some t1 →
      ∀ (k : String) (b : Block), objGet t1.blocks k = some (.block b) →
        b.opcode = "kylin_compile" →
        b.next = none ∧ ∃ c P hb, caches[i]? = some c ∧ IsCompiledTop c P ∧
          b.parent = some P ∧ objGet t1.blocks P = some (.block hb) ∧ hb.next = some k) ∧
    (∀ (t : Target) (h n code : String) (hat : Block),
      source.targets = [t] → caches = [⟨[(h, ⟨true, code⟩)], []⟩] →
      objGet t.blocks h = some (.block hat) → hat.next = some n → n ≠ "" →
      (∀ i, tools.uid i ≠ n) →
      ∃ t1 mk, rebuilt.targets = [t1] ∧ objGet t1.blocks n = some (.block mk) ∧
        mk.opcode = "kylin_compile" ∧ mk.parent = some h ∧ mk.next = none ∧
        ∀ (k : String) (b : Block), objGet t1.blocks k = some (.block b) →
          b.opcode = "kylin_compile" → k = n) := by
  obtain ⟨ts1, hts, hshape⟩ := rebuild_ok_cases tools source caches rebuilt hok
  constructor
  · intro i t1 hi k b hget hop
    have hbase := rebuildTargets_inv tools source.targets caches ts1 hnomarker htops hts
    rcases hshape with ⟨_, hrt⟩ | ⟨exts, b0, _, hkeep, hrt⟩
    · rw [hrt] at hi
      obtain ⟨t, _, hinv⟩ := hbase i t1 hi
      exact markerInv_concl caches i t.blocks t1.blocks hinv k b hget hop
    · cases ts1 with
      | nil =>
        have hb0 := keepExtensions_none tools source.targets exts 0 b0 hkeep
        subst hb0
        rw [hrt] at hi
        simp [setFirstBlocks] at hi
      | cons tA rest =>
        obtain ⟨t0, _, hinv0⟩ := hbase 0 tA (by simp)
        have hfresh' : ∀ (n : Nat) (P : String),
            (∃ c, caches[0]? = some c ∧ IsCompiledTop c P) → tools.uid n ≠ P := by
          rintro n P ⟨c, hc, hP⟩
          exact hfresh c hc n P hP
        obtain ⟨m', hm', hinv'⟩ := keepExtensions_some tools source.targets
          (MarkerInv (fun P => ∃ c, caches[0]? = some c ∧ IsCompiledTop c P) t0.blocks)
          (fun m n op hq hop' => placeholder_keeps_inv tools _ source.targets t0.blocks
            hnomarker hfresh' m n op hq hop')
          exts 0 tA.blocks b0 hinv0 hkeep
        subst hm'
        rw [hrt] at hi
        cases i with
        | zero =>
          simp only [setFirstBlocks, List.getElem?_cons_zero] at hi
          injection hi with hi
          subst hi
          exact markerInv_concl caches 0 t0.blocks m' hinv' k b hget hop
        | succ j =>
          simp only [setFirstBlocks, List.getElem?_cons_succ] at hi
          obtain ⟨t, _, hinv⟩ := hbase (j + 1) t1 (by simpa using hi)
          exact markerInv_concl caches (j + 1) t.blocks t1.blocks hinv k b hget hop
  · intro t h n code hat hsrc hcaches hhat hnext hn hfreshn
    have hts1 : ts1 = [{ t with
        blocks := objSet (objSet [] h (.block (place hat 0 0).1)) n
          (.block (markerBlock tools h code))
        comments := keepComments t.isStage t.comments }] := by
      rw [hsrc, hcaches] at hts
      simp only [rebuildTargets, rebuildTarget_single_hat tools t h n code hat hhat hnext hn]
        at hts
      injection hts with hts
      exact hts.symm
    have hhatop : hat.opcode ≠ "kylin_compile" :=
      hnomarker t (by rw [hsrc]; exact List.mem_singleton_self t) h hat (objGet_mem _ _ _ hhat)
    have hQ0 : objGet (objSet (objSet [] h (.block (place hat 0 0).1)) n
          (BlockEntry.block (markerBlock tools h code))) n =
          some (.block (markerBlock tools h code)) ∧
        ∀ (k : String) (b : Block),
          objGet (objSet (objSet [] h (.block (place hat 0 0).1)) n
            (BlockEntry.block (markerBlock tools h code))) k = some (.block b) →
          b.opcode = "kylin_compile" → k = n := by
      refine ⟨objGet_objSet_self _ _ _, fun k b hget hop => ?_⟩
      by_contra hkn
      rw [objGet_objSet_ne _ _ _ _ (fun e => hkn e.symm)] at hget
      by_cases hkh : h = k
      · subst hkh
        rw [objGet_objSet_self] at hget
        injection hget with hget
        injection hget with hget
        subst hget
        rw [(place_fst hat 0 0).1] at hop
        exact hhatop hop
      · rw [objGet_objSet_ne _ _ _ _ hkh] at hget
        simp [objGet] at hget
    rcases hshape with ⟨_, hrt⟩ | ⟨exts, b0, _, hkeep, hrt⟩
    · rw [hts1] at hrt
      exact ⟨_, markerBlock tools h code, hrt, hQ0.1, rfl, rfl, rfl, hQ0.2⟩
    · rw [hts1] at hkeep hrt
      obtain ⟨m', hm', hq1, hq2⟩ := keepExtensions_some tools source.targets
        (fun m => objGet m n = some (.block (markerBlock tools h code)) ∧
          ∀ (k : String) (b : Block), objGet m k = some (.block b) →
            b.opcode = "kylin_compile" → k = n)
        (fun m i op hq hop' => by
          obtain ⟨tO, htO, kO, bO, hmemO, hoO⟩ := hop'
          have hopne : op ≠ "kylin_compile" := by
            rw [← hoO]
            exact hnomarker tO htO kO bO hmemO
          refine ⟨?_, fun k b hget hop => ?_⟩
          · rw [objGet_objSet_ne _ _ _ _ (hfreshn i)]
            exact hq.1
          · by_cases hku : tools.uid i = k
            · subst hku
              rw [objGet_objSet_self] at hget
              injection hget with hget
              injection hget with hget
              subst hget
              exact absurd hop hopne
            · rw [objGet_objSet_ne _ _ _ _ hku] at hget
              exact hq.2 k b hget hop)
        exts 0 _ b0 hQ0 hkeep
      subst hm'
      exact ⟨_, markerBlock tools h code, hrt, hq1, rfl, rfl, rfl, hq2⟩

/-- C10 (amended), instance: `demoProject` (one sprite, one compiled hat with a
two-block body) rebuilds into a target whose only `kylin_compile` block is
stored under `b1`, with parent `h` and no successor. -/
theorem markers_have_copied_parent_witness :
    rebuild demoTools demoProject demoCaches = .ok demoRebuilt ∧
    ∃ t1 mk, demoRebuilt.targets = [t1] ∧ objGet t1.blocks "b1" = some (.block mk) ∧
      mk.opcode = "kylin_compile" ∧ mk.parent = some "h" ∧ mk.next = none ∧
      ∀ (k : String) (b : Block), objGet t1.blocks k = some (.block b) →
        b.opcode = "kylin_compile" → k = "b1" := by
  refine ⟨rfl, ?_⟩
  refine (markers_have_copied_parent demoTools demoProject demoCaches demoRebuilt rfl
    ?_ ?_ ?_).2 _ "h" "b1" "function(){}" demoHat rfl rfl rfl rfl (by decide) ?_
  · intro t ht k b hmem
    simp only [demoProject, List.mem_singleton] at ht
    subst ht
    simp only [List.mem_cons, Prod.mk.injEq, BlockEntry.block.injEq, List.mem_nil_iff,
      or_false] at hmem
    rcases hmem with ⟨_, hb⟩ | ⟨_, hb⟩ | ⟨_, hb⟩ <;> subst hb <;> decide
  · intro i t c hti hci P Q sb hP hQ hget
    cases i with
    | zero =>
      simp only [demoProject, demoCaches, List.getElem?_cons_zero, Option.some.injEq] at hti hci
      subst hti
      subst hci
      have hPh : ∀ R, IsCompiledTop
          { compiledScripts := [("h", ⟨true, "function(){}"⟩)], compiledProcedures := [] } R →
          R = "h" := by
        intro R hR
        rcases hR with ⟨r, hr, _⟩ | ⟨info, hinfo, _⟩
        · simp only [List.mem_singleton, Prod.mk.injEq] at hr
          exact hr.1
        · simp at hinfo
      have h1 := hPh P hP
      have h2 := hPh Q hQ
      subst h1
      subst h2
      simp only [objGet, if_true, Option.some.injEq, BlockEntry.block.injEq] at hget
      subst hget
      decide
    | succ j =>
      simp [demoProject] at hti
  · intro c hc n P hP
    simp only [demoCaches, List.getElem?_cons_zero, Option.some.injEq] at hc
    subst hc
    rcases hP with ⟨r, hr, _⟩ | ⟨info, hinfo, _⟩
    · simp only [List.mem_singleton, Prod.mk.injEq] at hr
      rw [hr.1]
      intro hu
      have := congrArg String.data hu
      simp [demoTools] at this
      cases n <;> simp [List.replicate] at this
    · simp at hinfo
  · intro i hu
    have := congrArg String.data hu
    simp [demoTools] at this
    cases i <;> simp [List.replicate] at this

end Rebuild

section Loading

/-- C9 (counterexample): with the capability flag absent (`undefined`) loading
does not raise; the shim patches `stepThread` and registers itself. -/
theorem absent_flag_loads :
    flaglessHost.unsandboxed = none ∧
    (loadShim flaglessHost).1 = none ∧
    (loadShim flaglessHost).2.stepThreadPatched = true ∧
    (loadShim flaglessHost).2.registered = ["kylin"] :=
  ⟨rfl, rfl, rfl, rfl⟩

/-- C9 (amended): loading raises 'Kylin Runtime needs to be loaded
unsandboxed.' if and only if the flag is explicitly `false`; it raises no other
error; when it raises, the host is unchanged (nothing registered, `stepThread`
not replaced); when the flag is `true` or absent the shim patches `stepThread`
and registers `kylin`. -/
theorem loadShim_raises_iff (h : ScratchHost) :
    ((loadShim h).1 = some unsandboxedError ↔ h.unsandboxed = some false) ∧
    ((loadShim h).1.isSome = true → (loadShim h).1 = some unsandboxedError ∧ (loadShim h).2 = h) ∧
    (h.unsandboxed ≠ some false →
      (loadShim h).1 = none ∧ (loadShim h).2.stepThreadPatched = true ∧
      (loadShim h).2.registered = h.registered ++ ["kylin"]) := by
  unfold loadShim
  by_cases hu : h.unsandboxed = some false
  · simp [hu]
  · simp [hu]

/-- C9 (amended), instance: an explicit `false` raises and changes nothing. -/
theorem loadShim_raises_iff_witness :
    (loadShim sandboxedHost).1.isSome = true ∧
    (loadShim sandboxedHost).1 = some unsandboxedError ∧
    (loadShim sandboxedHost).2 = sandboxedHost :=
  ⟨rfl, (loadShim_raises_iff sandboxedHost).2.1 rfl⟩

end Loading

section RebuildShape

theorem keepExtensions_eq (tools : Tools) (sourceTargets : List Target) (exts : List String) :
    ∀ (n : Nat) (m : Obj BlockEntry),
      keepExtensions tools sourceTargets (some m) n exts =
        .ok (some (addPlaceholders tools m n
          (exts.filterMap (fun e => findOpcode e sourceTargets)))) := by
  induction exts with
  | nil =>
    intro n m
    rfl
  | cons e rest ih =>
    intro n m
    simp only [keepExtensions]
    cases hf : findOpcode e sourceTargets with
    | none =>
      simp only [List.filterMap_cons, hf]
      exact ih n m
    | some op =>
      simp only [List.filterMap_cons, hf, addPlaceholders]
      exact ih (n + 1) _

theorem rebuildTarget_frame (tools : Tools) (t t0 : Target) (c : TargetCache)
    (hok : rebuildTarget tools t c = .ok t0) :
    t0.comments = keepComments t.isStage t.comments ∧ t0.isStage = t.isStage ∧
    t0.name = t.name ∧ t0.rest = t.rest := by
  unfold rebuildTarget at hok
  simp only at hok
  cases hh : rebuildHats tools t.blocks
      { blocks := [], xIndex := 0, yIndex := 0, hasBlock := false } c.compiledScripts with
  | error e =>
    rw [hh] at hok
    cases hok
  | ok st1 =>
    rw [hh] at hok
    simp only at hok
    cases hp : rebuildProcedures tools t.blocks st1 c.compiledProcedures with
    | error e =>
      rw [hp] at hok
      cases hok
    | ok st2 =>
      rw [hp] at hok
      simp only at hok
      injection hok with hok
      subst hok
      exact ⟨rfl, rfl, rfl, rfl⟩

theorem rebuild_target_shape (tools : Tools) (source : Project) (caches : List TargetCache)
    (rebuilt : Project) (hok : rebuild tools source caches = .ok rebuilt)
    (i : Nat) (t1 : Target) (c : TargetCache)
    (hi : rebuilt.targets[i]? = some t1) (hc : caches[i]? = some c) :
    ∃ t t0, source.targets[i]? = some t ∧ rebuildTarget tools t c = .ok t0 ∧
      t1 = { t0 with
             blocks := addPlaceholders tools t0.blocks 0
               (if i = 0 then placeholderOpcodes source else []) } := by
  obtain ⟨ts1, hts, hshape⟩ := rebuild_ok_cases tools source caches rebuilt hok
  have hget := rebuildTargets_get tools source.targets caches ts1 hts
  have huse : ∀ (j : Nat) (tj : Target), ts1[j]? = some tj → caches[j]? = some c →
      ∃ t, source.targets[j]? = some t ∧ rebuildTarget tools t c = .ok tj := by
    intro j tj hj hcj
    rcases hget j tj hj with ⟨t, c', ht, hc', hr⟩ | ⟨hnone, _⟩
    · rw [hcj] at hc'
      injection hc' with hc'
      subst hc'
      exact ⟨t, ht, hr⟩
    · rw [hcj] at hnone
      cases hnone
  rcases hshape with ⟨hext, hrt⟩ | ⟨exts, b0, hext, hkeep, hrt⟩
  · rw [hrt] at hi
    obtain ⟨t, ht, hr⟩ := huse i t1 hi hc
    refine ⟨t, t1, ht, hr, ?_⟩
    have hops : (if i = 0 then placeholderOpcodes source else []) = [] := by
      unfold placeholderOpcodes
      rw [hext]
      simp
    rw [hops]
    rfl
  · cases ts1 with
    | nil =>
      have hb0 := keepExtensions_none tools source.targets exts 0 b0 hkeep
      subst hb0
      rw [hrt] at hi
      simp [setFirstBlocks] at hi
    | cons tA rest =>
      simp only [firstBlocks, keepExtensions_eq] at hkeep
      injection hkeep with hkeep
      subst hkeep
      rw [hrt] at hi
      cases i with
      | zero =>
        simp only [setFirstBlocks, List.getElem?_cons_zero] at hi
        injection hi with hi
        subst hi
        obtain ⟨t, ht, hr⟩ := huse 0 tA (by simp) hc
        refine ⟨t, tA, ht, hr, ?_⟩
        simp only [placeholderOpcodes, hext, if_true]
      | succ j =>
        simp only [setFirstBlocks, List.getElem?_cons_succ] at hi
        obtain ⟨t, ht, hr⟩ := huse (j + 1) t1 (by simpa using hi) hc
        refine ⟨t, t1, ht, hr, ?_⟩
        simp only [Nat.add_one_ne_zero, if_false]
        rfl

theorem findOpcodeInBlocks_none (e : String) (l : List BlockEntry)
    (h : ∀ b, BlockEntry.block b ∈ l → startsWith b.opcode (e ++ "_") = false) :
    findOpcodeInBlocks e l = none := by
  induction l with
  | nil => rfl
  | cons x rest ih =>
    have ih' := ih (fun b hb => h b (List.mem_cons_of_mem _ hb))
    cases x with
    | array a => simpa [findOpcodeInBlocks] using ih'
    | block b =>
      have hb := h b (List.mem_cons_self _ _)
      simp [findOpcodeInBlocks, hb, ih']

theorem findOpcodeInBlocks_append (e : String) (l1 l2 : List BlockEntry) :
    findOpcodeInBlocks e (l1 ++ l2) =
      match findOpcodeInBlocks e l1 with
      | some op => some op
      | none => findOpcodeInBlocks e l2 := by
  induction l1 with
  | nil => rfl
  | cons x rest ih =>
    cases x with
    | array a => simpa [findOpcodeInBlocks] using ih
    | block b =>
      by_cases hs : startsWith b.opcode (e ++ "_") = true
      · simp [findOpcodeInBlocks, hs]
      · simp only [List.cons_append, findOpcodeInBlocks, if_neg hs]
        exact ih

theorem findOpcode_scanOrder (e : String) (ts : List Target) :
    findOpcode e ts = findOpcodeInBlocks e (scanOrder ts) := by
  induction ts with
  | nil => rfl
  | cons t rest ih =>
    simp only [findOpcode, scanOrder, findOpcodeInBlocks_append]
    cases findOpcodeInBlocks e (objValues t.blocks) with
    | some op => rfl
    | none => exact ih

theorem findOpcode_first (e : String) (ts : List Target) (before after : List BlockEntry)
    (b : Block) (hscan : scanOrder ts = before ++ BlockEntry.block b :: after)
    (hstart : startsWith b.opcode (e ++ "_") = true)
    (hfirst : ∀ b', BlockEntry.block b' ∈ before → startsWith b'.opcode (e ++ "_") = false) :
    findOpcode e ts = some b.opcode := by
  rw [findOpcode_scanOrder, hscan, findOpcodeInBlocks_append,
    findOpcodeInBlocks_none e before hfirst]
  simp [findOpcodeInBlocks, hstart]

theorem objGet_addPlaceholders_later (tools : Tools) (k : String) (ops : List String) :
    ∀ (n : Nat) (m : Obj BlockEntry), (∀ j, n ≤ j → tools.uid j ≠ k) →
      objGet (addPlaceholders tools m n ops) k = objGet m k := by
  induction ops with
  | nil =>
    intro n m _
    rfl
  | cons op rest ih =>
    intro n m h
    simp only [addPlaceholders]
    rw [ih (n + 1) _ (fun j hj => h j (Nat.le_of_succ_le hj)),
      objGet_objSet_ne _ _ _ _ (h n (Nat.le_refl n))]

theorem objGet_addPlaceholders_at (tools : Tools)
    (huid : ∀ a a', tools.uid a = tools.uid a' → a = a')
    (l1 : List String) (op : String) (l2 : List String) :
    ∀ (n : Nat) (m : Obj BlockEntry),
      objGet (addPlaceholders tools m n (l1 ++ op :: l2)) (tools.uid (n + l1.length)) =
        some (.block (placeholderBlock op)) := by
  induction l1 with
  | nil =>
    intro n m
    simp only [List.nil_append, addPlaceholders, List.length_nil, Nat.add_zero]
    rw [objGet_addPlaceholders_later tools _ l2 (n + 1) _
      (fun j hj hju => by have := huid j n hju; omega)]
    exact objGet_objSet_self _ _ _
  | cons x rest ih =>
    intro n m
    simp only [List.cons_append, addPlaceholders, List.length_cons]
    have := ih (n + 1) (objSet m (tools.uid n) (.block (placeholderBlock x)))
    rw [show n + (rest.length + 1) = n + 1 + rest.length by omega]
    exact this

theorem rebuildTargets_length (tools : Tools) :
    ∀ (ts : List Target) (cs : List TargetCache) (ts1 : List Target),
      rebuildTargets tools ts cs = .ok ts1 → ts1.length = ts.length := by
  intro ts
  induction ts with
  | nil =>
    intro cs ts1 h
    cases cs with
    | nil =>
      simp only [rebuildTargets] at h
      injection h with h
      subst h
      rfl
    | cons c cs =>
      simp only [rebuildTargets] at h
      cases h
  | cons t ts ih =>
    intro cs ts1 h
    cases cs with
    | nil =>
      simp only [rebuildTargets] at h
      injection h with h
      subst h
      rfl
    | cons c cs =>
      simp only [rebuildTargets] at h
      cases ht : rebuildTarget tools t c with
      | error e =>
        rw [ht] at h
        cases h
      | ok t' =>
        rw [ht] at h
        simp only at h
        cases hr : rebuildTargets tools ts cs with
        | error e =>
          rw [hr] at h
          cases h
        | ok ts' =>
          rw [hr] at h
          simp only at h
          injection h with h
          subst h
          simp [ih cs ts' hr]

theorem rebuild_extensions_eq (tools : Tools) (source : Project) (caches : List TargetCache)
    (exts : List String) (hext : source.extensions = some exts) :
    rebuild tools source caches =
      match rebuildTargets tools source.targets caches with
      | .error e => .error e
      | .ok ts1 =>
        match keepExtensions tools source.targets (firstBlocks ts1) 0 exts with
        | .error e => .error e
        | .ok b0 =>
          .ok { source with
                targets := setFirstBlocks ts1 b0
                extensions := some (exts ++ ["kylin"])
                extensionURLs :=
                  some (objSet (source.extensionURLs.getD []) "kylin" tools.bootstrap) } := by
  unfold rebuild
  rw [hext]

theorem keepExtensions_skip (tools : Tools) (sourceTargets : List Target) (e : String)
    (hnone : findOpcode e sourceTargets = none) (pre post : List String) :
    ∀ (b : Option (Obj BlockEntry)) (n : Nat),
      keepExtensions tools sourceTargets b n (pre ++ e :: post) =
        keepExtensions tools sourceTargets b n (pre ++ post) := by
  induction pre with
  | nil =>
    intro b n
    simp only [List.nil_append, keepExtensions, hnone]
  | cons x rest ih =>
    intro b n
    simp only [List.cons_append, keepExtensions]
    cases findOpcode x sourceTargets with
    | none => exact ih b n
    | some op =>
      cases b with
      | none => rfl
      | some m => exact ih _ _

theorem demoTools_uid_injective (a a' : Nat) (h : demoTools.uid a = demoTools.uid a') :
    a = a' := by
  have := congrArg (fun s => s.data.length) h
  simpa [demoTools] using this

end RebuildShape

section RebuildFrame

/-- C13 (the code at the failing input): in `demoProject` with the hat's
compilation failed, the rebuilt target holds neither the hat `h` nor its body
blocks `b1`, `b2`; only the placeholder of the `music` extension is left. -/
theorem failed_hat_is_dropped :
    (∃ c, failedCaches = [c] ∧ objGet c.compiledScripts "h" = some ⟨false, ""⟩) ∧
    (∃ t, demoProject.targets = [t] ∧ objGet t.blocks "h" = some (.block demoHat)) ∧
    ∃ rebuilt t1, rebuild demoTools demoProject failedCaches = .ok rebuilt ∧
      rebuilt.targets = [t1] ∧
      t1.blocks = [("u", .block (placeholderBlock "music_restForBeats"))] ∧
      objGet t1.blocks "h" = none ∧ objGet t1.blocks "b1" = none ∧
      objGet t1.blocks "b2" = none :=
  ⟨⟨_, rfl, rfl⟩, ⟨_, rfl, rfl⟩, _, _, rfl, rfl, rfl, rfl, rfl, rfl⟩

/-- C16: for every rebuilt target, a comment is in the rebuilt `comments`
mapping exactly when it is in the original one, the target is the stage and the
comment's text ends with `// _twconfig_`; the comments kept are the original
entries, in their original order. -/
theorem comments_kept_iff (tools : Tools) (source : Project) (caches : List TargetCache)
    (rebuilt : Project) (hok : rebuild tools source caches = .ok rebuilt)
    (i : Nat) (t1 : Target) (c : TargetCache)
    (hi : rebuilt.targets[i]? = some t1) (hc : caches[i]? = some c) :
    ∃ t, source.targets[i]? = some t ∧
      (∀ (id : String) (cm : Comment), (id, cm) ∈ t1.comments ↔
        ((id, cm) ∈ t.comments ∧ t.isStage = true ∧
          endsWith cm.text "// _twconfig_" = true)) ∧
      List.Sublist t1.comments t.comments := by
  obtain ⟨t, t0, ht, hr, hshape⟩ := rebuild_target_shape tools source caches rebuilt hok i t1 c hi hc
  obtain ⟨hcm, _, _, _⟩ := rebuildTarget_frame tools t t0 c hr
  have hcm1 : t1.comments = keepComments t.isStage t.comments := by
    rw [hshape]
    exact hcm
  refine ⟨t, ht, fun id cm => ?_, ?_⟩
  · rw [hcm1]
    unfold keepComments
    rw [List.mem_filter]
    cases t.isStage <;> cases endsWith cm.text "// _twconfig_" <;> simp
  · rw [hcm1]
    exact List.filter_sublist _

/-- C16, instance: of the three comments of `commentedProject` only the
configuration comment of the stage is kept. -/
theorem comments_kept_iff_witness :
    ∃ rebuilt t1 t2, rebuild demoTools commentedProject emptyCaches = .ok rebuilt ∧
      rebuilt.targets = [t1, t2] ∧
      t1.comments = [("c1", ⟨"Configuration // _twconfig_", ""⟩)] ∧ t2.comments = [] ∧
      ((("c2", ⟨"a note", ""⟩) : String × Comment) ∈ t1.comments ↔
        ((("c2", ⟨"a note", ""⟩) : String × Comment) ∈
            [(("c1", ⟨"Configuration // _twconfig_", ""⟩) : String × Comment),
              ("c2", ⟨"a note", ""⟩)] ∧
          true = true ∧ endsWith "a note" "// _twconfig_" = true)) := by
  refine ⟨_, _, _, rfl, rfl, rfl, rfl, ?_⟩
  obtain ⟨t, ht, h, _⟩ := comments_kept_iff demoTools commentedProject emptyCaches _ rfl 0 _
    ⟨[], []⟩ rfl rfl
  simp only [commentedProject, List.getElem?_cons_zero, Option.some.injEq] at ht
  subst ht
  exact h "c2" ⟨"a note", ""⟩

/-- C17: let `e` be an entry of the original Extensions list and `b` the first
block in scan order (targets in order, blocks in order) whose opcode begins
with `e` followed by `_`. With `uid()` never returning an id twice, the rebuilt
first target holds, under the id returned by the call of `uid()` made for this
entry, a placeholder with `b`'s opcode, `parent = null`, `next = null`,
`shadow = true` and empty inputs and fields; and `e` is in the rebuilt
Extensions list. Nothing is assumed about `b` surviving the rebuild. -/
theorem extension_placeholder_added (tools : Tools) (source : Project)
    (caches : List TargetCache) (rebuilt : Project)
    (hok : rebuild tools source caches = .ok rebuilt)
    (pre post : List String) (e : String)
    (hext : source.extensions = some (pre ++ e :: post))
    (before after : List BlockEntry) (b : Block)
    (hscan : scanOrder source.targets = before ++ BlockEntry.block b :: after)
    (hstart : startsWith b.opcode (e ++ "_") = true)
    (hfirst : ∀ b', BlockEntry.block b' ∈ before → startsWith b'.opcode (e ++ "_") = false)
    (huid : ∀ a a', tools.uid a = tools.uid a' → a = a') :
    ∃ t1 rest pb, rebuilt.targets = t1 :: rest ∧
      objGet t1.blocks
          (tools.uid (pre.filterMap (fun x => findOpcode x source.targets)).length) =
        some (.block pb) ∧
      pb.opcode = b.opcode ∧ pb.parent = none ∧ pb.next = none ∧ pb.shadow = true ∧
      pb.inputs = [] ∧ pb.fields = [] ∧
      ∃ exts, rebuilt.extensions = some exts ∧ e ∈ exts := by
  have hfound := findOpcode_first e source.targets before after b hscan hstart hfirst
  rw [rebuild_extensions_eq tools source caches _ hext] at hok
  cases hts : rebuildTargets tools source.targets caches with
  | error err =>
    rw [hts] at hok
    cases hok
  | ok ts1 =>
    rw [hts] at hok
    simp only at hok
    have hlen := rebuildTargets_length tools source.targets caches ts1 hts
    cases ts1 with
    | nil =>
      have hsrc : source.targets = [] := by
        cases hs : source.targets with
        | nil => rfl
        | cons x xs =>
          rw [hs] at hlen
          simp at hlen
      rw [hsrc] at hscan
      simp [scanOrder] at hscan
    | cons tA rest =>
      simp only [firstBlocks, keepExtensions_eq, setFirstBlocks] at hok
      injection hok with hok
      subst hok
      refine ⟨_, rest, placeholderBlock b.opcode, rfl, ?_, rfl, rfl, rfl, rfl, rfl, rfl,
        _, rfl, by simp⟩
      simp only [List.filterMap_append, List.filterMap_cons, hfound]
      have := objGet_addPlaceholders_at tools huid
        (pre.filterMap (fun x => findOpcode x source.targets)) b.opcode
        (post.filterMap (fun x => findOpcode x source.targets)) 0 tA.blocks
      simpa using this

/-- C17, instance: in `demoProject` the extension `music` is used only by the
body block `b2`, which the rebuild removes; the rebuilt first target holds the
placeholder `music_restForBeats` under `u`, and `music` is still listed. -/
theorem extension_placeholder_added_witness :
    rebuild demoTools demoProject demoCaches = .ok demoRebuilt ∧
    ∃ t1 rest pb, demoRebuilt.targets = t1 :: rest ∧
      objGet t1.blocks "u" = some (.block pb) ∧ pb.opcode = "music_restForBeats" ∧
      pb.parent = none ∧ pb.next = none ∧ pb.shadow = true ∧
      objGet t1.blocks "b2" = none ∧
      ∃ exts, demoRebuilt.extensions = some exts ∧ "music" ∈ exts := by
  refine ⟨rfl, ?_⟩
  obtain ⟨t1, rest, pb, h1, h2, h3, h4, h5, h6, _, _, h9⟩ :=
    extension_placeholder_added demoTools demoProject demoCaches demoRebuilt rfl [] []
      "music" rfl
      [.block demoHat,
        .block { opcode := "motion_movesteps", next := some "b2", parent := some "h",
                 inputs := [("STEPS", ⟨1, .prim 4 (some "10"), none⟩)], fields := [],
                 shadow := false, topLevel := false, x := none, y := none,
                 mutation := none }]
      []
      { opcode := "music_restForBeats", next := none, parent := some "b1",
        inputs := [("BEATS", ⟨1, .prim 4 (some "1"), none⟩)], fields := [],
        shadow := false, topLevel := false, x := none, y := none, mutation := none }
      rfl rfl
      (by
        intro b' hb'
        simp only [List.mem_cons, BlockEntry.block.injEq, List.mem_nil_iff, or_false] at hb'
        rcases hb' with hb' | hb' <;> subst hb' <;> rfl)
      demoTools_uid_injective
  simp only [demoRebuilt, List.cons.injEq] at h1
  obtain ⟨h1a, h1b⟩ := h1
  subst h1a
  exact ⟨_, _, pb, rfl, h2, h3, h4, h5, h6, rfl, h9⟩

/-- C18 (counterexample): `penProject` lists the extension `pen` and has no
block namespaced under it; after the rebuild `pen` is still in the Extensions
list. -/
theorem unused_extension_still_listed :
    penProject.extensions = some ["pen"] ∧
    findOpcode "pen" penProject.targets = none ∧
    ∃ rebuilt, rebuild demoTools penProject demoCaches = .ok rebuilt ∧
      rebuilt.extensions = some ["pen", "kylin"] :=
  ⟨rfl, rfl, _, rfl, rfl⟩

/-- C18 (amended): for an entry `e` of the original Extensions list such that
no block of any original target has an opcode beginning with `e` followed by
`_`, the rebuild behaves as for the list without that entry — it fails exactly
when that one fails, and otherwise yields the same targets and URL table, so no
placeholder is added for `e` — except that `e` stays in the rebuilt Extensions
list, at its original place, before the appended `kylin`. -/
theorem unused_extension_stays (tools : Tools) (source : Project)
    (caches : List TargetCache) (pre post : List String) (e : String)
    (hext : source.extensions = some (pre ++ e :: post))
    (hnone : ∀ b, BlockEntry.block b ∈ scanOrder source.targets →
      startsWith b.opcode (e ++ "_") = false) :
    (∀ err, rebuild tools { source with extensions := some (pre ++ post) } caches = .error err →
      rebuild tools source caches = .error err) ∧
    (∀ r, rebuild tools { source with extensions := some (pre ++ post) } caches = .ok r →
      rebuild tools source caches =
        .ok { r with extensions := some (pre ++ e :: post ++ ["kylin"]) }) := by
  have hfind : findOpcode e source.targets = none := by
    rw [findOpcode_scanOrder]
    exact findOpcodeInBlocks_none e _ hnone
  rw [rebuild_extensions_eq tools source caches _ hext,
    rebuild_extensions_eq tools { source with extensions := some (pre ++ post) } caches
      (pre ++ post) rfl]
  simp only
  cases rebuildTargets tools source.targets caches with
  | error e0 =>
    constructor
    · intro err h
      exact h
    · intro r h
      cases h
  | ok ts1 =>
    simp only
    rw [keepExtensions_skip tools source.targets e hfind pre post]
    cases keepExtensions tools source.targets (firstBlocks ts1) 0 (pre ++ post) with
    | error e0 =>
      constructor
      · intro err h
        exact h
      · intro r h
        cases h
    | ok b0 =>
      constructor
      · intro err h
        cases h
      · intro r h
        simp only at h
        injection h with h
        subst h
        simp

/-- C18 (amended), instance: `penProject` rebuilds like `demoProject` with an
empty Extensions list, with `pen` kept in the list. -/
theorem unused_extension_stays_witness :
    penProject.extensions = some ([] ++ "pen" :: []) ∧
    ∃ r, rebuild demoTools { penProject with extensions := some ([] ++ []) } demoCaches = .ok r ∧
      rebuild demoTools penProject demoCaches =
        .ok { r with extensions := some ([] ++ "pen" :: [] ++ ["kylin"]) } := by
  refine ⟨rfl, _, rfl, ?_⟩
  exact (unused_extension_stays demoTools penProject demoCaches [] [] "pen" rfl
    (by
      intro b hb
      simp only [penProject, demoProject, scanOrder, objValues, List.map, List.append_nil,
        List.mem_cons, BlockEntry.block.injEq, List.mem_nil_iff, or_false] at hb
      rcases hb with hb | hb | hb <;> subst hb <;> rfl)).2 _ rfl

/-- C19 (counterexample): `bareProject` has no `extensions` array; the rebuilt
program has none either, so its Extensions list does not contain `kylin`. -/
theorem no_array_no_kylin :
    bareProject.extensions = none ∧
    ∃ rebuilt, rebuild demoTools bareProject demoCaches = .ok rebuilt ∧
      rebuilt.extensions = none :=
  ⟨rfl, _, rfl, rfl⟩

/-- C19 (amended): when the original `extensions` is an array, the rebuilt
Extensions list is that array followed by `kylin` as its last element; when it
is not an array it is left as it is. In both cases the rebuilt Extension-URL
table has an entry under `kylin` (the bootstrap payload), and under every other
key it reads as the original table. -/
theorem kylin_appended (tools : Tools) (source : Project) (caches : List TargetCache)
    (rebuilt : Project) (hok : rebuild tools source caches = .ok rebuilt) :
    (∀ exts, source.extensions = some exts → rebuilt.extensions = some (exts ++ ["kylin"])) ∧
    (source.extensions = none → rebuilt.extensions = none) ∧
    ∃ urls, rebuilt.extensionURLs = some urls ∧
      objGet urls "kylin" = some tools.bootstrap ∧
      ∀ k, k ≠ "kylin" → objGet urls k = objGet (source.extensionURLs.getD []) k := by
  unfold rebuild at hok
  cases hr : rebuildTargets tools source.targets caches with
  | error e =>
    rw [hr] at hok
    cases hok
  | ok ts1 =>
    rw [hr] at hok
    simp only at hok
    have hurl : objGet (objSet (source.extensionURLs.getD []) "kylin" tools.bootstrap) "kylin" =
          some tools.bootstrap ∧
        ∀ k, k ≠ "kylin" →
          objGet (objSet (source.extensionURLs.getD []) "kylin" tools.bootstrap) k =
            objGet (source.extensionURLs.getD []) k :=
      ⟨objGet_objSet_self _ _ _, fun k hk => objGet_objSet_ne _ _ _ _ (fun h => hk h.symm)⟩
    cases he : source.extensions with
    | none =>
      rw [he] at hok
      simp only at hok
      injection hok with hok
      subst hok
      refine ⟨?_, ?_, _, rfl, hurl⟩
      · intro exts h
        cases h
      · intro _
        rfl
    | some exts =>
      rw [he] at hok
      simp only at hok
      cases hk : keepExtensions tools source.targets (firstBlocks ts1) 0 exts with
      | error e =>
        rw [hk] at hok
        cases hok
      | ok b0 =>
        rw [hk] at hok
        simp only at hok
        injection hok with hok
        subst hok
        refine ⟨?_, ?_, _, rfl, hurl⟩
        · intro exts' h
          injection h with h
          subst h
          rfl
        · intro h
          cases h

/-- C19 (amended), instance on `demoProject`. -/
theorem kylin_appended_witness :
    rebuild demoTools demoProject demoCaches = .ok demoRebuilt ∧
    demoProject.extensions = some ["music"] ∧
    demoRebuilt.extensions = some (["music"] ++ ["kylin"]) :=
  ⟨rfl, rfl, (kylin_appended demoTools demoProject demoCaches demoRebuilt rfl).1 _ rfl⟩

end RebuildFrame

section FirstMatch

variable {Fac : Type}

/-- C20: when the scan runs (the test
`name in procedureCache && s in procedureCache[name]` has failed) the loop over
the prototypes is left at the first prototype whose proccode equals the bare
signature: the scan of
`pre ++ p :: post` is decided by `p` alone. If `p`'s definition has no `next`,
or its `next` names no block, or names a block that is not `kylin_compile`, or
names a `kylin_compile` block whose `CODE` input block is not a `text` block,
the resolution returns the stub and leaves the cache as it is, whatever the
prototypes after `p` are. -/
theorem first_match_decides (gen : String → Except String Fac) (chain : Chain)
    (cache : Cache Fac) (name : String) (blocks : Obj RBlock) (sig : String)
    (pre post : List (Option RBlock)) (p definition : RBlock)
    (hmiss : cacheTest chain cache name (substring1 sig) = .miss)
    (hprotos : prototypesOf blocks (objValues blocks) = .ok (pre ++ some p :: post))
    (hpre : ∀ q ∈ pre, ∃ r m, q = some r ∧ r.mutation = some m ∧
      m.proccode ≠ some (substring1 sig))
    (hp : p.mutation = some ⟨some (substring1 sig)⟩)
    (hdef : objGet blocks (jsKey p.parent) = some definition)
    (hno : truthy definition.next = false ∨
      objGet blocks (jsKey definition.next) = none ∨
      ∃ compileCode, objGet blocks (jsKey definition.next) = some compileCode ∧
        (compileCode.opcode ≠ "kylin_compile" ∨
          ∃ i codeBlock, objGet compileCode.inputs "CODE" = some i ∧
            objGet blocks (jsKey i.block) = some codeBlock ∧ codeBlock.opcode ≠ "text")) :
    scanPrototypes blocks (substring1 sig) (pre ++ some p :: post) = markerText blocks p ∧
    proceduresGet gen chain cache name blocks sig = (.ok .stub, cache) := by
  have hscan : scanPrototypes blocks (substring1 sig) (pre ++ some p :: post) =
      markerText blocks p := by
    rw [scanPrototypes_skip blocks _ pre _ hpre, scanPrototypes_match blocks _ p post hp]
  refine ⟨hscan, ?_⟩
  unfold proceduresGet
  simp only [hmiss, hprotos, hscan, markerText_absent blocks p definition hdef hno]

/-- C20, instance: in `twoFooBlocks` the first `foo` has no compiled body and
the second one has; `Zfoo` resolves to the stub and nothing is cached, although
the second prototype alone would lead to the text `abc`. -/
theorem first_match_decides_witness :
    prototypesOf twoFooBlocks (objValues twoFooBlocks) =
      .ok ([] ++ some firstFoo :: [some secondFoo]) ∧
    markerText twoFooBlocks secondFoo = .ok (some "abc") ∧
    cacheTest plainChain ([("Sprite1", [("bar", 7)])] : Cache Nat) "Sprite1"
      (substring1 "Zfoo") = .miss ∧
    proceduresGet demoGenerator plainChain [("Sprite1", [("bar", 7)])] "Sprite1" twoFooBlocks
      "Zfoo" = (.ok .stub, [("Sprite1", [("bar", 7)])]) :=
  ⟨rfl, rfl, rfl,
    (first_match_decides demoGenerator plainChain [("Sprite1", [("bar", 7)])] "Sprite1"
      twoFooBlocks "Zfoo" [] [some secondFoo]
      firstFoo firstFooDefinition rfl rfl (fun q hq => by cases hq) rfl rfl
      (Or.inl rfl)).2⟩

end FirstMatch

section Layout

theorem rebuildHat_ok_cases (tools : Tools) (src : Obj BlockEntry) (st st' : RebuildState)
    (hatId : String) (r : CompiledScript) (hok : rebuildHat tools src st hatId r = .ok st') :
    (r.success = false ∧ st' = st) ∨
    (r.success = true ∧ ∃ a, objGet src hatId = some (.array a) ∧
      st'.xIndex = st.xIndex ∧ st'.yIndex = st.yIndex ∧
      st'.blocks = objSet st.blocks hatId (.array a)) ∨
    (r.success = true ∧ ∃ b, objGet src hatId = some (.block b) ∧
      st'.xIndex = (place b st.xIndex st.yIndex).2.1 ∧
      st'.yIndex = (place b st.xIndex st.yIndex).2.2 ∧
      st'.blocks =
        if truthy b.next = true then
          objSet (objSet st.blocks hatId (.block (place b st.xIndex st.yIndex).1))
            (jsKey b.next) (.block (markerBlock tools hatId r.startingFunction))
        else objSet st.blocks hatId (.block (place b st.xIndex st.yIndex).1)) := by
  unfold rebuildHat at hok
  by_cases hs : r.success = true
  · rw [if_pos hs] at hok
    cases hsrc : objGet src hatId with
    | none =>
      rw [hsrc] at hok
      cases hok
    | some e =>
      cases e with
      | array a =>
        rw [hsrc] at hok
        simp only at hok
        injection hok with hok
        subst hok
        exact Or.inr (Or.inl ⟨hs, a, rfl, rfl, rfl, rfl⟩)
      | block b =>
        rw [hsrc] at hok
        simp only at hok
        obtain ⟨_, pn, _⟩ := place_fst b st.xIndex st.yIndex
        refine Or.inr (Or.inr ⟨hs, b, rfl, ?_⟩)
        rw [pn] at hok
        by_cases ht : truthy b.next = true
        · rw [if_pos ht] at hok
          injection hok with hok
          subst hok
          exact ⟨rfl, rfl, by rw [if_pos ht]⟩
        · rw [if_neg ht] at hok
          injection hok with hok
          subst hok
          exact ⟨rfl, rfl, by rw [if_neg ht]⟩
  · rw [if_neg hs] at hok
    injection hok with hok
    exact Or.inl ⟨by simpa using hs, hok.symm⟩

theorem rebuildProcedure_ok_cases (tools : Tools) (src : Obj BlockEntry)
    (st st' : RebuildState) (info : ProcedureInfo)
    (hok : rebuildProcedure tools src st info = .ok st') :
    ∃ b cb proto, objGet src info.topBlockId = some (.block b) ∧
      objGet b.inputs "custom_block" = some cb ∧
      objGet src cb.value.key = some (.block proto) ∧
      st'.xIndex = (place b st.xIndex st.yIndex).2.1 ∧
      st'.yIndex = (place b st.xIndex st.yIndex).2.2 ∧
      st'.blocks =
        if truthy b.next = true then
          objSet
            (cloneParameters src
              (objSet (objSet st.blocks info.topBlockId
                (.block (place b st.xIndex st.yIndex).1)) cb.value.key (.block proto))
              (objValues proto.inputs))
            (jsKey b.next) (.block (markerBlock tools info.topBlockId info.cachedCompileResult))
        else
          cloneParameters src
            (objSet (objSet st.blocks info.topBlockId
              (.block (place b st.xIndex st.yIndex).1)) cb.value.key (.block proto))
            (objValues proto.inputs) := by
  unfold rebuildProcedure at hok
  cases hsrc : objGet src info.topBlockId with
  | none =>
    rw [hsrc] at hok
    cases hok
  | some e =>
    cases e with
    | array a =>
      rw [hsrc] at hok
      cases hok
    | block b =>
      rw [hsrc] at hok
      simp only at hok
      obtain ⟨_, pn, pi⟩ := place_fst b st.xIndex st.yIndex
      rw [pi, pn] at hok
      cases hcb : objGet b.inputs "custom_block" with
      | none =>
        rw [hcb] at hok
        cases hok
      | some cb =>
        rw [hcb] at hok
        simp only at hok
        cases hproto : objGet src cb.value.key with
        | none =>
          rw [hproto] at hok
          cases hok
        | some pe =>
          cases pe with
          | array a =>
            rw [hproto] at hok
            cases hok
          | block proto =>
            rw [hproto] at hok
            simp only at hok
            refine ⟨b, cb, proto, rfl, hcb, hproto, ?_⟩
            by_cases ht : truthy b.next = true
            · rw [if_pos ht] at hok
              injection hok with hok
              subst hok
              exact ⟨rfl, rfl, by rw [if_pos ht]⟩
            · rw [if_neg ht] at hok
              injection hok with hok
              subst hok
              exact ⟨rfl, rfl, by rw [if_neg ht]⟩

theorem place_position (b : Block) (xi yi k : Nat) (hk : xi * 6 + yi = k) (hy : yi ≤ 6)
    (hx : b.x.isSome = true) :
    (place b xi yi).1.x = some ((250 * (k / 6) : Nat) : Int) ∧
    (place b xi yi).1.y = some ((150 * (k % 6) : Nat) : Int) ∧
    (place b xi yi).2.1 * 6 + (place b xi yi).2.2 = k + 1 ∧ (place b xi yi).2.2 ≤ 6 := by
  unfold place
  rw [hx]
  by_cases h5 : yi > 5
  · have h1 : k / 6 = xi + 1 := by omega
    have h2 : k % 6 = 0 := by omega
    rw [h1, h2]
    simp only [Bool.and_self, if_true, h5, xOffset, yOffset]
    refine ⟨?_, ?_, ?_, ?_⟩
    · rw [Nat.mul_comm]
    · trivial
    · omega
    · omega
  · have h1 : k / 6 = xi := by omega
    have h2 : k % 6 = yi := by omega
    rw [h1, h2]
    simp only [Bool.and_self, if_true, h5, if_false, xOffset, yOffset]
    refine ⟨?_, ?_, ?_, ?_⟩
    · rw [Nat.mul_comm]
    · rw [Nat.mul_comm]
    · omega
    · omega

theorem place_skip (b : Block) (xi yi : Nat) (hx : b.x.isSome = false) :
    place b xi yi = (b, xi, yi) := by
  unfold place
  simp [hx]

theorem place_counters (src : Obj BlockEntry) (id : String) (b : Block) (xi yi k : Nat)
    (hsrc : objGet src id = some (.block b)) (hk : xi * 6 + yi = k) (hy : yi ≤ 6) :
    (place b xi yi).2.1 * 6 + (place b xi yi).2.2 = k + (if hasX src id = true then 1 else 0) ∧
    (place b xi yi).2.2 ≤ 6 := by
  have hX : hasX src id = b.x.isSome := by
    unfold hasX
    rw [hsrc]
  by_cases hx : b.x.isSome = true
  · obtain ⟨_, _, h3, h4⟩ := place_position b xi yi k hk hy hx
    rw [hX, if_pos hx]
    exact ⟨h3, h4⟩
  · have hx' : b.x.isSome = false := by simpa using hx
    rw [place_skip b xi yi hx', hX, if_neg hx]
    exact ⟨hk, hy⟩

theorem rebuildHats_counters (tools : Tools) (src : Obj BlockEntry)
    (l : List (String × CompiledScript)) :
    ∀ (st st' : RebuildState) (k : Nat), rebuildHats tools src st l = .ok st' →
      st.xIndex * 6 + st.yIndex = k → st.yIndex ≤ 6 →
      st'.xIndex * 6 + st'.yIndex = k + placedHats src l ∧ st'.yIndex ≤ 6 := by
  induction l with
  | nil =>
    intro st st' k hok hk hy
    simp only [rebuildHats] at hok
    injection hok with hok
    subst hok
    exact ⟨by simpa [placedHats] using hk, hy⟩
  | cons x rest ih =>
    intro st st' k hok hk hy
    obtain ⟨hatId, r⟩ := x
    simp only [rebuildHats] at hok
    cases hstep : rebuildHat tools src st hatId r with
    | error e =>
      rw [hstep] at hok
      cases hok
    | ok s1 =>
      rw [hstep] at hok
      simp only at hok
      have hcount : placedHats src ((hatId, r) :: rest) =
          (if (r.success && hasX src hatId) = true then 1 else 0) + placedHats src rest := by
        unfold placedHats
        rw [List.filter_cons]
        split
        · rw [List.length_cons]
          omega
        · omega
      rcases rebuildHat_ok_cases tools src st s1 hatId r hstep with
        ⟨hs, heq⟩ | ⟨hs, a, hsrc, hx, hyy, _⟩ | ⟨hs, b, hsrc, hx, hyy, _⟩
      · subst heq
        have := ih s1 st' k hok hk hy
        rw [hcount]
        simpa [hs] using this
      · have hX : hasX src hatId = false := by
          unfold hasX
          rw [hsrc]
        have := ih s1 st' k hok (by rw [hx, hyy]; exact hk) (by rw [hyy]; exact hy)
        rw [hcount]
        simpa [hs, hX] using this
      · obtain ⟨c1, c2⟩ := place_counters src hatId b st.xIndex st.yIndex k hsrc hk hy
        have := ih s1 st' (k + (if hasX src hatId = true then 1 else 0)) hok
          (by rw [hx, hyy]; exact c1) (by rw [hyy]; exact c2)
        rw [hcount]
        simp only [hs, Bool.true_and]
        obtain ⟨t1, t2⟩ := this
        exact ⟨by omega, t2⟩

theorem rebuildProcedures_counters (tools : Tools) (src : Obj BlockEntry)
    (l : List ProcedureInfo) :
    ∀ (st st' : RebuildState) (k : Nat), rebuildProcedures tools src st l = .ok st' →
      st.xIndex * 6 + st.yIndex = k → st.yIndex ≤ 6 →
      st'.xIndex * 6 + st'.yIndex = k + placedProcedures src l ∧ st'.yIndex ≤ 6 := by
  induction l with
  | nil =>
    intro st st' k hok hk hy
    simp only [rebuildProcedures] at hok
    injection hok with hok
    subst hok
    exact ⟨by simpa [placedProcedures] using hk, hy⟩
  | cons info rest ih =>
    intro st st' k hok hk hy
    simp only [rebuildProcedures] at hok
    cases hstep : rebuildProcedure tools src st info with
    | error e =>
      rw [hstep] at hok
      cases hok
    | ok s1 =>
      rw [hstep] at hok
      simp only at hok
      have hcount : placedProcedures src (info :: rest) =
          (if hasX src info.topBlockId = true then 1 else 0) + placedProcedures src rest := by
        unfold placedProcedures
        rw [List.filter_cons]
        split
        · rw [List.length_cons]
          omega
        · omega
      obtain ⟨b, cb, proto, hsrc, _, _, hx, hyy, _⟩ :=
        rebuildProcedure_ok_cases tools src st s1 info hstep
      obtain ⟨c1, c2⟩ := place_counters src info.topBlockId b st.xIndex st.yIndex k hsrc hk hy
      have := ih s1 st' (k + (if hasX src info.topBlockId = true then 1 else 0)) hok
        (by rw [hx, hyy]; exact c1) (by rw [hyy]; exact c2)
      rw [hcount]
      obtain ⟨t1, t2⟩ := this
      exact ⟨by omega, t2⟩

theorem cloneParameters_other (src : Obj BlockEntry) (k : String) (l : List Input) :
    ∀ (m : Obj BlockEntry), (∀ i, i ∈ l → i.value.truthy = true → i.value.key ≠ k) →
      objGet (cloneParameters src m l) k = objGet m k := by
  induction l with
  | nil =>
    intro m _
    rfl
  | cons i rest ih =>
    intro m h
    have hrest : ∀ j, j ∈ rest → j.value.truthy = true → j.value.key ≠ k :=
      fun j hj => h j (List.mem_cons_of_mem _ hj)
    simp only [cloneParameters]
    by_cases ht : i.value.truthy = true
    · rw [if_pos ht]
      have hne := h i (List.mem_cons_self _ _) ht
      cases hsrc : objGet src i.value.key with
      | none =>
        simp only
        rw [ih _ hrest, objGet_objErase_ne _ _ _ hne]
      | some e =>
        simp only
        rw [ih _ hrest, objGet_objSet_ne _ _ _ _ hne]
    · rw [if_neg ht]
      exact ih m hrest

theorem rebuildHat_stores (tools : Tools) (src : Obj BlockEntry) (st : RebuildState)
    (hatId : String) (r : CompiledScript) (b : Block) (hr : r.success = true)
    (hsrc : objGet src hatId = some (.block b)) :
    ∃ st', rebuildHat tools src st hatId r = .ok st' ∧
      ((truthy b.next = true → jsKey b.next ≠ hatId) →
        objGet st'.blocks hatId = some (.block (place b st.xIndex st.yIndex).1)) := by
  have hn : (place b st.xIndex st.yIndex).1.next = b.next := (place_fst b _ _).2.1
  unfold rebuildHat
  rw [if_pos hr, hsrc]
  simp only [hn]
  by_cases ht : truthy b.next = true
  · rw [if_pos ht]
    refine ⟨_, rfl, fun h => ?_⟩
    simp only
    rw [objGet_objSet_ne _ _ _ _ (h ht), objGet_objSet_self]
  · rw [if_neg ht]
    refine ⟨_, rfl, fun _ => ?_⟩
    exact objGet_objSet_self _ _ _

theorem rebuildProcedure_stores (tools : Tools) (src : Obj BlockEntry) (st st' : RebuildState)
    (info : ProcedureInfo) (b : Block) (hsrc : objGet src info.topBlockId = some (.block b))
    (hok : rebuildProcedure tools src st info = .ok st')
    (hkeep : ∀ cb proto, objGet b.inputs "custom_block" = some cb →
      objGet src cb.value.key = some (.block proto) →
      cb.value.key ≠ info.topBlockId ∧
        ∀ i, i ∈ objValues proto.inputs → i.value.truthy = true →
          i.value.key ≠ info.topBlockId)
    (hnext : truthy b.next = true → jsKey b.next ≠ info.topBlockId) :
    objGet st'.blocks info.topBlockId = some (.block (place b st.xIndex st.yIndex).1) := by
  obtain ⟨b', cb, proto, hb', hcb, hproto, _, _, hblocks⟩ :=
    rebuildProcedure_ok_cases tools src st st' info hok
  rw [hsrc] at hb'
  injection hb' with hb'
  injection hb' with hb'
  subst hb'
  obtain ⟨k1, k2⟩ := hkeep cb proto hcb hproto
  rw [hblocks]
  by_cases ht : truthy b.next = true
  · rw [if_pos ht, objGet_objSet_ne _ _ _ _ (hnext ht), cloneParameters_other src _ _ _ k2,
      objGet_objSet_ne _ _ _ _ k1, objGet_objSet_self]
  · rw [if_neg ht, cloneParameters_other src _ _ _ k2,
      objGet_objSet_ne _ _ _ _ k1, objGet_objSet_self]

/-- C14: within one target the per-target loop starts with both counters at
zero. When the loop over the compiled scripts has processed the scripts `pre`
and reaches a successfully compiled hat having an `x` coordinate, the
positioning statement assigns it `x = 250 * (k / 6)` and `y = 150 * (k % 6)`,
`k` being the number of positioned hats among `pre`. When the loop over the
compiled procedures, started in the state the first loop ended in, has processed
`pre` and reaches a definition having an `x` coordinate, it is assigned the same
formula with `k` the number of positioned hats of all scripts plus the number of
positioned definitions among `pre`. The position depends on `k` only. In both
loops the positioned block is the entry the loop body stores under the id of
the hat or definition, unless a later write of the same iteration (marker,
prototype, parameter) uses that very id. -/
theorem positions_by_order (tools : Tools) (src : Obj BlockEntry)
    (scripts : List (String × CompiledScript)) (procedures : List ProcedureInfo) :
    (∀ (pre post : List (String × CompiledScript)) (hatId : String) (r : CompiledScript)
        (st : RebuildState) (b : Block),
      scripts = pre ++ (hatId, r) :: post →
      rebuildHats tools src initialState pre = .ok st →
      r.success = true → objGet src hatId = some (.block b) → b.x.isSome = true →
      (place b st.xIndex st.yIndex).1.x = some ((250 * (placedHats src pre / 6) : Nat) : Int) ∧
      (place b st.xIndex st.yIndex).1.y =
        some ((150 * (placedHats src pre % 6) : Nat) : Int) ∧
      ∃ st', rebuildHat tools src st hatId r = .ok st' ∧
        ((truthy b.next = true → jsKey b.next ≠ hatId) →
          objGet st'.blocks hatId = some (.block (place b st.xIndex st.yIndex).1))) ∧
    (∀ (st1 : RebuildState) (pre post : List ProcedureInfo) (info : ProcedureInfo)
        (st : RebuildState) (b : Block),
      rebuildHats tools src initialState scripts = .ok st1 →
      procedures = pre ++ info :: post →
      rebuildProcedures tools src st1 pre = .ok st →
      objGet src info.topBlockId = some (.block b) → b.x.isSome = true →
      (place b st.xIndex st.yIndex).1.x =
        some ((250 * ((placedHats src scripts + placedProcedures src pre) / 6) : Nat) : Int) ∧
      (place b st.xIndex st.yIndex).1.y =
        some ((150 * ((placedHats src scripts + placedProcedures src pre) % 6) : Nat) : Int) ∧
      ∀ st', rebuildProcedure tools src st info = .ok st' →
        (∀ cb proto, objGet b.inputs "custom_block" = some cb →
          objGet src cb.value.key = some (.block proto) →
          cb.value.key ≠ info.topBlockId ∧
            ∀ i, i ∈ objValues proto.inputs → i.value.truthy = true →
              i.value.key ≠ info.topBlockId) →
        (truthy b.next = true → jsKey b.next ≠ info.topBlockId) →
        objGet st'.blocks info.topBlockId =
          some (.block (place b st.xIndex st.yIndex).1)) := by
  constructor
  · intro pre post hatId r st b _ hrun hr hsrc hx
    obtain ⟨c1, c2⟩ := rebuildHats_counters tools src pre initialState st 0 hrun rfl
      (by decide)
    obtain ⟨p1, p2, _, _⟩ := place_position b st.xIndex st.yIndex _ c1 c2 hx
    rw [Nat.zero_add] at p1 p2
    exact ⟨p1, p2, rebuildHat_stores tools src st hatId r b hr hsrc⟩
  · intro st1 pre post info st b hrun1 _ hrun hsrc hx
    obtain ⟨c1, c2⟩ := rebuildHats_counters tools src scripts initialState st1 0 hrun1 rfl
      (by decide)
    obtain ⟨d1, d2⟩ := rebuildProcedures_counters tools src pre st1 st _ hrun c1 c2
    obtain ⟨p1, p2, _, _⟩ := place_position b st.xIndex st.yIndex _ d1 d2 hx
    rw [Nat.zero_add] at p1 p2
    exact ⟨p1, p2, fun st' hok hkeep hnext =>
      rebuildProcedure_stores tools src st st' info b hsrc hok hkeep hnext⟩

/-- C14, instance: in `sevenHats` the seventh compiled hat (six hats positioned
before it) is assigned `(250, 0)`, and the definition `d`, reached after seven
positioned hats, is assigned `(250, 150)`. -/
theorem positions_by_order_witness :
    (∃ st, rebuildHats demoTools sevenHats initialState sixScripts = .ok st ∧
      placedHats sevenHats sixScripts = 6 ∧
      (place bareHat st.xIndex st.yIndex).1.x =
        some ((250 * (placedHats sevenHats sixScripts / 6) : Nat) : Int) ∧
      (place bareHat st.xIndex st.yIndex).1.x = some 250 ∧
      (place bareHat st.xIndex st.yIndex).1.y = some 0) ∧
    (∃ st1, rebuildHats demoTools sevenHats initialState sevenScripts = .ok st1 ∧
      (place bareDefinition st1.xIndex st1.yIndex).1.y =
        some ((150 * ((placedHats sevenHats sevenScripts +
          placedProcedures sevenHats []) % 6) : Nat) : Int) ∧
      (place bareDefinition st1.xIndex st1.yIndex).1.x = some 250 ∧
      (place bareDefinition st1.xIndex st1.yIndex).1.y = some 150) := by
  refine ⟨⟨_, rfl, rfl, ?_, rfl, rfl⟩, ⟨_, rfl, ?_, rfl, rfl⟩⟩
  · exact ((positions_by_order demoTools sevenHats sevenScripts [bareProcedure]).1
      sixScripts [] "h6" ⟨true, ""⟩ _ bareHat rfl rfl rfl rfl rfl).1
  · exact ((positions_by_order demoTools sevenHats sevenScripts [bareProcedure]).2
      _ [] [] bareProcedure _ bareDefinition rfl rfl rfl rfl rfl).2.1

end Layout

section Writes

theorem reach_invariant (tools : Tools) (src : Obj BlockEntry) (c : TargetCache)
    (Q : Obj BlockEntry → Prop)
    (hQ : ∀ m m', Write tools src c m m' → Q m → Q m')
    (m m' : Obj BlockEntry) (h : Reach tools src c m m') (h0 : Q m) : Q m' := by
  unfold Reach at h
  induction h with
  | refl => exact h0
  | tail _ hw ih => exact hQ _ _ hw ih

theorem reach_trans (tools : Tools) (src : Obj BlockEntry) (c : TargetCache)
    (m1 m2 m3 : Obj BlockEntry) (h1 : Reach tools src c m1 m2) (h2 : Reach tools src c m2 m3) :
    Reach tools src c m1 m3 :=
  Relation.ReflTransGen.trans h1 h2

theorem reach_step (tools : Tools) (src : Obj BlockEntry) (c : TargetCache)
    (m1 m2 m3 : Obj BlockEntry) (h1 : Write tools src c m1 m2) (h2 : Reach tools src c m2 m3) :
    Reach tools src c m1 m3 :=
  Relation.ReflTransGen.head h1 h2

theorem reach_refl (tools : Tools) (src : Obj BlockEntry) (c : TargetCache)
    (m : Obj BlockEntry) : Reach tools src c m m :=
  Relation.ReflTransGen.refl

theorem written_mono (tools : Tools) (src : Obj BlockEntry) (c : TargetCache)
    (k : String) (e : BlockEntry) (m m' : Obj BlockEntry)
    (h : Written tools src c k e m) (hr : Reach tools src c m m') :
    Written tools src c k e m' := by
  obtain ⟨m0, h0⟩ := h
  exact ⟨m0, reach_trans tools src c _ _ _ h0 hr⟩

theorem written_invariant (tools : Tools) (src : Obj BlockEntry) (c : TargetCache)
    (Q : Obj BlockEntry → Prop)
    (hQ : ∀ m m', Write tools src c m m' → Q m → Q m')
    (k : String) (e : BlockEntry) (final : Obj BlockEntry)
    (hest : ∀ m, Q (objSet m k e)) (h : Written tools src c k e final) : Q final := by
  obtain ⟨m0, h0⟩ := h
  exact reach_invariant tools src c Q hQ _ _ h0 (hest m0)

theorem cloneParameters_facts (tools : Tools) (src : Obj BlockEntry) (c : TargetCache)
    (p : String) (proto : Block) (hp : IsPrototypeOf src c p)
    (hsrc : objGet src p = some (.block proto)) (l : List Input) :
    (∀ i, i ∈ l → i ∈ objValues proto.inputs) →
    ∀ (m : Obj BlockEntry), Reach tools src c m (cloneParameters src m l) ∧
      ∀ i, i ∈ l → i.value.truthy = true → ∀ e, objGet src i.value.key = some e →
        Written tools src c i.value.key e (cloneParameters src m l) := by
  induction l with
  | nil =>
    intro _ m
    exact ⟨reach_refl tools src c m, fun i hi => by cases hi⟩
  | cons i rest ih =>
    intro hl m
    have hrest : ∀ j, j ∈ rest → j ∈ objValues proto.inputs :=
      fun j hj => hl j (List.mem_cons_of_mem _ hj)
    simp only [cloneParameters]
    by_cases ht : i.value.truthy = true
    · rw [if_pos ht]
      have hparam : IsParameterOf src c i.value.key :=
        ⟨p, proto, i, hp, hsrc, hl i (List.mem_cons_self _ _), ht, rfl⟩
      cases hs : objGet src i.value.key with
      | none =>
        simp only
        obtain ⟨r1, r2⟩ := ih hrest (objErase m i.value.key)
        refine ⟨reach_step tools src c _ _ _ (Write.erase m _ hparam hs) r1, ?_⟩
        intro j hj hjt e he
        rcases List.mem_cons.mp hj with hji | hjr
        · subst hji
          rw [hs] at he
          cases he
        · exact r2 j hjr hjt e he
      | some e0 =>
        simp only
        obtain ⟨r1, r2⟩ := ih hrest (objSet m i.value.key e0)
        refine ⟨reach_step tools src c _ _ _
          (Write.clone m _ e0 (Or.inr (Or.inr hparam)) hs) r1, ?_⟩
        intro j hj hjt e he
        rcases List.mem_cons.mp hj with hji | hjr
        · subst hji
          rw [hs] at he
          injection he with he
          subst he
          exact ⟨m, r1⟩
        · exact r2 j hjr hjt e he
    · rw [if_neg ht]
      obtain ⟨r1, r2⟩ := ih hrest m
      refine ⟨r1, ?_⟩
      intro j hj hjt e he
      rcases List.mem_cons.mp hj with hji | hjr
      · subst hji
        exact absurd hjt ht
      · exact r2 j hjr hjt e he

theorem rebuildHat_facts (tools : Tools) (src : Obj BlockEntry) (c : TargetCache)
    (st st' : RebuildState) (hatId : String) (r : CompiledScript)
    (hmem : (hatId, r) ∈ c.compiledScripts)
    (hok : rebuildHat tools src st hatId r = .ok st') :
    Reach tools src c st.blocks st'.blocks ∧
    (r.success = true →
      (∃ e, IsCopyOf src hatId e ∧ Written tools src c hatId e st'.blocks) ∧
      ∀ sb, objGet src hatId = some (.block sb) → truthy sb.next = true →
        ∃ code, Written tools src c (jsKey sb.next)
          (.block (markerBlock tools hatId code)) st'.blocks) := by
  rcases rebuildHat_ok_cases tools src st st' hatId r hok with
    ⟨hs, heq⟩ | ⟨hs, a, hsrc, _, _, hb⟩ | ⟨hs, b, hsrc, _, _, hb⟩
  · subst heq
    refine ⟨reach_refl tools src c _, fun h => ?_⟩
    rw [hs] at h
    cases h
  · have htop : IsCompiledTop c hatId := Or.inl ⟨r, hmem, hs⟩
    have hw : Write tools src c st.blocks (objSet st.blocks hatId (.array a)) :=
      Write.clone _ _ _ (Or.inl htop) hsrc
    rw [hb]
    refine ⟨reach_step tools src c _ _ _ hw (reach_refl tools src c _), fun _ => ⟨?_, ?_⟩⟩
    · exact ⟨.array a, Or.inl hsrc, st.blocks, reach_refl tools src c _⟩
    · intro sb hsb
      rw [hsrc] at hsb
      cases hsb
  · have htop : IsCompiledTop c hatId := Or.inl ⟨r, hmem, hs⟩
    have hw : Write tools src c st.blocks
        (objSet st.blocks hatId (.block (place b st.xIndex st.yIndex).1)) :=
      Write.placed _ _ _ _ _ htop hsrc
    by_cases ht : truthy b.next = true
    · rw [if_pos ht] at hb
      have hw2 := @Write.marker tools src c
        (objSet st.blocks hatId (.block (place b st.xIndex st.yIndex).1)) hatId b
        r.startingFunction htop hsrc ht
      rw [hb]
      refine ⟨reach_step tools src c _ _ _ hw
        (reach_step tools src c _ _ _ hw2 (reach_refl tools src c _)), fun _ => ⟨?_, ?_⟩⟩
      · exact ⟨_, Or.inr ⟨b, _, _, hsrc, rfl⟩, st.blocks,
          reach_step tools src c _ _ _ hw2 (reach_refl tools src c _)⟩
      · intro sb hsb _
        rw [hsrc] at hsb
        injection hsb with hsb
        injection hsb with hsb
        subst hsb
        exact ⟨r.startingFunction, _, reach_refl tools src c _⟩
    · rw [if_neg ht] at hb
      rw [hb]
      refine ⟨reach_step tools src c _ _ _ hw (reach_refl tools src c _), fun _ => ⟨?_, ?_⟩⟩
      · exact ⟨_, Or.inr ⟨b, _, _, hsrc, rfl⟩, st.blocks, reach_refl tools src c _⟩
      · intro sb hsb hsbt
        rw [hsrc] at hsb
        injection hsb with hsb
        injection hsb with hsb
        subst hsb
        exact absurd hsbt ht

theorem rebuildProcedure_facts (tools : Tools) (src : Obj BlockEntry) (c : TargetCache)
    (st st' : RebuildState) (info : ProcedureInfo)
    (hmem : info ∈ c.compiledProcedures)
    (hok : rebuildProcedure tools src st info = .ok st') :
    Reach tools src c st.blocks st'.blocks ∧
    (∃ e, IsCopyOf src info.topBlockId e ∧
      Written tools src c info.topBlockId e st'.blocks) ∧
    (∀ sb, objGet src info.topBlockId = some (.block sb) → truthy sb.next = true →
      ∃ code, Written tools src c (jsKey sb.next)
        (.block (markerBlock tools info.topBlockId code)) st'.blocks) ∧
    (∃ b cb proto, objGet src info.topBlockId = some (.block b) ∧
      objGet b.inputs "custom_block" = some cb ∧
      objGet src cb.value.key = some (.block proto) ∧
      Written tools src c cb.value.key (.block proto) st'.blocks ∧
      ∀ i, i ∈ objValues proto.inputs → i.value.truthy = true →
        ∀ e, objGet src i.value.key = some e →
          Written tools src c i.value.key e st'.blocks) := by
  obtain ⟨b, cb, proto, hsrc, hcb, hproto, _, _, hb⟩ :=
    rebuildProcedure_ok_cases tools src st st' info hok
  have htop : IsCompiledTop c info.topBlockId := Or.inr ⟨info, hmem, rfl⟩
  have hisproto : IsPrototypeOf src c cb.value.key := ⟨info, b, cb, hmem, hsrc, hcb, rfl⟩
  have hw1 : Write tools src c st.blocks
      (objSet st.blocks info.topBlockId (.block (place b st.xIndex st.yIndex).1)) :=
    Write.placed _ _ _ _ _ htop hsrc
  have hw2 := @Write.clone tools src c
    (objSet st.blocks info.topBlockId (.block (place b st.xIndex st.yIndex).1))
    cb.value.key (.block proto) (Or.inr (Or.inl hisproto)) hproto
  obtain ⟨r3, f3⟩ := cloneParameters_facts tools src c cb.value.key proto hisproto hproto
    (objValues proto.inputs) (fun i hi => hi)
    (objSet (objSet st.blocks info.topBlockId (.block (place b st.xIndex st.yIndex).1))
      cb.value.key (.block proto))
  by_cases ht : truthy b.next = true
  · rw [if_pos ht] at hb
    have hw4 := @Write.marker tools src c
      (cloneParameters src
        (objSet (objSet st.blocks info.topBlockId (.block (place b st.xIndex st.yIndex).1))
          cb.value.key (.block proto)) (objValues proto.inputs))
      info.topBlockId b info.cachedCompileResult htop hsrc ht
    have r4 := reach_step tools src c _ _ _ hw4 (reach_refl tools src c _)
    have r34 := reach_trans tools src c _ _ _ r3 r4
    rw [hb]
    refine ⟨reach_step tools src c _ _ _ hw1 (reach_step tools src c _ _ _ hw2 r34),
      ⟨_, Or.inr ⟨b, _, _, hsrc, rfl⟩, st.blocks, reach_step tools src c _ _ _ hw2 r34⟩,
      ?_, b, cb, proto, hsrc, hcb, hproto, ⟨_, r34⟩, ?_⟩
    · intro sb hsb _
      rw [hsrc] at hsb
      injection hsb with hsb
      injection hsb with hsb
      subst hsb
      exact ⟨info.cachedCompileResult, _, reach_refl tools src c _⟩
    · intro i hi hit e he
      exact written_mono tools src c _ _ _ _ (f3 i hi hit e he) r4
  · rw [if_neg ht] at hb
    rw [hb]
    refine ⟨reach_step tools src c _ _ _ hw1 (reach_step tools src c _ _ _ hw2 r3),
      ⟨_, Or.inr ⟨b, _, _, hsrc, rfl⟩, st.blocks, reach_step tools src c _ _ _ hw2 r3⟩,
      ?_, b, cb, proto, hsrc, hcb, hproto, ⟨_, r3⟩, f3⟩
    intro sb hsb hsbt
    rw [hsrc] at hsb
    injection hsb with hsb
    injection hsb with hsb
    subst hsb
    exact absurd hsbt ht

theorem topFacts_mono (tools : Tools) (src : Obj BlockEntry) (c : TargetCache)
    (D : String) (m m' : Obj BlockEntry) (h : TopFacts tools src c D m)
    (hr : Reach tools src c m m') : TopFacts tools src c D m' := by
  obtain ⟨⟨e, he, hw⟩, hm⟩ := h
  refine ⟨⟨e, he, written_mono tools src c _ _ _ _ hw hr⟩, fun sb hsb ht => ?_⟩
  obtain ⟨code, hcode⟩ := hm sb hsb ht
  exact ⟨code, written_mono tools src c _ _ _ _ hcode hr⟩

theorem signatureFacts_mono (tools : Tools) (src : Obj BlockEntry) (c : TargetCache)
    (D : String) (m m' : Obj BlockEntry) (h : SignatureFacts tools src c D m)
    (hr : Reach tools src c m m') : SignatureFacts tools src c D m' := by
  obtain ⟨b, cb, proto, h1, h2, h3, h4, h5⟩ := h
  exact ⟨b, cb, proto, h1, h2, h3, written_mono tools src c _ _ _ _ h4 hr,
    fun i hi hit e he => written_mono tools src c _ _ _ _ (h5 i hi hit e he) hr⟩

theorem rebuildHats_facts (tools : Tools) (src : Obj BlockEntry) (c : TargetCache)
    (l : List (String × CompiledScript)) :
    (∀ x, x ∈ l → x ∈ c.compiledScripts) →
    ∀ (st st' : RebuildState), rebuildHats tools src st l = .ok st' →
      Reach tools src c st.blocks st'.blocks ∧
      ∀ x, x ∈ l → x.2.success = true → TopFacts tools src c x.1 st'.blocks := by
  induction l with
  | nil =>
    intro _ st st' hok
    simp only [rebuildHats] at hok
    injection hok with hok
    subst hok
    exact ⟨reach_refl tools src c _, fun x hx => by cases hx⟩
  | cons x rest ih =>
    intro hl st st' hok
    obtain ⟨hatId, r⟩ := x
    simp only [rebuildHats] at hok
    cases hstep : rebuildHat tools src st hatId r with
    | error e =>
      rw [hstep] at hok
      cases hok
    | ok s1 =>
      rw [hstep] at hok
      simp only at hok
      obtain ⟨r1, f1⟩ := rebuildHat_facts tools src c st s1 hatId r
        (hl _ (List.mem_cons_self _ _)) hstep
      obtain ⟨r2, f2⟩ := ih (fun y hy => hl y (List.mem_cons_of_mem _ hy)) s1 st' hok
      refine ⟨reach_trans tools src c _ _ _ r1 r2, fun y hy hys => ?_⟩
      rcases List.mem_cons.mp hy with hyx | hyr
      · subst hyx
        exact topFacts_mono tools src c _ _ _ (f1 hys) r2
      · exact f2 y hyr hys

theorem rebuildProcedures_facts (tools : Tools) (src : Obj BlockEntry) (c : TargetCache)
    (l : List ProcedureInfo) :
    (∀ x, x ∈ l → x ∈ c.compiledProcedures) →
    ∀ (st st' : RebuildState), rebuildProcedures tools src st l = .ok st' →
      Reach tools src c st.blocks st'.blocks ∧
      ∀ x, x ∈ l → TopFacts tools src c x.topBlockId st'.blocks ∧
        SignatureFacts tools src c x.topBlockId st'.blocks := by
  induction l with
  | nil =>
    intro _ st st' hok
    simp only [rebuildProcedures] at hok
    injection hok with hok
    subst hok
    exact ⟨reach_refl tools src c _, fun x hx => by cases hx⟩
  | cons x rest ih =>
    intro hl st st' hok
    simp only [rebuildProcedures] at hok
    cases hstep : rebuildProcedure tools src st x with
    | error e =>
      rw [hstep] at hok
      cases hok
    | ok s1 =>
      rw [hstep] at hok
      simp only at hok
      obtain ⟨r1, fa, fb, fc⟩ := rebuildProcedure_facts tools src c st s1 x
        (hl _ (List.mem_cons_self _ _)) hstep
      obtain ⟨r2, f2⟩ := ih (fun y hy => hl y (List.mem_cons_of_mem _ hy)) s1 st' hok
      refine ⟨reach_trans tools src c _ _ _ r1 r2, fun y hy => ?_⟩
      rcases List.mem_cons.mp hy with hyx | hyr
      · subst hyx
        exact ⟨topFacts_mono tools src c _ _ _ ⟨fa, fb⟩ r2,
          signatureFacts_mono tools src c _ _ _ fc r2⟩
      · exact f2 y hyr

theorem rebuildTarget_facts (tools : Tools) (t t0 : Target) (c : TargetCache)
    (hok : rebuildTarget tools t c = .ok t0) :
    TargetFacts tools t.blocks c t0.blocks := by
  unfold rebuildTarget at hok
  simp only at hok
  cases hh : rebuildHats tools t.blocks
      { blocks := [], xIndex := 0, yIndex := 0, hasBlock := false } c.compiledScripts with
  | error e =>
    rw [hh] at hok
    cases hok
  | ok st1 =>
    rw [hh] at hok
    simp only at hok
    cases hp : rebuildProcedures tools t.blocks st1 c.compiledProcedures with
    | error e =>
      rw [hp] at hok
      cases hok
    | ok st2 =>
      rw [hp] at hok
      simp only at hok
      injection hok with hok
      subst hok
      obtain ⟨r1, f1⟩ := rebuildHats_facts tools t.blocks c c.compiledScripts
        (fun x hx => hx) _ st1 hh
      obtain ⟨r2, f2⟩ := rebuildProcedures_facts tools t.blocks c c.compiledProcedures
        (fun x hx => hx) st1 st2 hp
      have htopf : ∀ D, IsCompiledTop c D → TopFacts tools t.blocks c D st2.blocks := by
        intro D hD
        rcases hD with ⟨r, hr, hs⟩ | ⟨info, hinfo, hD⟩
        · exact topFacts_mono tools t.blocks c _ _ _ (f1 (D, r) hr hs) r2
        · subst hD
          exact (f2 info hinfo).1
      have hsig : ∀ k, IsPrototypeOf t.blocks c k →
          ∃ proto, objGet t.blocks k = some (.block proto) ∧
            Written tools t.blocks c k (.block proto) st2.blocks ∧
            ∀ i, i ∈ objValues proto.inputs → i.value.truthy = true →
              ∀ e, objGet t.blocks i.value.key = some e →
                Written tools t.blocks c i.value.key e st2.blocks := by
        rintro k ⟨info, b, cb, hinfo, hb, hcb, hk⟩
        obtain ⟨b', cb', proto, hb', hcb', hproto, hw, hparams⟩ := (f2 info hinfo).2
        rw [hb] at hb'
        injection hb' with hb'
        injection hb' with hb'
        subst hb'
        rw [hcb] at hcb'
        injection hcb' with hcb'
        subst hcb'
        subst hk
        exact ⟨proto, hproto, hw, hparams⟩
      refine ⟨reach_trans tools t.blocks c _ _ _ r1 r2, fun D hD => (htopf D hD).1,
        fun D sb hD hsb ht => (htopf D hD).2 sb hsb ht, ?_, ?_⟩
      · intro k hk
        obtain ⟨proto, h1, h2, _⟩ := hsig k hk
        exact ⟨proto, h1, h2⟩
      · rintro k e ⟨p, proto, i, hp', hsrc, hi, hit, hkey⟩ he
        obtain ⟨proto', h1, _, h3⟩ := hsig p hp'
        rw [hsrc] at h1
        injection h1 with h1
        injection h1 with h1
        subst h1
        subst hkey
        exact h3 i hi hit e he

theorem rebuilt_facts (tools : Tools) (source : Project) (caches : List TargetCache)
    (rebuilt : Project) (hok : rebuild tools source caches = .ok rebuilt)
    (i : Nat) (t t1 : Target) (c : TargetCache)
    (ht : source.targets[i]? = some t)
    (hi : rebuilt.targets[i]? = some t1) (hc : caches[i]? = some c) :
    ∃ m, TargetFacts tools t.blocks c m ∧
      t1.blocks = addPlaceholders tools m 0 (if i = 0 then placeholderOpcodes source else []) := by
  obtain ⟨t', t0, ht', hr, hshape⟩ :=
    rebuild_target_shape tools source caches rebuilt hok i t1 c hi hc
  rw [ht] at ht'
  injection ht' with ht'
  subst ht'
  refine ⟨t0.blocks, rebuildTarget_facts tools t t0 c hr, ?_⟩
  rw [hshape]

theorem objHas_objSet {α : Type} (m : Obj α) (k k' : String) (v : α) :
    objHas (objSet m k v) k' = true ↔ (k' = k ∨ objHas m k' = true) := by
  unfold objHas
  by_cases hk : k = k'
  · subst hk
    simp [objGet_objSet_self]
  · rw [objGet_objSet_ne _ _ _ _ hk]
    constructor
    · intro h
      exact Or.inr h
    · rintro (h | h)
      · exact absurd h.symm hk
      · exact h

theorem objHas_objErase {α : Type} (m : Obj α) (k k' : String)
    (h : objHas (objErase m k) k' = true) : objHas m k' = true := by
  unfold objHas at *
  by_cases hk : k = k'
  · subst hk
    rw [objGet_objErase_self] at h
    cases h
  · rw [objGet_objErase_ne _ _ _ hk] at h
    exact h

theorem objGet_addPlaceholders_fresh (tools : Tools) (m : Obj BlockEntry) (n : Nat)
    (ops : List String) (k : String) (h : ops = [] ∨ ∀ j, tools.uid j ≠ k) :
    objGet (addPlaceholders tools m n ops) k = objGet m k := by
  rcases h with h | h
  · subst h
    rfl
  · exact objGet_addPlaceholders_later tools k ops n m (fun j _ => h j)

theorem objGet_addPlaceholders_cases (tools : Tools) (k : String) (e : BlockEntry)
    (ops : List String) :
    ∀ (n : Nat) (m : Obj BlockEntry), objGet (addPlaceholders tools m n ops) k = some e →
      objGet m k = some e ∨ ∃ op, e = .block (placeholderBlock op) := by
  induction ops with
  | nil =>
    intro n m h
    exact Or.inl h
  | cons op rest ih =>
    intro n m h
    simp only [addPlaceholders] at h
    rcases ih (n + 1) _ h with h1 | h1
    · by_cases hk : tools.uid n = k
      · subst hk
        rw [objGet_objSet_self] at h1
        injection h1 with h1
        exact Or.inr ⟨op, h1.symm⟩
      · rw [objGet_objSet_ne _ _ _ _ hk] at h1
        exact Or.inl h1
    · exact Or.inr h1

theorem objHas_addPlaceholders (tools : Tools) (k : String) (ops : List String) :
    ∀ (n : Nat) (m : Obj BlockEntry),
      objHas (addPlaceholders tools m n ops) k = true ↔
        (objHas m k = true ∨ ∃ j, j < ops.length ∧ k = tools.uid (n + j)) := by
  induction ops with
  | nil =>
    intro n m
    simp [addPlaceholders]
  | cons op rest ih =>
    intro n m
    simp only [addPlaceholders]
    rw [ih (n + 1) _, objHas_objSet]
    constructor
    · rintro ((h | h) | ⟨j, hj, hk⟩)
      · exact Or.inr ⟨0, by simp, by simpa using h⟩
      · exact Or.inl h
      · exact Or.inr ⟨j + 1, by simpa using hj, by rw [hk]; congr 1; omega⟩
    · rintro (h | ⟨j, hj, hk⟩)
      · exact Or.inl (Or.inr h)
      · cases j with
        | zero => exact Or.inl (Or.inl (by simpa using hk))
        | succ j =>
          refine Or.inr ⟨j, by simpa using hj, ?_⟩
          rw [hk]
          congr 1
          omega

theorem place_same (b : Block) (xi yi : Nat) : SameButPosition b (place b xi yi).1 := by
  unfold place SameButPosition
  split <;> simp

theorem top_copy_kept (tools : Tools) (src : Obj BlockEntry) (c : TargetCache)
    (final : Obj BlockEntry) (D : String) (sb : Block)
    (hfacts : TargetFacts tools src c final) (htop : IsCompiledTop c D)
    (hsrc : objGet src D = some (.block sb)) (hns : ¬ IsSuccessor src c D) :
    ∃ hb, objGet final D = some (.block hb) ∧ SameButPosition sb hb := by
  obtain ⟨e, hcopy, hw⟩ := hfacts.2.1 D htop
  refine written_invariant tools src c
    (fun m => ∃ hb, objGet m D = some (.block hb) ∧ SameButPosition sb hb) ?_ D e final ?_ hw
  · intro m m' hwrite hq
    cases hwrite with
    | clone k e' _ hk =>
      by_cases hkD : k = D
      · subst hkD
        rw [hsrc] at hk
        injection hk with hk
        subst hk
        exact ⟨sb, objGet_objSet_self _ _ _, ⟨rfl, rfl, rfl, rfl, rfl, rfl, rfl, rfl⟩⟩
      · rw [objGet_objSet_ne _ _ _ _ hkD]
        exact hq
    | placed k sb' xi yi _ hk =>
      by_cases hkD : k = D
      · subst hkD
        rw [hsrc] at hk
        injection hk with hk
        injection hk with hk
        subst hk
        exact ⟨_, objGet_objSet_self _ _ _, place_same sb xi yi⟩
      · rw [objGet_objSet_ne _ _ _ _ hkD]
        exact hq
    | marker D' sb' code htop' hsrc' ht' =>
      by_cases hkD : jsKey sb'.next = D
      · exact absurd ⟨D', sb', htop', hsrc', ht', hkD⟩ hns
      · rw [objGet_objSet_ne _ _ _ _ hkD]
        exact hq
    | erase k _ hk =>
      by_cases hkD : k = D
      · subst hkD
        rw [hsrc] at hk
        cases hk
      · rw [objGet_objErase_ne _ _ _ hkD]
        exact hq
  · intro m
    rcases hcopy with h | ⟨sb', xi, yi, h, he⟩
    · rw [hsrc] at h
      injection h with h
      subst h
      exact ⟨sb, objGet_objSet_self _ _ _, ⟨rfl, rfl, rfl, rfl, rfl, rfl, rfl, rfl⟩⟩
    · rw [hsrc] at h
      injection h with h
      injection h with h
      subst h
      subst he
      exact ⟨_, objGet_objSet_self _ _ _, place_same sb xi yi⟩

theorem written_present (tools : Tools) (src : Obj BlockEntry) (c : TargetCache)
    (final : Obj BlockEntry) (k : String) (e : BlockEntry)
    (hparams : ∀ k', IsParameterOf src c k' → ∃ e', objGet src k' = some e')
    (hw : Written tools src c k e final) : objHas final k = true := by
  refine written_invariant tools src c (fun m => objHas m k = true) ?_ k e final ?_ hw
  · intro m m' hwrite hq
    cases hwrite with
    | clone k' e' _ _ => exact (objHas_objSet _ _ _ _).mpr (Or.inr hq)
    | placed k' sb' xi yi _ _ => exact (objHas_objSet _ _ _ _).mpr (Or.inr hq)
    | marker D' sb' code _ _ _ => exact (objHas_objSet _ _ _ _).mpr (Or.inr hq)
    | erase k' hp hk =>
      obtain ⟨e', he'⟩ := hparams k' hp
      rw [hk] at he'
      cases he'
  · intro m
    exact (objHas_objSet _ _ _ _).mpr (Or.inl rfl)

theorem keys_described (tools : Tools) (src : Obj BlockEntry) (c : TargetCache)
    (final : Obj BlockEntry) (hr : Reach tools src c [] final) (k : String)
    (hk : objHas final k = true) : IsCopied src c k ∨ IsSuccessor src c k := by
  refine reach_invariant tools src c
    (fun m => ∀ k, objHas m k = true → IsCopied src c k ∨ IsSuccessor src c k)
    ?_ [] final hr ?_ k hk
  · intro m m' hwrite hq k1 hk1
    cases hwrite with
    | clone k' e' hcop _ =>
      rcases (objHas_objSet _ _ _ _).mp hk1 with h | h
      · subst h
        exact Or.inl hcop
      · exact hq k1 h
    | placed k' sb' xi yi htop _ =>
      rcases (objHas_objSet _ _ _ _).mp hk1 with h | h
      · subst h
        exact Or.inl (Or.inl htop)
      · exact hq k1 h
    | marker D' sb' code htop hsrc ht =>
      rcases (objHas_objSet _ _ _ _).mp hk1 with h | h
      · subst h
        exact Or.inr ⟨D', sb', htop, hsrc, ht, rfl⟩
      · exact hq k1 h
    | erase k' _ _ => exact hq k1 (objHas_objErase _ _ _ hk1)
  · intro k1 hk1
    simp [objHas, objGet] at hk1

/-- C12: for a target rebuilt from a runtime target, all of whose referenced
parameter blocks exist in the original target, an id is a key of the rebuilt
`blocks` mapping exactly when it is the id of a successfully compiled hat, of a
rebuilt procedure definition, of the prototype of one, of a parameter block of
such a prototype, or the `next` of such a hat or definition that has a body
(the marker id), or, for the first target only, one of the ids returned by
`uid()` for the placeholders. Hence any other id of the original target — a
body block of a compiled script that is not the first one — has no entry. -/
theorem rebuilt_key_set (tools : Tools) (source : Project) (caches : List TargetCache)
    (rebuilt : Project) (hok : rebuild tools source caches = .ok rebuilt)
    (i : Nat) (t t1 : Target) (c : TargetCache)
    (ht : source.targets[i]? = some t)
    (hi : rebuilt.targets[i]? = some t1) (hc : caches[i]? = some c)
    (hparams : ∀ k, IsParameterOf t.blocks c k → ∃ e, objGet t.blocks k = some e) :
    (∀ k, objHas t1.blocks k = true ↔
      (IsCompiledTop c k ∨ IsPrototypeOf t.blocks c k ∨ IsParameterOf t.blocks c k ∨
        IsSuccessor t.blocks c k ∨
        (i = 0 ∧ ∃ j, j < (placeholderOpcodes source).length ∧ k = tools.uid j))) ∧
    (∀ k, ¬ IsCompiledTop c k → ¬ IsPrototypeOf t.blocks c k →
      ¬ IsParameterOf t.blocks c k → ¬ IsSuccessor t.blocks c k →
      (∀ j, tools.uid j ≠ k) → objGet t1.blocks k = none) := by
  obtain ⟨m, hfacts, hblocks⟩ := rebuilt_facts tools source caches rebuilt hok i t t1 c ht hi hc
  have hiff : ∀ k, objHas t1.blocks k = true ↔
      (IsCompiledTop c k ∨ IsPrototypeOf t.blocks c k ∨ IsParameterOf t.blocks c k ∨
        IsSuccessor t.blocks c k ∨
        (i = 0 ∧ ∃ j, j < (placeholderOpcodes source).length ∧ k = tools.uid j)) := by
    intro k
    rw [hblocks, objHas_addPlaceholders]
    constructor
    · rintro (h | ⟨j, hj, hk⟩)
      · rcases keys_described tools t.blocks c m hfacts.1 k h with (h1 | h1 | h1) | h1
        · exact Or.inl h1
        · exact Or.inr (Or.inl h1)
        · exact Or.inr (Or.inr (Or.inl h1))
        · exact Or.inr (Or.inr (Or.inr (Or.inl h1)))
      · by_cases hi0 : i = 0
        · rw [if_pos hi0] at hj
          exact Or.inr (Or.inr (Or.inr (Or.inr ⟨hi0, j, hj, by simpa using hk⟩)))
        · rw [if_neg hi0] at hj
          simp at hj
    · rintro (h | h | h | h | ⟨hi0, j, hj, hk⟩)
      · obtain ⟨e, _, hw⟩ := hfacts.2.1 k h
        exact Or.inl (written_present tools t.blocks c m k e hparams hw)
      · obtain ⟨proto, _, hw⟩ := hfacts.2.2.2.1 k h
        exact Or.inl (written_present tools t.blocks c m k _ hparams hw)
      · obtain ⟨e, he⟩ := hparams k h
        exact Or.inl (written_present tools t.blocks c m k e hparams
          (hfacts.2.2.2.2 k e h he))
      · obtain ⟨D, sb, hD, hsb, htr, hkey⟩ := h
        obtain ⟨code, hw⟩ := hfacts.2.2.1 D sb hD hsb htr
        rw [hkey] at hw
        exact Or.inl (written_present tools t.blocks c m k _ hparams hw)
      · refine Or.inr ⟨j, ?_, by simpa using hk⟩
        rw [if_pos hi0]
        exact hj
  refine ⟨hiff, fun k h1 h2 h3 h4 h5 => ?_⟩
  have hno : ¬ objHas t1.blocks k = true := by
    intro hk
    rcases (hiff k).mp hk with h | h | h | h | ⟨_, j, _, hj⟩
    · exact h1 h
    · exact h2 h
    · exact h3 h
    · exact h4 h
    · exact h5 j hj.symm
  unfold objHas at hno
  cases hg : objGet t1.blocks k with
  | none => rfl
  | some e =>
    rw [hg] at hno
    exact absurd rfl hno

/-- C15: in a target rebuilt from a runtime target, the block stored under the
id of a successfully compiled hat or rebuilt procedure definition (which is not
itself the successor of one, nor a placeholder id) agrees with the original
block in opcode, next, parent, inputs, fields, shadow, topLevel and mutation
(every field other than `x` and `y`); the entry stored under the id of a
prototype or of a parameter block of a rebuilt definition (which is neither a
compiled hat or definition, nor the successor of one, nor a placeholder id) is
the original entry, equal in every field. -/
theorem copies_equal_originals (tools : Tools) (source : Project)
    (caches : List TargetCache) (rebuilt : Project)
    (hok : rebuild tools source caches = .ok rebuilt)
    (i : Nat) (t t1 : Target) (c : TargetCache)
    (ht : source.targets[i]? = some t)
    (hi : rebuilt.targets[i]? = some t1) (hc : caches[i]? = some c) :
    (∀ D sb, IsCompiledTop c D → objGet t.blocks D = some (.block sb) →
      ¬ IsSuccessor t.blocks c D → (i = 0 → ∀ j, tools.uid j ≠ D) →
      ∃ hb, objGet t1.blocks D = some (.block hb) ∧
        hb.opcode = sb.opcode ∧ hb.next = sb.next ∧ hb.parent = sb.parent ∧
        hb.inputs = sb.inputs ∧ hb.fields = sb.fields ∧ hb.shadow = sb.shadow ∧
        hb.topLevel = sb.topLevel ∧ hb.mutation = sb.mutation) ∧
    (∀ k s, (IsPrototypeOf t.blocks c k ∨ IsParameterOf t.blocks c k) →
      objGet t.blocks k = some s → ¬ IsCompiledTop c k → ¬ IsSuccessor t.blocks c k →
      (i = 0 → ∀ j, tools.uid j ≠ k) → objGet t1.blocks k = some s) := by
  obtain ⟨m, hfacts, hblocks⟩ := rebuilt_facts tools source caches rebuilt hok i t t1 c ht hi hc
  have hfreshget : ∀ k, (i = 0 → ∀ j, tools.uid j ≠ k) → objGet t1.blocks k = objGet m k := by
    intro k hk
    rw [hblocks]
    refine objGet_addPlaceholders_fresh tools m 0 _ k ?_
    by_cases hi0 : i = 0
    · exact Or.inr (hk hi0)
    · rw [if_neg hi0]
      exact Or.inl rfl
  constructor
  · intro D sb htop hsrc hns hfresh
    rw [hfreshget D hfresh]
    exact top_copy_kept tools t.blocks c m D sb hfacts htop hsrc hns
  · intro k s hk hsrc hnt hns hfresh
    rw [hfreshget k hfresh]
    have hw : Written tools t.blocks c k s m := by
      rcases hk with hk | hk
      · obtain ⟨proto, h1, h2⟩ := hfacts.2.2.2.1 k hk
        rw [hsrc] at h1
        injection h1 with h1
        subst h1
        exact h2
      · exact hfacts.2.2.2.2 k s hk hsrc
    refine written_invariant tools t.blocks c (fun m => objGet m k = some s) ?_ k s m ?_ hw
    · intro m1 m2 hwrite hq
      cases hwrite with
      | clone k' e' _ hk' =>
        by_cases hkk : k' = k
        · subst hkk
          rw [hsrc] at hk'
          injection hk' with hk'
          subst hk'
          exact objGet_objSet_self _ _ _
        · rw [objGet_objSet_ne _ _ _ _ hkk]
          exact hq
      | placed k' sb' xi yi htop' _ =>
        by_cases hkk : k' = k
        · subst hkk
          exact absurd htop' hnt
        · rw [objGet_objSet_ne _ _ _ _ hkk]
          exact hq
      | marker D' sb' code htop' hsrc' ht' =>
        by_cases hkk : jsKey sb'.next = k
        · exact absurd ⟨D', sb', htop', hsrc', ht', hkk⟩ hns
        · rw [objGet_objSet_ne _ _ _ _ hkk]
          exact hq
      | erase k' _ hk' =>
        by_cases hkk : k' = k
        · subst hkk
          rw [hsrc] at hk'
          cases hk'
        · rw [objGet_objErase_ne _ _ _ hkk]
          exact hq
    · intro m1
      exact objGet_objSet_self _ _ _

/-- C11: let `D` be a successfully compiled hat or a rebuilt procedure
definition of a target, `sb` its original block, in a program where no copied
block (hat, definition, prototype, parameter) has opcode `kylin_compile`, `D` is
not the successor of a compiled hat or definition, `D`'s successor is not a
copied block and is shared with no other compiled hat or definition, and the
placeholder ids differ from `D` and from its successor. Then the rebuilt target
still holds a copy of `D` (same opcode and `next`); it contains a
`kylin_compile` block whose parent is `D` if and only if `sb.next` is present
(a non-empty id); and every such block is stored under the id `sb.next`, so
there is exactly one when `sb.next` is present and none when it is absent. -/
theorem marker_iff_body (tools : Tools) (source : Project) (caches : List TargetCache)
    (rebuilt : Project) (hok : rebuild tools source caches = .ok rebuilt)
    (i : Nat) (t t1 : Target) (c : TargetCache)
    (ht : source.targets[i]? = some t)
    (hi : rebuilt.targets[i]? = some t1) (hc : caches[i]? = some c)
    (D : String) (sb : Block) (htop : IsCompiledTop c D)
    (hsrc : objGet t.blocks D = some (.block sb))
    (hkylin : ∀ k mk, IsCopied t.blocks c k → objGet t.blocks k = some (.block mk) →
      mk.opcode ≠ "kylin_compile")
    (hD : ¬ IsSuccessor t.blocks c D)
    (hn : truthy sb.next = true → ¬ IsCopied t.blocks c (jsKey sb.next))
    (hshare : truthy sb.next = true → ∀ D' sb', IsCompiledTop c D' →
      objGet t.blocks D' = some (.block sb') → truthy sb'.next = true →
      jsKey sb'.next = jsKey sb.next → D' = D)
    (hfresh : i = 0 → ∀ j, tools.uid j ≠ D ∧
      (truthy sb.next = true → tools.uid j ≠ jsKey sb.next)) :
    (∃ hb, objGet t1.blocks D = some (.block hb) ∧ hb.opcode = sb.opcode ∧
      hb.next = sb.next) ∧
    ((∃ k mk, objGet t1.blocks k = some (.block mk) ∧ mk.opcode = "kylin_compile" ∧
      mk.parent = some D) ↔ truthy sb.next = true) ∧
    (∀ k mk, objGet t1.blocks k = some (.block mk) → mk.opcode = "kylin_compile" →
      mk.parent = some D → k = jsKey sb.next) := by
  obtain ⟨m, hfacts, hblocks⟩ := rebuilt_facts tools source caches rebuilt hok i t t1 c ht hi hc
  have hfreshget : ∀ k, (i = 0 → ∀ j, tools.uid j ≠ k) → objGet t1.blocks k = objGet m k := by
    intro k hk
    rw [hblocks]
    refine objGet_addPlaceholders_fresh tools m 0 _ k ?_
    by_cases hi0 : i = 0
    · exact Or.inr (hk hi0)
    · rw [if_neg hi0]
      exact Or.inl rfl
  have hunique : ∀ k mk, objGet m k = some (.block mk) → mk.opcode = "kylin_compile" →
      mk.parent = some D → truthy sb.next = true ∧ k = jsKey sb.next := by
    refine reach_invariant tools t.blocks c
      (fun m => ∀ k mk, objGet m k = some (.block mk) → mk.opcode = "kylin_compile" →
        mk.parent = some D → truthy sb.next = true ∧ k = jsKey sb.next) ?_ [] m hfacts.1 ?_
    · intro m1 m2 hwrite hq k mk hget hop hpar
      cases hwrite with
      | clone k' e' hcop hk' =>
        by_cases hkk : k' = k
        · subst hkk
          rw [objGet_objSet_self] at hget
          injection hget with hget
          subst hget
          exact absurd hop (hkylin k' mk hcop hk')
        · rw [objGet_objSet_ne _ _ _ _ hkk] at hget
          exact hq k mk hget hop hpar
      | placed k' sb' xi yi htop' hk' =>
        by_cases hkk : k' = k
        · subst hkk
          rw [objGet_objSet_self] at hget
          injection hget with hget
          injection hget with hget
          subst hget
          rw [(place_fst sb' xi yi).1] at hop
          exact absurd hop (hkylin k' sb' (Or.inl htop') hk')
        · rw [objGet_objSet_ne _ _ _ _ hkk] at hget
          exact hq k mk hget hop hpar
      | marker D' sb' code htop' hsrc' ht' =>
        by_cases hkk : jsKey sb'.next = k
        · subst hkk
          rw [objGet_objSet_self] at hget
          injection hget with hget
          injection hget with hget
          subst hget
          have hDD : D' = D := by
            have : some D' = some D := hpar
            injection this
          subst hDD
          rw [hsrc] at hsrc'
          injection hsrc' with hsrc'
          injection hsrc' with hsrc'
          subst hsrc'
          exact ⟨ht', rfl⟩
        · rw [objGet_objSet_ne _ _ _ _ hkk] at hget
          exact hq k mk hget hop hpar
      | erase k' _ _ =>
        by_cases hkk : k' = k
        · subst hkk
          rw [objGet_objErase_self] at hget
          cases hget
        · rw [objGet_objErase_ne _ _ _ hkk] at hget
          exact hq k mk hget hop hpar
    · intro k mk hget
      simp [objGet] at hget
  have hunique1 : ∀ k mk, objGet t1.blocks k = some (.block mk) →
      mk.opcode = "kylin_compile" → mk.parent = some D →
      truthy sb.next = true ∧ k = jsKey sb.next := by
    intro k mk hget hop hpar
    rw [hblocks] at hget
    rcases objGet_addPlaceholders_cases tools k _ _ 0 m hget with h | ⟨op, h⟩
    · exact hunique k mk h hop hpar
    · injection h with h
      subst h
      cases hpar
  have hmarker : truthy sb.next = true →
      ∃ code, objGet t1.blocks (jsKey sb.next) = some (.block (markerBlock tools D code)) := by
    intro htr
    rw [hfreshget (jsKey sb.next) (fun hi0 j => (hfresh hi0 j).2 htr)]
    obtain ⟨code, hw⟩ := hfacts.2.2.1 D sb htop hsrc htr
    refine written_invariant tools t.blocks c
      (fun m => ∃ code, objGet m (jsKey sb.next) = some (.block (markerBlock tools D code)))
      ?_ _ _ m ?_ hw
    · intro m1 m2 hwrite hq
      cases hwrite with
      | clone k' e' hcop _ =>
        by_cases hkk : k' = jsKey sb.next
        · subst hkk
          exact absurd hcop (hn htr)
        · rw [objGet_objSet_ne _ _ _ _ hkk]
          exact hq
      | placed k' sb' xi yi htop' _ =>
        by_cases hkk : k' = jsKey sb.next
        · subst hkk
          exact absurd (Or.inl htop') (hn htr)
        · rw [objGet_objSet_ne _ _ _ _ hkk]
          exact hq
      | marker D' sb' code' htop' hsrc' ht' =>
        by_cases hkk : jsKey sb'.next = jsKey sb.next
        · have hDD := hshare htr D' sb' htop' hsrc' ht' hkk
          subst hDD
          rw [hkk]
          exact ⟨code', objGet_objSet_self _ _ _⟩
        · rw [objGet_objSet_ne _ _ _ _ hkk]
          exact hq
      | erase k' hp _ =>
        by_cases hkk : k' = jsKey sb.next
        · subst hkk
          exact absurd (Or.inr (Or.inr hp)) (hn htr)
        · rw [objGet_objErase_ne _ _ _ hkk]
          exact hq
    · intro m1
      exact ⟨code, objGet_objSet_self _ _ _⟩
  refine ⟨?_, ⟨?_, ?_⟩, ?_⟩
  · rw [hfreshget D (fun hi0 j => (hfresh hi0 j).1)]
    obtain ⟨hb, h1, h2, h3, _⟩ := top_copy_kept tools t.blocks c m D sb hfacts htop hsrc hD
    exact ⟨hb, h1, h2, h3⟩
  · rintro ⟨k, mk, hget, hop, hpar⟩
    exact (hunique1 k mk hget hop hpar).1
  · intro htr
    obtain ⟨code, hget⟩ := hmarker htr
    exact ⟨_, _, hget, rfl, rfl⟩
  · intro k mk hget hop hpar
    exact (hunique1 k mk hget hop hpar).2

theorem procProject_rebuilds : rebuild demoTools procProject [procCache] = .ok procRebuilt :=
  rfl

theorem proc_top_cases (k : String) (h : IsCompiledTop procCache k) : k = "h" ∨ k = "d" := by
  rcases h with ⟨r, hr, _⟩ | ⟨info, hinfo, hk⟩
  · simp only [procCache, List.mem_singleton, Prod.mk.injEq] at hr
    exact Or.inl hr.1
  · simp only [procCache, List.mem_singleton] at hinfo
    subst hinfo
    exact Or.inr hk.symm

theorem proc_proto_cases (k : String) (h : IsPrototypeOf procBlocks procCache k) : k = "p" := by
  obtain ⟨info, b, cb, hinfo, hb, hcb, hk⟩ := h
  simp only [procCache, List.mem_singleton] at hinfo
  subst hinfo
  have h1 : objGet procBlocks "d" = some (.block procDefinition) := rfl
  simp only [h1, Option.some.injEq, BlockEntry.block.injEq] at hb
  subst hb
  have h2 : objGet procDefinition.inputs "custom_block" = some ⟨1, .id "p", none⟩ := rfl
  rw [h2] at hcb
  injection hcb with hcb
  subst hcb
  exact hk.symm

theorem proc_param_cases (k : String) (h : IsParameterOf procBlocks procCache k) : k = "a" := by
  obtain ⟨p, proto, i, hp, hsrc, hi, _, hkey⟩ := h
  have hpp := proc_proto_cases p hp
  subst hpp
  have h1 : objGet procBlocks "p" = some (.block procPrototype) := rfl
  simp only [h1, Option.some.injEq, BlockEntry.block.injEq] at hsrc
  subst hsrc
  simp only [objValues, procPrototype, List.map, List.mem_singleton] at hi
  subst hi
  exact hkey.symm

theorem proc_copied_cases (k : String) (h : IsCopied procBlocks procCache k) :
    k = "h" ∨ k = "d" ∨ k = "p" ∨ k = "a" := by
  rcases h with h | h | h
  · rcases proc_top_cases k h with h | h
    · exact Or.inl h
    · exact Or.inr (Or.inl h)
  · exact Or.inr (Or.inr (Or.inl (proc_proto_cases k h)))
  · exact Or.inr (Or.inr (Or.inr (proc_param_cases k h)))

theorem proc_succ_cases (k : String) (h : IsSuccessor procBlocks procCache k) :
    k = "b1" ∨ k = "m1" := by
  obtain ⟨D, sb, hD, hsb, _, hk⟩ := h
  rcases proc_top_cases D hD with hD | hD
  · subst hD
    have h1 : objGet procBlocks "h" = some (.block procHat) := rfl
    simp only [h1, Option.some.injEq, BlockEntry.block.injEq] at hsb
    subst hsb
    exact Or.inl hk.symm
  · subst hD
    have h1 : objGet procBlocks "d" = some (.block procDefinition) := rfl
    simp only [h1, Option.some.injEq, BlockEntry.block.injEq] at hsb
    subst hsb
    exact Or.inr hk.symm

theorem demoTools_uid_ne (j : Nat) (k : String) (hk : k.data.head? ≠ some 'u') :
    demoTools.uid j ≠ k := by
  intro h
  apply hk
  rw [← h]
  simp [demoTools, List.replicate]

theorem proc_params_exist (k : String) (h : IsParameterOf procBlocks procCache k) :
    ∃ e, objGet procBlocks k = some e := by
  have hk := proc_param_cases k h
  subst hk
  exact ⟨_, rfl⟩

/-- C12, instance: in the rebuilt `procProject` the prototype `p` and the
placeholder id `u` are keys, and the second body block `b2` of the hat has no
entry. -/
theorem rebuilt_key_set_witness :
    rebuild demoTools procProject [procCache] = .ok procRebuilt ∧
    objHas procRebuiltTarget.blocks "p" = true ∧
    objHas procRebuiltTarget.blocks "u" = true ∧
    objGet procRebuiltTarget.blocks "b2" = none := by
  have h := rebuilt_key_set demoTools procProject [procCache] procRebuilt rfl 0 procTarget
    procRebuiltTarget procCache rfl rfl rfl proc_params_exist
  refine ⟨rfl, ?_, ?_, ?_⟩
  · exact (h.1 "p").mpr (Or.inr (Or.inl
      ⟨⟨"d", "g"⟩, procDefinition, ⟨1, .id "p", none⟩, List.mem_singleton_self _, rfl, rfl, rfl⟩))
  · exact (h.1 "u").mpr (Or.inr (Or.inr (Or.inr (Or.inr ⟨rfl, 0, by decide, rfl⟩))))
  · refine h.2 "b2" ?_ ?_ ?_ ?_ ?_
    · intro hc
      rcases proc_top_cases _ hc with hc | hc <;> exact absurd hc (by decide)
    · intro hc
      exact absurd (proc_proto_cases _ hc) (by decide)
    · intro hc
      exact absurd (proc_param_cases _ hc) (by decide)
    · intro hc
      rcases proc_succ_cases _ hc with hc | hc <;> exact absurd hc (by decide)
    · intro j
      exact demoTools_uid_ne j "b2" (by decide)

/-- C15, instance: in the rebuilt `procProject` the hat `h` differs from the
original in `x`, `y` only, and the prototype `p` is the original entry. -/
theorem copies_equal_originals_witness :
    rebuild demoTools procProject [procCache] = .ok procRebuilt ∧
    (∃ hb, objGet procRebuiltTarget.blocks "h" = some (.block hb) ∧
      hb.opcode = procHat.opcode ∧ hb.next = procHat.next ∧ hb.parent = procHat.parent ∧
      hb.inputs = procHat.inputs ∧ hb.fields = procHat.fields ∧
      hb.shadow = procHat.shadow ∧ hb.topLevel = procHat.topLevel ∧
      hb.mutation = procHat.mutation) ∧
    objGet procRebuiltTarget.blocks "p" = some (.block procPrototype) := by
  have h := copies_equal_originals demoTools procProject [procCache] procRebuilt rfl 0
    procTarget procRebuiltTarget procCache rfl rfl rfl
  refine ⟨rfl, ?_, ?_⟩
  · refine h.1 "h" procHat (Or.inl ⟨⟨true, "f"⟩, List.mem_singleton_self _, rfl⟩) rfl ?_ ?_
    · intro hc
      rcases proc_succ_cases _ hc with hc | hc <;> exact absurd hc (by decide)
    · intro _ j
      exact demoTools_uid_ne j "h" (by decide)
  · refine h.2 "p" _ (Or.inl
      ⟨⟨"d", "g"⟩, procDefinition, ⟨1, .id "p", none⟩, List.mem_singleton_self _, rfl, rfl, rfl⟩)
      rfl ?_ ?_ ?_
    · intro hc
      rcases proc_top_cases _ hc with hc | hc <;> exact absurd hc (by decide)
    · intro hc
      rcases proc_succ_cases _ hc with hc | hc <;> exact absurd hc (by decide)
    · intro _ j
      exact demoTools_uid_ne j "p" (by decide)

/-- C11, instance: in the rebuilt `procProject` the definition `d`, whose
`next` is `m1`, is still present and the only `kylin_compile` block with
parent `d` is the one stored under `m1`. -/
theorem marker_iff_body_witness :
    rebuild demoTools procProject [procCache] = .ok procRebuilt ∧
    (∃ hb, objGet procRebuiltTarget.blocks "d" = some (.block hb) ∧
      hb.opcode = procDefinition.opcode ∧ hb.next = procDefinition.next) ∧
    ((∃ k mk, objGet procRebuiltTarget.blocks k = some (.block mk) ∧
      mk.opcode = "kylin_compile" ∧ mk.parent = some "d") ↔
        truthy procDefinition.next = true) ∧
    (∀ k mk, objGet procRebuiltTarget.blocks k = some (.block mk) →
      mk.opcode = "kylin_compile" → mk.parent = some "d" → k = jsKey procDefinition.next) := by
  refine ⟨rfl, ?_⟩
  refine marker_iff_body demoTools procProject [procCache] procRebuilt rfl 0 procTarget
    procRebuiltTarget procCache rfl rfl rfl "d" procDefinition
    (Or.inr ⟨⟨"d", "g"⟩, List.mem_singleton_self _, rfl⟩) rfl ?_ ?_ ?_ ?_ ?_
  · intro k mk hcop hget
    rcases proc_copied_cases k hcop with hk | hk | hk | hk <;> subst hk
    · have h1 : objGet procTarget.blocks "h" = some (.block procHat) := rfl
      simp only [h1, Option.some.injEq, BlockEntry.block.injEq] at hget
      subst hget
      decide
    · have h1 : objGet procTarget.blocks "d" = some (.block procDefinition) := rfl
      simp only [h1, Option.some.injEq, BlockEntry.block.injEq] at hget
      subst hget
      decide
    · have h1 : objGet procTarget.blocks "p" = some (.block procPrototype) := rfl
      simp only [h1, Option.some.injEq, BlockEntry.block.injEq] at hget
      subst hget
      decide
    · have h1 : objGet procTarget.blocks "a" = some (.block procParameter) := rfl
      simp only [h1, Option.some.injEq, BlockEntry.block.injEq] at hget
      subst hget
      decide
  · intro hc
    rcases proc_succ_cases _ hc with hc | hc <;> exact absurd hc (by decide)
  · intro _ hc
    rcases proc_copied_cases _ hc with hc | hc | hc | hc <;> exact absurd hc (by decide)
  · intro _ D' sb' hD' hsb' _ hkey
    rcases proc_top_cases D' hD' with hD | hD
    · subst hD
      have h1 : objGet procTarget.blocks "h" = some (.block procHat) := rfl
      simp only [h1, Option.some.injEq, BlockEntry.block.injEq] at hsb'
      subst hsb'
      exact absurd hkey (by decide)
    · exact hD
  · intro _ j
    exact ⟨demoTools_uid_ne j "d" (by decide), fun _ => demoTools_uid_ne j _ (by decide)⟩

end Writes

section Runtime

theorem includesChars_iff (search text : List Char) :
    includesChars search text = true ↔ search <:+: text := by
  induction text with
  | nil => simp [includesChars]
  | cons c rest ih =>
    simp only [includesChars, Bool.or_eq_true, List.isPrefixOf_iff_prefix, ih,
      List.infix_cons_iff]

theorem includes_iff (text search : String) :
    includes text search = true ↔ search.data <:+: text.data :=
  includesChars_iff _ _

theorem insertRuntime_fold (table : Obj String) (source : String) (keys : List String) :
    ∀ acc : String,
      keys.foldl
        (fun result functionName =>
          if includes source functionName then
            result ++ (templateText (objGet table functionName) ++ ";")
          else result) acc =
      acc ++ concatStrings ((keys.filter (fun k => includes source k)).map
        (fun k => templateText (objGet table k) ++ ";")) := by
  induction keys with
  | nil =>
    intro acc
    simp [concatStrings]
  | cons k rest ih =>
    intro acc
    rw [List.foldl_cons, ih]
    by_cases h : includes source k = true
    · simp only [h, if_true, List.filter_cons, List.map_cons, concatStrings,
        String.append_assoc]
    · simp only [h, List.filter_cons, Bool.false_eq_true, if_false]

theorem objGet_of_mem {α : Type} (o : Obj α) (k : String) (v : α) :
    (objKeys o).Nodup → (k, v) ∈ o → objGet o k = some v := by
  induction o with
  | nil =>
    intro _ hm
    cases hm
  | cons e rest ih =>
    obtain ⟨k1, w⟩ := e
    intro hnd hm
    simp only [objKeys, List.map_cons, List.nodup_cons] at hnd
    simp only [objGet]
    rcases List.mem_cons.mp hm with heq | hin
    · injection heq with h1 h2
      rw [if_pos h1.symm, h2]
    · have hk : k ∈ rest.map Prod.fst := List.mem_map.mpr ⟨(k, v), hin, rfl⟩
      have hne : k1 ≠ k := fun h => hnd.1 (h ▸ hk)
      rw [if_neg hne]
      exact ih hnd.2 hin

theorem insertRuntime_pieces (table : Obj String) (source : String)
    (hkeys : (objKeys table).Nodup) :
    ((objKeys table).filter (fun k => includes source k)).map
        (fun k => templateText (objGet table k) ++ ";") =
      (table.filter (fun e => decide (e.1.data <:+: source.data))).map
        (fun e => e.2 ++ ";") := by
  have hp : (fun e : String × String => decide (e.1.data <:+: source.data)) =
      (fun k => includes source k) ∘ Prod.fst := by
    funext e
    rw [Bool.eq_iff_iff]
    simp only [decide_eq_true_eq, Function.comp_apply]
    exact (includes_iff source e.1).symm
  rw [hp, objKeys, List.filter_map, List.map_map]
  apply List.map_congr_left
  intro e he
  have hmem : e ∈ table := (List.mem_filter.mp he).1
  simp only [Function.comp_apply]
  rw [objGet_of_mem table e.1 e.2 hkeys hmem]
  rfl

/-- C21: for a helper table whose names are pairwise different (as the keys of
an object are), `insertRuntime` returns the base runtime, then for each entry
of the table, in table order, whose name occurs as a substring of the source,
its body followed by `;` (and nothing for the other entries), then `return `
and the source text. -/
theorem insertRuntime_layout (baseRuntime : String) (runtimeFunctions : Obj String)
    (source : String) (hkeys : (objKeys runtimeFunctions).Nodup) :
    insertRuntime baseRuntime runtimeFunctions source =
      baseRuntime ++
        concatStrings ((runtimeFunctions.filter
          (fun e => decide (e.1.data <:+: source.data))).map (fun e => e.2 ++ ";")) ++
        "return " ++ source := by
  unfold insertRuntime
  simp only
  rw [insertRuntime_fold, insertRuntime_pieces runtimeFunctions source hkeys,
    String.append_assoc, String.append_assoc, String.append_assoc]

/-- C21, instance: with the three helpers of `smallHelpers` and a source naming
`mod` and `nanToZero`, the result is the base runtime, the bodies of
`nanToZero` and `mod` in table order, and the returned source. -/
theorem insertRuntime_layout_witness :
    (objKeys smallHelpers).Nodup ∧
    insertRuntime smallRuntime smallHelpers smallSource =
      smallRuntime ++
        concatStrings ((smallHelpers.filter
          (fun e => decide (e.1.data <:+: smallSource.data))).map (fun e => e.2 ++ ";")) ++
        "return " ++ smallSource ∧
    insertRuntime smallRuntime smallHelpers smallSource =
      "let stuckCounter = 0;const nanToZero = v => v || 0;const mod = (n, m) => n % m;return () => mod(nanToZero(a), 3)" :=
  ⟨by decide, insertRuntime_layout smallRuntime smallHelpers smallSource (by decide),
    by decide⟩

theorem wrapInt32_range (i : Int) :
    -2147483648 ≤ wrapInt32 i ∧ wrapInt32 i < 2147483648 := by
  unfold wrapInt32
  simp only
  split <;> omega

theorem wrapInt32_id (i : Int) (hlo : -2147483648 ≤ i) (hhi : i < 2147483648) :
    wrapInt32 i = i := by
  unfold wrapInt32
  simp only
  split <;> omega

theorem listIndex_number (stringToNumber : String → JsNumber) (pick : Int → Int)
    (x : JsNumber) (length : Int) :
    listIndex stringToNumber pick (.number x) length =
      if toInt32 x < 1 ∨ toInt32 x > length then -1 else toInt32 x - 1 :=
  rfl

theorem toInt32_orZero (x : JsNumber) : toInt32 (orZero x) = toInt32 x := by
  cases x with
  | int i =>
    by_cases h : i = 0
    · subst h
      rfl
    · simp [orZero, numberTruthy, h]
  | fraction t => rfl
  | nan => rfl
  | infinity b => rfl

theorem listIndexSlow_number (stringToNumber : String → JsNumber) (pick : Int → Int)
    (x : JsNumber) (length : Int) :
    listIndexSlow stringToNumber pick (.number x) length =
      listIndex stringToNumber pick (.number x) length := by
  rw [listIndex_number]
  unfold listIndexSlow
  rw [if_neg (by simp), if_neg (by simp)]
  simp only [unaryPlus, toInt32_orZero]

/-- C22 as stated fails: for the integer index `2^32 + 1` and a list of length
one, the index is above the length, yet `listIndex` returns position `0`
instead of `-1`. -/
theorem listIndex_wraps_large_index :
    ¬ ((1 : Int) ≤ 4294967297 ∧ (4294967297 : Int) ≤ ((1 : Nat) : Int)) ∧
    listIndex neverNumber firstPick (.number (.int 4294967297)) ((1 : Nat) : Int) = 0 ∧
    listIndex neverNumber firstPick (.number (.int 4294967297)) ((1 : Nat) : Int) ≠ -1 := by
  decide

/-- C22, amended: for every list length `n` and every integer index in the
signed 32-bit range, `listIndex` returns `index - 1` when `1 ≤ index ≤ n` and
`-1` otherwise; for every integer index the result is `-1` or a position
from `0` to `n - 1`, and `listIndexSlow` returns the same value as `listIndex`;
`listIndexSlow` of `last` returns `n - 1`, which is `-1` when `n = 0`. An
integer index outside the 32-bit range is treated as its reduction
`wrapInt32 index`. -/
theorem listIndex_in_int32_range (stringToNumber : String → JsNumber) (pick : Int → Int)
    (n : Nat) :
    (∀ index : Int, -2147483648 ≤ index → index < 2147483648 →
      listIndex stringToNumber pick (.number (.int index)) n =
        if 1 ≤ index ∧ index ≤ n then index - 1 else -1) ∧
    (∀ index : Int,
      listIndex stringToNumber pick (.number (.int index)) n = -1 ∨
      (0 ≤ listIndex stringToNumber pick (.number (.int index)) n ∧
        listIndex stringToNumber pick (.number (.int index)) n < n)) ∧
    (∀ index : Int,
      listIndexSlow stringToNumber pick (.number (.int index)) n =
        listIndex stringToNumber pick (.number (.int index)) n) ∧
    listIndexSlow stringToNumber pick (.string "last") n = (n : Int) - 1 ∧
    (n = 0 → listIndexSlow stringToNumber pick (.string "last") n = -1) ∧
    (∀ index : Int,
      listIndex stringToNumber pick (.number (.int index)) n =
        if 1 ≤ wrapInt32 index ∧ wrapInt32 index ≤ n then wrapInt32 index - 1 else -1) := by
  refine ⟨?_, ?_, ?_, ?_, ?_, ?_⟩
  · intro index hlo hhi
    rw [listIndex_number]
    simp only [toInt32, wrapInt32_id index hlo hhi]
    split <;> split <;> omega
  · intro index
    rw [listIndex_number]
    split <;> omega
  · intro index
    exact listIndexSlow_number stringToNumber pick (.int index) n
  · unfold listIndexSlow
    rw [if_pos rfl]
  · intro hn
    subst hn
    unfold listIndexSlow
    rw [if_pos rfl]
    rfl
  · intro index
    rw [listIndex_number]
    simp only [toInt32]
    split <;> split <;> omega

/-- C22, instance: with five items, index `3` is in the 32-bit range and gives
position `2`, index `6` gives `-1`, and `last` gives position `4`. -/
theorem listIndex_in_int32_range_witness :
    (-2147483648 : Int) ≤ 3 ∧ (3 : Int) < 2147483648 ∧
    listIndex neverNumber firstPick (.number (.int 3)) ((5 : Nat) : Int) =
      (if (1 : Int) ≤ 3 ∧ (3 : Int) ≤ ((5 : Nat) : Int) then 3 - 1 else -1) ∧
    listIndex neverNumber firstPick (.number (.int 3)) ((5 : Nat) : Int) = 2 ∧
    listIndex neverNumber firstPick (.number (.int 6)) ((5 : Nat) : Int) = -1 ∧
    listIndexSlow neverNumber firstPick (.string "last") ((5 : Nat) : Int) = 4 :=
  ⟨by decide, by decide,
    (listIndex_in_int32_range neverNumber firstPick 5).1 3 (by decide) (by decide),
    by decide, by decide, by decide⟩

end Runtime

end Kylin
